import Mathlib

/-!
# did-you-mean: a trie with per-node edit-distance rows

A shallow embedding of `did-you-mean.c`, and the properties of its trie, of the
propagation of the distance rows and of the selection of the nearest words.

Conventions of the embedding:

* A C string is the list of its bytes before the terminating NUL, each a number below
  256.  Two `char`s are equal when their bytes are, and `%c` prints the byte.  Where a
  `char` is used as an `int`, it is signed: `trie_add` passes `char id = word[i]` as the
  index into the 255 child slots of a node, and `to_char` gives that value, which is
  negative for the bytes from 128 on.
* A function answers `none` where the behaviour of the C function is undefined.  This
  is the case of `trie_subnode` for an index outside the child table of the node, hence
  of `trie_add` when it reaches a byte from 128 on in a word, and of `load_dict` and
  `main` for a dictionary with such a word.  The results on inserted words ask for
  bytes below 128, where the index is the byte itself.
* A pointer to a `struct trienode` is an address (`Nat`) into `trie.heap`.  Address `0`
  is the root embedded in `struct trie`; the cells after it are the nodes obtained from
  `calloc`, in allocation order.  `NULL` is `none`.
* An array read `a[i]` is `List.getD` and a write is `List.set`.  The index `id` of
  `trie_subnode` is checked there; the invariant `WF` says that every other index the
  program uses is in range.
* The `calloc` of a node in `trie_subnode` may fail: `trie.calloc` lists the outcomes of
  the coming calls.  The allocations of `trie_new` and of the rows, whose failure the
  program does not survive, succeed.
* `int` values are natural numbers where the program never makes them negative
  (depths, row entries, counters) and integers where it tests the sign (the value
  returned by a walk, the result of `load_dict`).  No value comes near `INT_MAX`.
* A recursive C function takes a fuel argument that bounds the depth of the recursion
  and answers `none` when it runs out; the entry points pass the number of cells of the
  heap, which is shown to be enough.
* Text written to standard output is returned as a list of bytes; text written to
  standard error is left out.
-/

namespace DidYouMean

/-! ### The program -/

/-- The C struct `trienode`; `data` is the row of `int`s the `void *data` points to. -/
structure trienode where
  id : Nat
  eow : Bool
  depth : Nat
  data : List Nat
  parent : Option Nat
  subnodes : List (Option Nat)

/-- The C struct `trie` together with the memory that holds its nodes.
`calloc` lists the outcomes of the coming `calloc` calls for nodes (`false`: the
call returns `NULL`); when the list is used up every call succeeds. -/
structure trie where
  heap : List trienode
  nodecnt : Nat
  word : List Nat
  calloc : List Bool

/-- A cell as `calloc` returns it: all fields zero. -/
def trienode.zero : trienode :=
  { id := 0, eow := false, depth := 0, data := [], parent := none,
    subnodes := List.replicate 255 none }

/-- The node stored at an address. -/
def trie.node (t : trie) (n : Nat) : trienode := t.heap.getD n trienode.zero

/-- Read of `node->subnodes[i]`. -/
def trienode.sub (nd : trienode) (i : Nat) : Option Nat := nd.subnodes.getD i none

/-- Store into the cell at an address. -/
def trie.store (t : trie) (n : Nat) (nd : trienode) : trie :=
  { t with heap := t.heap.set n nd }

/-- `trie_new` (lines 58-81), allocations succeeding: a zeroed trie whose root
row has `strlen (word)` zero entries. -/
def trie_new (word : List Nat) (script : List Bool) : trie :=
  { heap := [{ trienode.zero with data := List.replicate word.length 0 }],
    nodecnt := 0, word := word, calloc := script }

/-- The `int` value of a byte read through `char`, which is signed. -/
def to_char (c : Nat) : Int := if c < 128 then (c : Int) else (c : Int) - 256

/-- `trie_subnode` (lines 84-106): the child of `node` under `id`, created when absent.
The second component is the returned pointer.  The answer is `none` when `id` is not an
index of `node->subnodes`. -/
def trie_subnode (t : trie) (node : Nat) (id : Int) : Option (trie × Option Nat) :=
  if 0 ≤ id ∧ id < 255 then
    match (t.node node).sub id.toNat with
    | some subnode => some (t, some subnode)
    | none =>
      match t.calloc with
      | false :: rest => some ({ t with calloc := rest }, none)
      | script =>
        let subnode := t.heap.length
        let cell : trienode :=
          { id := id.toNat, eow := false, depth := (t.node node).depth + 1,
            data := List.replicate t.word.length 0, parent := some node,
            subnodes := List.replicate 255 none }
        let up : trienode :=
          { t.node node with subnodes := (t.node node).subnodes.set id.toNat (some subnode) }
        some ({ heap := t.heap.set node up ++ [cell], nodecnt := t.nodecnt + 1,
                word := t.word, calloc := script.tail }, some subnode)
  else none

/-- The C library `isspace` in the "C" locale: space, `\t`, `\n`, `\v`, `\f`, `\r`. -/
def isspace (c : Nat) : Bool := c == 32 || (9 ≤ c && c ≤ 13)

/-- The `for` loop of `trie_add` (lines 119-129) from the current character on:
the node reached, or `none` for the pointer when `trie_subnode` returned `NULL`. -/
def trie_add_loop : List Nat → trie → Nat → Option (trie × Option Nat)
  | [], t, node => some (t, some node)
  | c :: cs, t, node =>
    if isspace c then some (t, some node)
    else
      match trie_subnode t node (to_char c) with
      | none => none
      | some (t1, none) => some (t1, none)
      | some (t1, some subnode) => trie_add_loop cs t1 subnode

/-- `trie_add` (lines 109-134). -/
def trie_add (t : trie) (word : List Nat) : Option (trie × Int) :=
  match trie_add_loop word t 0 with
  | none => none
  | some (t1, none) => some (t1, -1)
  | some (t1, some node) => some (t1.store node { t1.node node with eow := true }, 0)

/-- The type of the callback `fn` of a walk, its `data` argument already bound:
the trie after the call, the bytes printed, and the returned `int`. -/
abbrev walkfn := trie → Nat → Option (trie × List Nat × Int)

/-- The `for` loop of `trienode_walk` (lines 183-191) over the remaining slots;
`walk` is the recursive call. -/
def walk_subnodes (walk : walkfn) (node : Nat) :
    List Nat → trie → List Nat → Int → Option (trie × List Nat × Int)
  | [], t, out, ret => some (t, out, ret)
  | i :: is, t, out, ret =>
    match (t.node node).sub i with
    | some trav =>
      match walk t trav with
      | none => none
      | some (t1, o, r) =>
        if ret + r < 0 then some (t1, out ++ o, ret + r)
        else walk_subnodes walk node is t1 (out ++ o) (ret + r)
    | none =>
      if ret < 0 then some (t, out, ret) else walk_subnodes walk node is t out ret

/-- `trienode_walk` (lines 168-195). -/
def trienode_walk (fn : walkfn) (eowonly : Bool) : Nat → trie → Nat → Option (trie × List Nat × Int)
  | 0, _, _ => none
  | fuel + 1, t, node =>
    match (if !eowonly || (t.node node).eow then fn t node else some (t, [], 0)) with
    | none => none
    | some (t1, o1, ret) =>
      if ret ≠ 0 then some (t1, o1, ret)
      else walk_subnodes (trienode_walk fn eowonly fuel) node (List.range 255) t1 o1 ret

/-- `trie_walk` (lines 198-203). -/
def trie_walk (t : trie) (fn : walkfn) (eowonly : Bool) : Option (trie × List Nat × Int) :=
  trienode_walk fn eowonly t.heap.length t 0

/-- `print_node` (lines 231-240): the bytes printed. -/
def print_node (t : trie) : Nat → Nat → Option (List Nat)
  | 0, _ => none
  | fuel + 1, node =>
    match (t.node node).parent with
    | some p =>
      match print_node t fuel p with
      | none => none
      | some o => some (o ++ [(t.node node).id])
    | none => some []

/-- The anonymous struct passed to `print_if_equal`. -/
structure msg where
  len : Nat
  wordlen : Nat

/-- `print_if_equal` (lines 243-263). -/
def print_if_equal (m : msg) (t : trie) (node : Nat) : Option (trie × List Nat × Int) :=
  if (t.node node).data.getD (m.wordlen - 1) 0 = m.len then
    match print_node t t.heap.length node with
    | none => none
    | some o => some (t, o ++ [32], 1)
  else some (t, [], 0)

/-- The root loop of `calc_dist` (lines 282-283): `n` iterations left, at index `i`. -/
def calc_dist_root : Nat → Nat → List Nat → List Nat
  | 0, _, row => row
  | n + 1, i, row => calc_dist_root n (i + 1) (row.set i (i + 1))

/-- The loop of `calc_dist` (lines 293-305): `n` iterations left, at index `i`. -/
def calc_dist_loop (word : List Nat) (id : Nat) (uprow : List Nat) :
    Nat → Nat → List Nat → Nat → Nat → List Nat
  | 0, _, row, _, _ => row
  | n + 1, i, row, distu, distul =>
    let distl := uprow.getD i 0
    let v := if word.getD i 0 = id then distul
             else min (distul + 1) (min (distu + 1) (distl + 1))
    calc_dist_loop word id uprow n (i + 1) (row.set i v) v distl

/-- `calc_dist` (lines 266-308). -/
def calc_dist (word : List Nat) (t : trie) (node : Nat) : Option (trie × List Nat × Int) :=
  let row := (t.node node).data
  match (t.node node).parent with
  | none =>
    some (t.store node { t.node node with data := calc_dist_root word.length 0 row }, [], 0)
  | some p =>
    let uprow := (t.node p).data
    let distu := (t.node node).depth
    let distul := (t.node p).depth
    some (t.store node { t.node node with
            data := calc_dist_loop word (t.node node).id uprow word.length 0 row distu distul },
          [], 0)

/-- The threshold loop of `trie_measure` (lines 334-339): `n` iterations left, at `i`. -/
def trie_measure_loop (len : Nat) : Nat → Nat → trie → List Nat → Option (trie × List Nat × Nat)
  | 0, i, t, out => some (t, out, i)
  | n + 1, i, t, out =>
    match trie_walk t (print_if_equal { len := i, wordlen := len }) true with
    | none => none
    | some (t1, o, ret) =>
      if ret ≠ 0 then some (t1, out ++ o, i)
      else trie_measure_loop len n (i + 1) t1 (out ++ o)

/-- `trie_measure` (lines 311-345): the trie afterwards, the bytes written to
standard output, and the returned `i`. -/
def trie_measure (t : trie) (word : List Nat) : Option (trie × List Nat × Nat) :=
  match trie_walk t (calc_dist word) false with
  | none => none
  | some (t1, o1, _) => trie_measure_loop word.length word.length 0 t1 o1

/-- The `while` loop of `load_dict` (lines 218-223) over the lines `fgets` yields. -/
def load_dict_loop : List (List Nat) → trie → Nat → Option (trie × Nat)
  | [], t, cnt => some (t, cnt)
  | word :: more, t, cnt =>
    match trie_add t word with
    | none => none
    | some (t1, ret) => if ret ≠ 0 then some (t1, cnt) else load_dict_loop more t1 (cnt + 1)

/-- `load_dict` (lines 206-228); `file` is `none` when `fopen` fails, else the lines. -/
def load_dict (t : trie) (file : Option (List (List Nat))) : Option (trie × Int) :=
  match file with
  | none => some (t, -1)
  | some lines =>
    match load_dict_loop lines t 0 with
    | none => none
    | some (t1, cnt) => some (t1, (cnt : Int))

/-- `main` (lines 348-378): `argv` without the program name, the file system as a
function of the file name, and the allocator script.  Returns the exit code and
standard output. -/
def main (argv : List (List Nat)) (fs : List Nat → Option (List (List Nat)))
    (script : List Bool) : Option (Int × List Nat) :=
  match argv with
  | [dictfile, word] =>
    match load_dict (trie_new word script) (fs dictfile) with
    | none => none
    | some (t, ret) =>
      if ret ≤ 0 then some (1, [])
      else
        match trie_measure t word with
        | none => none
        | some (_, out, _) => some (0, out)
  | _ => some (1, [])

/-- The bytes of a string literal of ASCII characters. -/
def bytes (s : String) : List Nat := s.toList.map Char.toNat

/-! ### Notions used to state the properties -/

/-- The unit-cost Levenshtein distance (Mathlib's `levenshtein` with the default cost). -/
def lev (a b : List Nat) : Nat := levenshtein Levenshtein.defaultCost a b

/-- The node reached from `node` along a path of characters, following child slots. -/
def descend (t : trie) : Nat → List Nat → Option Nat
  | node, [] => some node
  | node, c :: cs =>
    match (t.node node).sub c with
    | some subnode => descend t subnode cs
    | none => none

/-- The part of a line that `trie_add` consumes: up to the first whitespace. -/
def token (w : List Nat) : List Nat := w.takeWhile (fun c => !isspace c)

/-- Structural invariant of the node memory. -/
structure WF (t : trie) : Prop where
  pos : 0 < t.heap.length
  root_parent : (t.node 0).parent = none
  root_depth : (t.node 0).depth = 0
  slots : ∀ k, k < t.heap.length → (t.node k).subnodes.length = 255
  rows : ∀ k, k < t.heap.length → (t.node k).data.length = t.word.length
  up : ∀ k, 0 < k → k < t.heap.length → ∃ p, (t.node k).parent = some p ∧ p < k ∧
    (t.node p).sub (t.node k).id = some k ∧ (t.node k).depth = (t.node p).depth + 1
  down : ∀ p c k, p < t.heap.length → (t.node p).sub c = some k →
    p < k ∧ k < t.heap.length ∧ (t.node k).parent = some p ∧ (t.node k).id = c

/-- `t1` extends `t`: the old cells keep every field but their child slots, and
the new cells are not ends of words. -/
structure Ext (t t1 : trie) : Prop where
  len : t.heap.length ≤ t1.heap.length
  word : t1.word = t.word
  keep : ∀ k, k < t.heap.length →
    (t1.node k).id = (t.node k).id ∧ (t1.node k).eow = (t.node k).eow ∧
    (t1.node k).depth = (t.node k).depth ∧ (t1.node k).data = (t.node k).data ∧
    (t1.node k).parent = (t.node k).parent
  fresh : ∀ k, t.heap.length ≤ k → k < t1.heap.length → (t1.node k).eow = false

/-- The trie after `trie_subnode` has allocated and linked a new child. -/
def grown (t : trie) (node id : Nat) (s : List Bool) : trie :=
  { heap := t.heap.set node
      { t.node node with subnodes := (t.node node).subnodes.set id (some t.heap.length) } ++
      [{ id := id, eow := false, depth := (t.node node).depth + 1,
         data := List.replicate t.word.length 0, parent := some node,
         subnodes := List.replicate 255 none }],
    nodecnt := t.nodecnt + 1, word := t.word, calloc := s }

/-- `t1` has the shape of `t`: the same cells with the same links, characters and
depths, and rows of the same length. -/
structure Shape (t t1 : trie) : Prop where
  len : t1.heap.length = t.heap.length
  word : t1.word = t.word
  same : ∀ k, (t1.node k).id = (t.node k).id ∧ (t1.node k).depth = (t.node k).depth ∧
    (t1.node k).parent = (t.node k).parent ∧ (t1.node k).subnodes = (t.node k).subnodes ∧
    (t1.node k).data.length = (t.node k).data.length

/-- The tries reachable from `trie_new q` by calls of `trie_add` on words of bytes below
128, with the list of the words whose call returned 0 (in call order).  A call that
returned non-zero leaves the nodes it created in the trie. -/
inductive Built (q : List Nat) : trie → List (List Nat) → Prop
  | new (script : List Bool) : Built q (trie_new q script) []
  | add {t : trie} {ws : List (List Nat)} (w : List Nat) (x : trie × Int) :
      Built q t ws → (∀ c ∈ w, c < 128) → trie_add t w = some x → x.2 = 0 →
      Built q x.1 (ws ++ [w])
  | fail {t : trie} {ws : List (List Nat)} (w : List Nat) (x : trie × Int) :
      Built q t ws → (∀ c ∈ w, c < 128) → trie_add t w = some x → x.2 ≠ 0 →
      Built q x.1 ws

/-- What a trie built from the words `ws` looks like. -/
structure Inv (q : List Nat) (t : trie) (ws : List (List Nat)) : Prop where
  wf : WF t
  word : t.word = q
  eow_word : ∀ p n, descend t 0 p = some n → (t.node n).eow = true → ∃ w ∈ ws, p = token w
  word_eow : ∀ w ∈ ws, ∃ n, descend t 0 (token w) = some n ∧ (t.node n).eow = true

/-- The row of a node holds the distances between the node's path and the
non-empty prefixes of the query. -/
def RowOK (q : List Nat) (t : trie) (n : Nat) : Prop :=
  ∀ p, descend t 0 p = some n → ∀ i, i < q.length →
    (t.node n).data.getD i 0 = lev p (q.take (i + 1))

/-- What a propagation step keeps: the shape, the end-of-word flags, and every
row that was already right. -/
def CalcPost (q : List Nat) (t t1 : trie) : Prop :=
  Shape t t1 ∧ (∀ j, (t1.node j).eow = (t.node j).eow) ∧ (∀ j, RowOK q t j → RowOK q t1 j)

/-- The statement proved about the propagation walk with a given fuel. -/
def CalcWalk (q : List Nat) (fuel : Nat) : Prop :=
  ∀ (t : trie) (k : Nat), WF t → t.word = q → k < t.heap.length → t.heap.length ≤ fuel + k →
    (∀ pn, (t.node k).parent = some pn → RowOK q t pn) →
    ∃ t1, trienode_walk (calc_dist q) false fuel t k = some (t1, [], 0) ∧ CalcPost q t t1 ∧
      ∀ s m, descend t1 k s = some m → RowOK q t1 m

/-- The selection test of `print_if_equal` on a node. -/
def hit (m : msg) (t : trie) (n : Nat) : Prop :=
  (t.node n).data.getD (m.wordlen - 1) 0 = m.len

instance (m : msg) (t : trie) (n : Nat) : Decidable (hit m t n) := by
  unfold hit; infer_instance

/-- The words a selection walk reports below a node, as paths from that node:
each is an end of word that passes the test and has no such node strictly above it
(from the start node on), the list is strictly increasing, and every end of word
that passes the test has a reported word as a prefix. -/
structure SelPost (m : msg) (t : trie) (k : Nat) (R : List (List Nat)) : Prop where
  sound : ∀ s ∈ R, ∃ n, descend t k s = some n ∧ (t.node n).eow = true ∧ hit m t n
  minimal : ∀ s ∈ R, ∀ s1 n1, s1 <+: s → s1 ≠ s → descend t k s1 = some n1 →
    ¬ ((t.node n1).eow = true ∧ hit m t n1)
  sorted : R.Pairwise (List.Lex (· < ·))
  complete : ∀ s n, descend t k s = some n → (t.node n).eow = true → hit m t n →
    ∃ r ∈ R, r <+: s

/-- The text printed for the reported words `R` below a node with path `pk`. -/
def printed (pk : List Nat) (R : List (List Nat)) : List Nat :=
  (R.map (fun s => pk ++ s ++ [32])).flatten

/-- The statement proved about the selection walk with a given fuel. -/
def SelWalk (m : msg) (t : trie) (fuel : Nat) : Prop :=
  ∀ (k : Nat) (pk : List Nat), k < t.heap.length → t.heap.length ≤ fuel + k →
    descend t 0 pk = some k →
    ∃ R, trienode_walk (print_if_equal m) true fuel t k =
        some (t, printed pk R, (R.length : Int)) ∧ SelPost m t k R

/-- The words reported by the loop of a selection walk over the slots `is` of node `k`. -/
structure LoopPost (m : msg) (t : trie) (k : Nat) (is : List Nat) (R : List (List Nat)) :
    Prop where
  shape : ∀ s ∈ R, ∃ i s1 ch, s = i :: s1 ∧ i ∈ is ∧ (t.node k).sub i = some ch ∧
    (∃ n, descend t ch s1 = some n ∧ (t.node n).eow = true ∧ hit m t n) ∧
    (∀ s2 n2, s2 <+: s1 → s2 ≠ s1 → descend t ch s2 = some n2 →
      ¬ ((t.node n2).eow = true ∧ hit m t n2))
  sorted : R.Pairwise (List.Lex (· < ·))
  complete : ∀ i ∈ is, ∀ ch, (t.node k).sub i = some ch → ∀ s n, descend t ch s = some n →
    (t.node n).eow = true → hit m t n → ∃ r ∈ R, r <+: i :: s

/-- The words `R`, each followed by one space: the text of a report. -/
def spaced (R : List (List Nat)) : List Nat := (R.map (fun w => w ++ [32])).flatten

/-- No end of word passes the selection test for threshold `i`. -/
def NoHit (L : Nat) (t : trie) (i : Nat) : Prop :=
  ∀ s n, descend t 0 s = some n → (t.node n).eow = true → ¬ hit { len := i, wordlen := L } t n

/-- The outcome of `trie_measure` in terms of the inserted words. -/
structure Outcome (q : List Nat) (ws : List (List Nat)) (R : List (List Nat)) (j : Nat) :
    Prop where
  le : j ≤ q.length
  sound : ∀ r ∈ R, (∃ w ∈ ws, r = token w) ∧ lev r q = j ∧ j < q.length
  least : ∀ w ∈ ws, j ≤ lev (token w) q
  none : R = [] → j = q.length
  sorted : R.Pairwise (List.Lex (· < ·))
  complete : ∀ w ∈ ws, lev (token w) q = j → j < q.length → ∃ r ∈ R, r <+: token w
  minimal : ∀ r ∈ R, ∀ w ∈ ws, token w <+: r → token w ≠ r → lev (token w) q ≠ j

/-- The trie for the query `q` after inserting the words `ws` in order, every
allocation succeeding.  A word for which `trie_add` has no defined result is left out. -/
def dict (q : List Nat) (ws : List (List Nat)) : trie :=
  ws.foldl (fun t w => ((trie_add t w).getD (t, 0)).1) (trie_new q [])

/-- The word `r` is at distance `d` from the query and no inserted word that is a
proper prefix of `r` is at distance `d`. -/
def Selected (q : List Nat) (ws : List (List Nat)) (d : Nat) (r : List Nat) : Prop :=
  lev r q = d ∧ ∀ w ∈ ws, token w <+: r → token w ≠ r → lev (token w) q ≠ d

instance (q : List Nat) (ws : List (List Nat)) (d : Nat) (r : List Nat) :
    Decidable (Selected q ws d r) := by
  unfold Selected; infer_instance

/-- A small dictionary: the trie for the query "cog" after inserting the word "cat"
and the line "dog\n". -/
def demo : trie := dict (bytes "cog") [bytes "cat", bytes "dog\n"]

/-- `t1` differs from `t` in the entries of the rows only. -/
structure Frame (t t1 : trie) : Prop where
  nodecnt : t1.nodecnt = t.nodecnt
  word : t1.word = t.word
  calloc : t1.calloc = t.calloc
  len : t1.heap.length = t.heap.length
  same : ∀ k, (t1.node k).id = (t.node k).id ∧ (t1.node k).eow = (t.node k).eow ∧
    (t1.node k).depth = (t.node k).depth ∧ (t1.node k).parent = (t.node k).parent ∧
    (t1.node k).subnodes = (t.node k).subnodes ∧
    (t1.node k).data.length = (t.node k).data.length

/-- Every row is filled with zeros and as long as the query. -/
def ZeroRows (t : trie) : Prop :=
  ∀ k, k < t.heap.length → (t.node k).data = List.replicate t.word.length 0

/-- The callback `fn` with a log: after each call the address of the node it was applied
to is appended to the output. -/
def logged (fn : walkfn) : walkfn := fun t n =>
  match fn t n with
  | none => none
  | some (t1, o, r) => some (t1, o ++ [n], r)

/-- The log of a walk from node `k`: it starts with `k`, has every node below `k` once,
and every other node after its parent. -/
structure LogPost (t : trie) (k : Nat) (L : List Nat) : Prop where
  head : ∃ tl, L = k :: tl
  nodup : L.Nodup
  mem : ∀ m, m ∈ L ↔ ∃ s, descend t k s = some m
  order : ∀ A B m p, L = A ++ m :: B → m ≠ k → (t.node m).parent = some p → p ∈ A

/-- The log of the loop of a walk over the slots `is` of node `k`. -/
structure LoopLog (t : trie) (k : Nat) (is : List Nat) (L : List Nat) : Prop where
  nodup : L.Nodup
  mem : ∀ m, m ∈ L ↔ ∃ i ∈ is, ∃ ch s, (t.node k).sub i = some ch ∧ descend t ch s = some m
  order : ∀ A B m p, L = A ++ m :: B → (t.node m).parent = some p → p = k ∨ p ∈ A

/-- The statement proved about the propagation walk and its log with a given fuel. -/
def LogWalk (q : List Nat) (fuel : Nat) : Prop :=
  ∀ (t : trie) (k : Nat), WF t → k < t.heap.length → t.heap.length ≤ fuel + k →
    ∃ t1 L, trienode_walk (calc_dist q) false fuel t k = some (t1, [], 0) ∧
      trienode_walk (logged (calc_dist q)) false fuel t k = some (t1, L, 0) ∧
      Frame t t1 ∧ LogPost t k L

/-- The tries reachable from `trie_new q` by calls of `trie_add` on words of bytes below
128 that all returned 0, with the list of the inserted words. -/
inductive Inserted (q : List Nat) : trie → List (List Nat) → Prop
  | new (script : List Bool) : Inserted q (trie_new q script) []
  | add {t : trie} {ws : List (List Nat)} (w : List Nat) (x : trie × Int) :
      Inserted q t ws → (∀ c ∈ w, c < 128) → trie_add t w = some x → x.2 = 0 →
      Inserted q x.1 (ws ++ [w])

/-- The distinct non-empty prefixes of the inserted words, each word cut at its first
whitespace. -/
def prefixes (ws : List (List Nat)) : List (List Nat) :=
  ((ws.flatMap (fun w => (token w).inits)).filter (fun p => decide (p ≠ []))).dedup

/-- The nodes of a trie built from the words `ws` without a failed insertion. -/
structure PInv (t : trie) (ws : List (List Nat)) : Prop where
  node_prefix : ∀ p n, descend t 0 p = some n → p ≠ [] → ∃ w ∈ ws, p <+: token w
  prefix_node : ∀ w ∈ ws, ∀ p, p <+: token w → ∃ n, descend t 0 p = some n
  count : t.nodecnt + 1 = t.heap.length

/-! ## Properties -/

/-! ### Levenshtein distance: the recurrence on the last characters -/

theorem lev_nil_left (b : List Nat) : lev [] b = b.length := by
  induction b with
  | nil => simp [lev]
  | cons y ys ih => simp only [lev] at ih ⊢; simp [ih]; omega

theorem lev_nil_right (a : List Nat) : lev a [] = a.length := by
  induction a with
  | nil => simp [lev]
  | cons x xs ih => simp only [lev] at ih ⊢; simp [ih]; omega

theorem lev_cons_cons (x y : Nat) (xs ys : List Nat) :
    lev (x :: xs) (y :: ys) =
      min (lev xs (y :: ys) + 1) (min (lev (x :: xs) ys + 1)
        (lev xs ys + if x = y then 0 else 1)) := by
  simp only [lev, levenshtein_cons_cons, Levenshtein.defaultCost_delete,
    Levenshtein.defaultCost_insert, Levenshtein.defaultCost_substitute]
  simp only [Nat.add_comm]

theorem lev_snoc_snoc_aux (a b : Nat) : ∀ (n : Nat) (xs ys : List Nat),
    xs.length + ys.length ≤ n →
    lev (xs ++ [a]) (ys ++ [b]) =
      min (lev xs (ys ++ [b]) + 1) (min (lev (xs ++ [a]) ys + 1)
        (lev xs ys + if a = b then 0 else 1)) := by
  intro n
  induction n with
  | zero =>
    intro xs ys h
    have hx : xs = [] := List.length_eq_zero.mp (by omega)
    have hy : ys = [] := List.length_eq_zero.mp (by omega)
    subst hx; subst hy
    simp only [List.nil_append, lev_cons_cons, lev_nil_left, lev_nil_right]
  | succ n ih =>
    intro xs ys h
    cases xs with
    | nil =>
      cases ys with
      | nil =>
        simp only [List.nil_append, lev_cons_cons, lev_nil_left, lev_nil_right]
      | cons y ys =>
        have h1 := ih [] ys (by simp at h ⊢; omega)
        simp only [List.nil_append, List.cons_append, lev_cons_cons, lev_nil_left,
          lev_nil_right, List.length_cons, List.length_append, List.length_nil] at h1 ⊢
        rw [h1]
        split_ifs <;> omega
    | cons x xs =>
      cases ys with
      | nil =>
        have h1 := ih xs [] (by simp at h ⊢; omega)
        simp only [List.nil_append, List.cons_append, lev_cons_cons, lev_nil_left,
          lev_nil_right, List.length_cons, List.length_append, List.length_nil] at h1 ⊢
        rw [h1]
        split_ifs <;> omega
      | cons y ys =>
        have h1 := ih xs (y :: ys) (by simp at h ⊢; omega)
        have h2 := ih (x :: xs) ys (by simp at h ⊢; omega)
        have h3 := ih xs ys (by simp at h ⊢; omega)
        simp only [List.cons_append] at h1 h2 h3 ⊢
        rw [lev_cons_cons x y (xs ++ [a]) (ys ++ [b]), h1, h2, h3,
          lev_cons_cons x y xs (ys ++ [b]), lev_cons_cons x y (xs ++ [a]) ys,
          lev_cons_cons x y xs ys]
        generalize lev xs (y :: (ys ++ [b])) = A1
        generalize lev (xs ++ [a]) (y :: ys) = A2
        generalize lev xs (y :: ys) = A3
        generalize lev (x :: xs) (ys ++ [b]) = B1
        generalize lev (x :: (xs ++ [a])) ys = B2
        generalize lev (x :: xs) ys = B3
        generalize lev xs (ys ++ [b]) = C1
        generalize lev (xs ++ [a]) ys = C2
        generalize lev xs ys = C3
        generalize (if a = b then 0 else 1) = s
        generalize (if x = y then 0 else 1) = u
        apply eq_of_forall_le_iff
        intro c
        simp only [← min_add_add_right, le_min_iff]
        constructor <;> intro h <;> omega

theorem lev_snoc_snoc (a b : Nat) (xs ys : List Nat) :
    lev (xs ++ [a]) (ys ++ [b]) =
      min (lev xs (ys ++ [b]) + 1) (min (lev (xs ++ [a]) ys + 1)
        (lev xs ys + if a = b then 0 else 1)) :=
  lev_snoc_snoc_aux a b _ xs ys (le_refl _)

theorem lev_snoc_right_le (xs ys : List Nat) (b : Nat) :
    lev xs (ys ++ [b]) ≤ lev xs ys + 1 := by
  rcases List.eq_nil_or_concat xs with h | ⟨xs1, a, h⟩
  · subst h; simp [lev_nil_left]
  · subst h
    rw [List.concat_eq_append, lev_snoc_snoc]
    omega

theorem lev_snoc_left_le (xs ys : List Nat) (a : Nat) :
    lev (xs ++ [a]) ys ≤ lev xs ys + 1 := by
  rcases List.eq_nil_or_concat ys with h | ⟨ys1, b, h⟩
  · subst h; simp [lev_nil_right]
  · subst h
    rw [List.concat_eq_append, lev_snoc_snoc]
    omega

theorem lev_le_snoc_left (a : Nat) (xs : List Nat) : ∀ ys : List Nat,
    lev xs ys ≤ lev (xs ++ [a]) ys + 1 := by
  intro ys
  induction ys using List.reverseRecOn with
  | nil => simp only [lev_nil_right, List.length_append, List.length_singleton]; omega
  | append_singleton ys b ih =>
    have h1 := lev_snoc_right_le xs ys b
    rw [lev_snoc_snoc]
    omega

theorem lev_le_snoc_right (b : Nat) (ys : List Nat) : ∀ xs : List Nat,
    lev xs ys ≤ lev xs (ys ++ [b]) + 1 := by
  intro xs
  induction xs using List.reverseRecOn with
  | nil => simp only [lev_nil_left, List.length_append, List.length_singleton]; omega
  | append_singleton xs a ih =>
    have h1 := lev_snoc_left_le xs ys a
    rw [lev_snoc_snoc]
    omega

/-- The recurrence in the form `calc_dist` uses it. -/
theorem lev_snoc_snoc_code (a b : Nat) (xs ys : List Nat) :
    lev (xs ++ [a]) (ys ++ [b]) =
      if b = a then lev xs ys
      else min (lev xs ys + 1) (min (lev (xs ++ [a]) ys + 1) (lev xs (ys ++ [b]) + 1)) := by
  have h1 := lev_le_snoc_left a xs ys
  have h2 := lev_le_snoc_right b ys xs
  rw [lev_snoc_snoc]
  by_cases h : b = a
  · subst h
    simp only [if_true]
    omega
  · have h' : ¬ a = b := fun e => h e.symm
    simp only [h, h', if_false]
    omega

theorem lev_self (a : List Nat) : lev a a = 0 := by
  induction a with
  | nil => simp [lev_nil_left]
  | cons x xs ih => rw [lev_cons_cons, ih]; simp

theorem eq_of_lev_eq_zero : ∀ (a b : List Nat), lev a b = 0 → a = b := by
  intro a
  induction a with
  | nil => intro b h; rw [lev_nil_left] at h; exact (List.length_eq_zero.mp h).symm
  | cons x xs ih =>
    intro b h
    cases b with
    | nil => rw [lev_nil_right] at h; simp at h
    | cons y ys =>
      rw [lev_cons_cons] at h
      by_cases hxy : x = y
      · simp only [hxy, if_true] at h
        have h3 : lev xs ys = 0 := by omega
        rw [hxy, ih ys h3]
      · simp only [hxy, if_false] at h
        omega

/-! ### Reads and writes of the heap -/

theorem getD_set_same {α : Type} (l : List α) (i : Nat) (a d : α) (h : i < l.length) :
    (l.set i a).getD i d = a := by
  simp [List.getD_eq_getElem?_getD, h]

theorem getD_set_other {α : Type} (l : List α) (i j : Nat) (a d : α) (h : i ≠ j) :
    (l.set i a).getD j d = l.getD j d := by
  simp [List.getD_eq_getElem?_getD, List.getElem?_set_ne h]

theorem getD_append_old {α : Type} (l l2 : List α) (j : Nat) (d : α) (h : j < l.length) :
    (l ++ l2).getD j d = l.getD j d := by
  simp [List.getD_eq_getElem?_getD, List.getElem?_append_left h]

theorem getD_append_new {α : Type} (l : List α) (a d : α) :
    (l ++ [a]).getD l.length d = a := by
  simp [List.getD_eq_getElem?_getD]

theorem getD_replicate_none (n i : Nat) :
    (List.replicate n (none : Option Nat)).getD i none = none := by
  simp [List.getD_eq_getElem?_getD, List.getElem?_replicate]
  split <;> rfl

theorem node_store_same (t : trie) (n : Nat) (nd : trienode) (h : n < t.heap.length) :
    (t.store n nd).node n = nd := by
  exact getD_set_same _ _ _ _ h

theorem node_store_other (t : trie) (n m : Nat) (nd : trienode) (h : n ≠ m) :
    (t.store n nd).node m = t.node m := by
  exact getD_set_other _ _ _ _ _ h

theorem length_store (t : trie) (n : Nat) (nd : trienode) :
    (t.store n nd).heap.length = t.heap.length := by
  simp [trie.store]

/-! ### `trie_subnode` keeps the invariant -/

theorem ext_refl (t : trie) : Ext t t :=
  ⟨le_refl _, rfl, fun _ _ => ⟨rfl, rfl, rfl, rfl, rfl⟩, fun k h1 h2 => absurd h2 (by omega)⟩

theorem ext_trans {t t1 t2 : trie} (h1 : Ext t t1) (h2 : Ext t1 t2) : Ext t t2 := by
  refine ⟨le_trans h1.len h2.len, by rw [h2.word, h1.word], ?_, ?_⟩
  · intro k hk
    obtain ⟨a1, a2, a3, a4, a5⟩ := h1.keep k hk
    obtain ⟨b1, b2, b3, b4, b5⟩ := h2.keep k (lt_of_lt_of_le hk h1.len)
    exact ⟨b1.trans a1, b2.trans a2, b3.trans a3, b4.trans a4, b5.trans a5⟩
  · intro k hk hk2
    by_cases hlt : k < t1.heap.length
    · rw [(h2.keep k hlt).2.1]; exact h1.fresh k hk hlt
    · exact h2.fresh k (by omega) hk2

/-- The cells of the heap after an allocation in `trie_subnode`. -/
theorem node_alloc (t : trie) (node : Nat) (up cell : trienode) (n : Nat) (w : List Nat)
    (s : List Bool) (hn : node < t.heap.length) (k : Nat) :
    (trie.mk (t.heap.set node up ++ [cell]) n w s).node k =
      if k = t.heap.length then cell else if k = node then up else t.node k := by
  show (t.heap.set node up ++ [cell]).getD k trienode.zero = _
  by_cases h1 : k = t.heap.length
  · rw [if_pos h1, h1]
    have := getD_append_new (t.heap.set node up) cell trienode.zero
    rwa [List.length_set] at this
  · rw [if_neg h1]
    by_cases h2 : k < t.heap.length
    · rw [getD_append_old _ _ _ _ (by rw [List.length_set]; exact h2)]
      by_cases h3 : k = node
      · rw [if_pos h3, h3]; exact getD_set_same _ _ _ _ hn
      · rw [if_neg h3]; exact getD_set_other _ _ _ _ _ (fun e => h3 e.symm)
    · have h3 : ¬ k = node := by omega
      rw [if_neg h3]
      show _ = t.heap.getD k trienode.zero
      rw [List.getD_eq_default _ _ (by simp; omega), List.getD_eq_default _ _ (by omega)]

theorem sub_set_same (nd : trienode) (i : Nat) (v : Option Nat) (h : i < nd.subnodes.length) :
    ({ nd with subnodes := nd.subnodes.set i v } : trienode).sub i = v :=
  getD_set_same _ _ _ _ h

theorem sub_set_other (nd : trienode) (i j : Nat) (v : Option Nat) (h : i ≠ j) :
    ({ nd with subnodes := nd.subnodes.set i v } : trienode).sub j = nd.sub j :=
  getD_set_other _ _ _ _ _ h

theorem sub_lt {t : trie} (h : WF t) {p c k : Nat} (hp : p < t.heap.length)
    (hs : (t.node p).sub c = some k) : c < 255 := by
  by_contra hc
  have hl := h.slots p hp
  have : (t.node p).sub c = none := by
    show (t.node p).subnodes.getD c none = none
    rw [List.getD_eq_default _ _ (by omega)]
  rw [this] at hs; cases hs

theorem to_char_eq {c : Nat} (h : c < 128) : to_char c = (c : Int) := by
  unfold to_char
  rw [if_pos h]

theorem trie_subnode_cases (t : trie) (node id : Nat) (hid : id < 128) :
    (∃ k, (t.node node).sub id = some k ∧
      trie_subnode t node (to_char id) = some (t, some k)) ∨
    ((t.node node).sub id = none ∧ ∃ rest, t.calloc = false :: rest ∧
      trie_subnode t node (to_char id) = some ({ t with calloc := rest }, none)) ∨
    ((t.node node).sub id = none ∧
      trie_subnode t node (to_char id) =
        some (grown t node id t.calloc.tail, some t.heap.length)) := by
  have hr : (0 : Int) ≤ (id : Int) ∧ (id : Int) < 255 := by omega
  rw [to_char_eq hid]
  unfold trie_subnode
  rw [if_pos hr, Int.toNat_ofNat]
  cases hs : (t.node node).sub id with
  | some k => exact Or.inl ⟨k, rfl, rfl⟩
  | none =>
    right
    cases hc : t.calloc with
    | nil => right; exact ⟨rfl, rfl⟩
    | cons b rest =>
      cases b with
      | false => left; exact ⟨rfl, rest, rfl, rfl⟩
      | true => right; exact ⟨rfl, rfl⟩

/-- An index that is not a slot of the child table: `trie_subnode` has no defined result
for the bytes from 128 on. -/
theorem trie_subnode_outside (t : trie) (node c : Nat) (h1 : 128 ≤ c) (h2 : c < 256) :
    trie_subnode t node (to_char c) = none := by
  have hc : to_char c = (c : Int) - 256 := by
    unfold to_char
    rw [if_neg (by omega)]
  unfold trie_subnode
  rw [hc, if_neg (by omega)]

theorem grown_length (t : trie) (node id : Nat) (s : List Bool) :
    (grown t node id s).heap.length = t.heap.length + 1 := by
  show (t.heap.set node _ ++ [_]).length = _
  rw [List.length_append, List.length_set]
  rfl

theorem grown_node (t : trie) (node id : Nat) (s : List Bool) (hn : node < t.heap.length)
    (k : Nat) :
    (grown t node id s).node k =
      if k = t.heap.length then
        { id := id, eow := false, depth := (t.node node).depth + 1,
          data := List.replicate t.word.length 0, parent := some node,
          subnodes := List.replicate 255 none }
      else if k = node then
        { t.node node with subnodes := (t.node node).subnodes.set id (some t.heap.length) }
      else t.node k :=
  node_alloc t node _ _ _ _ _ hn k

theorem grown_fields (t : trie) (node id : Nat) (s : List Bool) (hn : node < t.heap.length)
    (k : Nat) (hk : k < t.heap.length) :
    ((grown t node id s).node k).id = (t.node k).id ∧
    ((grown t node id s).node k).eow = (t.node k).eow ∧
    ((grown t node id s).node k).depth = (t.node k).depth ∧
    ((grown t node id s).node k).data = (t.node k).data ∧
    ((grown t node id s).node k).parent = (t.node k).parent ∧
    ((grown t node id s).node k).subnodes.length = (t.node k).subnodes.length := by
  rw [grown_node t node id s hn k, if_neg (by omega)]
  by_cases h : k = node
  · subst h; simp
  · rw [if_neg h]; simp

theorem grown_sub (t : trie) (node id : Nat) (s : List Bool) (hn : node < t.heap.length)
    (hl : (t.node node).subnodes.length = 255) (hid : id < 255)
    (k c : Nat) (hk : k < t.heap.length) :
    ((grown t node id s).node k).sub c =
      if k = node ∧ c = id then some t.heap.length else (t.node k).sub c := by
  rw [grown_node t node id s hn k, if_neg (by omega)]
  by_cases h : k = node
  · subst h
    rw [if_pos rfl]
    by_cases hc : c = id
    · subst hc
      rw [if_pos ⟨rfl, rfl⟩]
      exact sub_set_same _ _ _ (by omega)
    · rw [if_neg (fun e => hc e.2)]
      exact sub_set_other _ _ _ _ (fun e => hc e.symm)
  · rw [if_neg h, if_neg (fun e => h e.1)]

theorem grown_new (t : trie) (node id : Nat) (s : List Bool) (hn : node < t.heap.length) :
    (grown t node id s).node t.heap.length =
        { id := id, eow := false, depth := (t.node node).depth + 1,
          data := List.replicate t.word.length 0, parent := some node,
          subnodes := List.replicate 255 none } := by
  rw [grown_node t node id s hn, if_pos rfl]

theorem grown_wf {t : trie} (h : WF t) {node id : Nat} (s : List Bool)
    (hn : node < t.heap.length) (hid : id < 255) (hs : (t.node node).sub id = none) :
    WF (grown t node id s) := by
  have hlen := grown_length t node id s
  have hsl := h.slots node hn
  refine ⟨by omega, ?_, ?_, ?_, ?_, ?_, ?_⟩
  · rw [(grown_fields t node id s hn 0 h.pos).2.2.2.2.1]; exact h.root_parent
  · rw [(grown_fields t node id s hn 0 h.pos).2.2.1]; exact h.root_depth
  · intro k hk
    by_cases hk2 : k = t.heap.length
    · subst hk2; rw [grown_new t node id s hn]; exact List.length_replicate _ _
    · have hk3 : k < t.heap.length := by omega
      rw [(grown_fields t node id s hn k hk3).2.2.2.2.2]; exact h.slots k hk3
  · intro k hk
    by_cases hk2 : k = t.heap.length
    · subst hk2; rw [grown_new t node id s hn]; exact List.length_replicate _ _
    · have hk3 : k < t.heap.length := by omega
      rw [(grown_fields t node id s hn k hk3).2.2.2.1]
      exact h.rows k hk3
  · intro k hk0 hk
    by_cases hk2 : k = t.heap.length
    · subst hk2
      refine ⟨node, ?_, hn, ?_, ?_⟩
      · rw [grown_new t node id s hn]
      · rw [grown_new t node id s hn, grown_sub t node id s hn hsl hid node _ hn]
        simp
      · rw [grown_new t node id s hn, (grown_fields t node id s hn node hn).2.2.1]
    · have hk3 : k < t.heap.length := by omega
      obtain ⟨p, hp1, hp2, hp3, hp4⟩ := h.up k hk0 hk3
      have hp : p < t.heap.length := by omega
      obtain ⟨f1, -, f3, -, f5, -⟩ := grown_fields t node id s hn k hk3
      refine ⟨p, by rw [f5]; exact hp1, hp2, ?_, ?_⟩
      · rw [grown_sub t node id s hn hsl hid p _ hp, f1]
        by_cases hc : p = node ∧ (t.node k).id = id
        · exfalso
          rw [hc.1, hc.2, hs] at hp3; cases hp3
        · rw [if_neg hc]; exact hp3
      · rw [f3, (grown_fields t node id s hn p hp).2.2.1]; exact hp4
  · intro p c k hp hsub
    by_cases hp2 : p = t.heap.length
    · subst hp2
      rw [grown_new t node id s hn] at hsub
      exfalso
      have : (List.replicate 255 (none : Option Nat)).getD c none = some k := hsub
      rw [getD_replicate_none] at this; cases this
    · have hp3 : p < t.heap.length := by omega
      rw [grown_sub t node id s hn hsl hid p c hp3] at hsub
      by_cases hc : p = node ∧ c = id
      · rw [if_pos hc] at hsub
        cases hsub
        refine ⟨hp3, by omega, ?_, ?_⟩
        · rw [grown_new t node id s hn, hc.1]
        · rw [grown_new t node id s hn, hc.2]
      · rw [if_neg hc] at hsub
        obtain ⟨d1, d2, d3, d4⟩ := h.down p c k hp3 hsub
        obtain ⟨f1, -, -, -, f5, -⟩ := grown_fields t node id s hn k d2
        exact ⟨d1, by omega, by rw [f5]; exact d3, by rw [f1]; exact d4⟩

theorem grown_ext (t : trie) (node id : Nat) (s : List Bool) (hn : node < t.heap.length) :
    Ext t (grown t node id s) := by
  refine ⟨by rw [grown_length]; omega, rfl, ?_, ?_⟩
  · intro k hk
    obtain ⟨f1, f2, f3, f4, f5, -⟩ := grown_fields t node id s hn k hk
    exact ⟨f1, f2, f3, f4, f5⟩
  · intro k hk hk2
    rw [grown_length] at hk2
    have : k = t.heap.length := by omega
    subst this
    rw [grown_new t node id s hn]

theorem wf_calloc {t : trie} (h : WF t) (s : List Bool) : WF { t with calloc := s } :=
  ⟨h.pos, h.root_parent, h.root_depth, h.slots, h.rows, h.up, h.down⟩

theorem ext_calloc (t : trie) (s : List Bool) : Ext t { t with calloc := s } :=
  ⟨le_refl _, rfl, fun _ _ => ⟨rfl, rfl, rfl, rfl, rfl⟩, fun k h1 h2 => absurd h2 (by
    show ¬ k < t.heap.length
    omega)⟩

theorem trie_subnode_def (t : trie) (node id : Nat) (hid : id < 128) :
    ∃ x, trie_subnode t node (to_char id) = some x := by
  rcases trie_subnode_cases t node id hid with ⟨k, -, h2⟩ | ⟨-, rest, -, h3⟩ | ⟨-, h2⟩
  · exact ⟨_, h2⟩
  · exact ⟨_, h3⟩
  · exact ⟨_, h2⟩

theorem trie_subnode_spec {t : trie} (h : WF t) {node id : Nat}
    (hn : node < t.heap.length) (hid : id < 128) {x : trie × Option Nat}
    (hx : trie_subnode t node (to_char id) = some x) :
    WF x.1 ∧ Ext t x.1 ∧ ∀ k, x.2 = some k → (x.1.node node).sub id = some k := by
  rcases trie_subnode_cases t node id hid with ⟨k, h1, h2⟩ | ⟨h1, rest, h2, h3⟩ | ⟨h1, h2⟩
  · rw [h2] at hx
    cases hx
    refine ⟨h, ext_refl t, ?_⟩
    intro k2 hk2
    cases hk2
    exact h1
  · rw [h3] at hx
    cases hx
    exact ⟨wf_calloc h rest, ext_calloc t rest, fun k hk => by cases hk⟩
  · rw [h2] at hx
    cases hx
    refine ⟨grown_wf h _ hn (by omega) h1, grown_ext t node id _ hn, ?_⟩
    intro k hk
    cases hk
    rw [grown_sub t node id _ hn (h.slots node hn) (by omega) node id hn]
    simp

/-! ### Paths -/

theorem descend_append (t : trie) : ∀ (p q : List Nat) (a : Nat),
    descend t a (p ++ q) = (descend t a p).bind (fun x => descend t x q) := by
  intro p
  induction p with
  | nil => intro q a; rfl
  | cons c cs ih =>
    intro q a
    simp only [List.cons_append, descend]
    cases (t.node a).sub c with
    | none => rfl
    | some k => exact ih q k

theorem descend_bound {t : trie} (h : WF t) : ∀ (p : List Nat) (n m : Nat),
    n < t.heap.length → descend t n p = some m →
    n ≤ m ∧ m < t.heap.length ∧ (p ≠ [] → n < m) ∧
    (t.node m).depth = (t.node n).depth + p.length := by
  intro p
  induction p with
  | nil =>
    intro n m hn hd
    simp only [descend, Option.some.injEq] at hd
    subst hd
    exact ⟨le_refl _, hn, fun e => absurd rfl e, rfl⟩
  | cons c cs ih =>
    intro n m hn hd
    simp only [descend] at hd
    cases hs : (t.node n).sub c with
    | none => rw [hs] at hd; cases hd
    | some k =>
      rw [hs] at hd
      obtain ⟨d1, d2, d3, d4⟩ := h.down n c k hn hs
      obtain ⟨e1, e2, -, e4⟩ := ih k m d2 hd
      refine ⟨by omega, e2, fun _ => by omega, ?_⟩
      obtain ⟨p, hp1, -, -, hp4⟩ := h.up k (by omega) d2
      rw [d3] at hp1; cases hp1
      rw [e4, hp4, List.length_cons]; omega

theorem descend_snoc {t : trie} (h : WF t) {a m c : Nat} {p : List Nat}
    (ha : a < t.heap.length) (hd : descend t a (p ++ [c]) = some m) :
    ∃ x, descend t a p = some x ∧ (t.node x).sub c = some m ∧
      (t.node m).parent = some x ∧ (t.node m).id = c ∧ x < m := by
  rw [descend_append] at hd
  cases hx : descend t a p with
  | none => rw [hx] at hd; cases hd
  | some x =>
    rw [hx] at hd
    simp only [Option.bind, descend] at hd
    cases hs : (t.node x).sub c with
    | none => rw [hs] at hd; cases hd
    | some k =>
      rw [hs] at hd
      have hkm : k = m := Option.some.inj hd
      rw [hkm] at hs
      obtain ⟨-, b2, -, -⟩ := descend_bound h p a x ha hx
      obtain ⟨d1, -, d3, d4⟩ := h.down x c m b2 hs
      exact ⟨x, rfl, hs, d3, d4, d1⟩

theorem descend_inj {t : trie} (h : WF t) {a : Nat} (ha : a < t.heap.length) :
    ∀ (p q : List Nat) (m : Nat), descend t a p = some m → descend t a q = some m → p = q := by
  intro p
  induction p using List.reverseRecOn with
  | nil =>
    intro q m hp hq
    simp only [descend, Option.some.injEq] at hp
    subst hp
    by_contra hne
    have := (descend_bound h q a a ha hq).2.2.1 (fun e => hne e.symm)
    omega
  | append_singleton p c ih =>
    intro q m hp hq
    obtain ⟨x, hx1, -, hx3, hx4, hx5⟩ := descend_snoc h ha hp
    have hax := (descend_bound h p a x ha hx1).1
    rcases List.eq_nil_or_concat q with hq0 | ⟨q1, c1, hq0⟩
    · subst hq0
      simp only [descend, Option.some.injEq] at hq
      omega
    · subst hq0
      rw [List.concat_eq_append] at hq ⊢
      obtain ⟨y, hy1, -, hy3, hy4, -⟩ := descend_snoc h ha hq
      rw [hx3] at hy3; cases hy3
      rw [hx4] at hy4; subst hy4
      rw [ih q1 x hx1 hy1]

theorem reach {t : trie} (h : WF t) : ∀ (n k : Nat), k < n → k < t.heap.length →
    ∃ p, descend t 0 p = some k := by
  intro n
  induction n with
  | zero => intro k hk; omega
  | succ n ih =>
    intro k hk hlen
    by_cases h0 : k = 0
    · subst h0; exact ⟨[], rfl⟩
    · obtain ⟨p, -, hp2, hp3, -⟩ := h.up k (by omega) hlen
      obtain ⟨path, hpath⟩ := ih p (by omega) (by omega)
      refine ⟨path ++ [(t.node k).id], ?_⟩
      rw [descend_append, hpath]
      simp only [Option.bind, descend, hp3]

theorem ext_link {t t1 : trie} (h : WF t) (h1 : WF t1) (he : Ext t t1) {k c m : Nat}
    (hk : k < t.heap.length) (hs : (t.node k).sub c = some m) :
    (t1.node k).sub c = some m := by
  obtain ⟨d1, d2, d3, d4⟩ := h.down k c m hk hs
  obtain ⟨p, hp1, -, hp3, -⟩ := h1.up m (by omega) (lt_of_lt_of_le d2 he.len)
  obtain ⟨f1, -, -, -, f5⟩ := he.keep m d2
  rw [f5, d3] at hp1; cases hp1
  rw [f1, d4] at hp3
  exact hp3

theorem ext_link_old {t t1 : trie} (h : WF t) (h1 : WF t1) (he : Ext t t1) {k c m : Nat}
    (hk : k < t.heap.length) (hm : m < t.heap.length) (hs : (t1.node k).sub c = some m) :
    (t.node k).sub c = some m := by
  obtain ⟨d1, d2, d3, d4⟩ := h1.down k c m (lt_of_lt_of_le hk he.len) hs
  obtain ⟨p, hp1, -, hp3, -⟩ := h.up m (by omega) hm
  obtain ⟨f1, -, -, -, f5⟩ := he.keep m hm
  rw [← f5, d3] at hp1; cases hp1
  rw [← f1, d4] at hp3
  exact hp3

theorem descend_ext {t t1 : trie} (h : WF t) (h1 : WF t1) (he : Ext t t1) :
    ∀ (p : List Nat) (n m : Nat), n < t.heap.length → descend t n p = some m →
      descend t1 n p = some m := by
  intro p
  induction p with
  | nil => intro n m _ hd; exact hd
  | cons c cs ih =>
    intro n m hn hd
    simp only [descend] at hd ⊢
    cases hs : (t.node n).sub c with
    | none => rw [hs] at hd; cases hd
    | some k =>
      rw [hs] at hd
      rw [ext_link h h1 he hn hs]
      exact ih k m (h.down n c k hn hs).2.1 hd

theorem descend_old {t t1 : trie} (h : WF t) (h1 : WF t1) (he : Ext t t1) :
    ∀ (p : List Nat) (n m : Nat), n < t.heap.length → m < t.heap.length →
      descend t1 n p = some m → descend t n p = some m := by
  intro p
  induction p with
  | nil => intro n m _ _ hd; exact hd
  | cons c cs ih =>
    intro n m hn hm hd
    simp only [descend] at hd ⊢
    cases hs : (t1.node n).sub c with
    | none => rw [hs] at hd; cases hd
    | some k =>
      rw [hs] at hd
      have hk1 := (h1.down n c k (lt_of_lt_of_le hn he.len) hs).2.1
      have hkm := (descend_bound h1 cs k m hk1 hd).1
      have hk : k < t.heap.length := by omega
      rw [ext_link_old h h1 he hn hk hs]
      exact ih k m hk hm hd

/-! ### Tries of the same shape -/

theorem shape_refl (t : trie) : Shape t t :=
  ⟨rfl, rfl, fun _ => ⟨rfl, rfl, rfl, rfl, rfl⟩⟩

theorem shape_trans {t t1 t2 : trie} (h1 : Shape t t1) (h2 : Shape t1 t2) : Shape t t2 := by
  refine ⟨h2.len.trans h1.len, h2.word.trans h1.word, ?_⟩
  intro k
  obtain ⟨a1, a2, a3, a4, a5⟩ := h1.same k
  obtain ⟨b1, b2, b3, b4, b5⟩ := h2.same k
  exact ⟨b1.trans a1, b2.trans a2, b3.trans a3, b4.trans a4, b5.trans a5⟩

theorem Shape.sub {t t1 : trie} (hs : Shape t t1) (k c : Nat) :
    (t1.node k).sub c = (t.node k).sub c := by
  show (t1.node k).subnodes.getD c none = (t.node k).subnodes.getD c none
  rw [(hs.same k).2.2.2.1]

theorem Shape.wf {t t1 : trie} (hs : Shape t t1) (h : WF t) : WF t1 := by
  refine ⟨by rw [hs.len]; exact h.pos, ?_, ?_, ?_, ?_, ?_, ?_⟩
  · rw [(hs.same 0).2.2.1]; exact h.root_parent
  · rw [(hs.same 0).2.1]; exact h.root_depth
  · intro k hk; rw [(hs.same k).2.2.2.1]; exact h.slots k (by rw [← hs.len]; exact hk)
  · intro k hk; rw [(hs.same k).2.2.2.2, hs.word]; exact h.rows k (by rw [← hs.len]; exact hk)
  · intro k hk0 hk
    obtain ⟨p, hp1, hp2, hp3, hp4⟩ := h.up k hk0 (by rw [← hs.len]; exact hk)
    refine ⟨p, by rw [(hs.same k).2.2.1]; exact hp1, hp2, ?_, ?_⟩
    · rw [hs.sub, (hs.same k).1]; exact hp3
    · rw [(hs.same k).2.1, (hs.same p).2.1]; exact hp4
  · intro p c k hp hsub
    rw [hs.sub] at hsub
    obtain ⟨d1, d2, d3, d4⟩ := h.down p c k (by rw [← hs.len]; exact hp) hsub
    exact ⟨d1, by rw [hs.len]; exact d2, by rw [(hs.same k).2.2.1]; exact d3,
      by rw [(hs.same k).1]; exact d4⟩

theorem Shape.descend {t t1 : trie} (hs : Shape t t1) : ∀ (p : List Nat) (n : Nat),
    descend t1 n p = descend t n p := by
  intro p
  induction p with
  | nil => intro n; rfl
  | cons c cs ih =>
    intro n
    simp only [DidYouMean.descend, hs.sub]
    cases (t.node n).sub c with
    | none => rfl
    | some k => exact ih k

theorem node_store (t : trie) (n : Nat) (nd : trienode) (hn : n < t.heap.length) (k : Nat) :
    (t.store n nd).node k = if k = n then nd else t.node k := by
  by_cases h : k = n
  · subst h; rw [if_pos rfl]; exact node_store_same t k nd hn
  · rw [if_neg h]; exact node_store_other t n k nd (fun e => h e.symm)

theorem store_shape (t : trie) (n : Nat) (nd : trienode) (hn : n < t.heap.length)
    (h1 : nd.id = (t.node n).id) (h2 : nd.depth = (t.node n).depth)
    (h3 : nd.parent = (t.node n).parent) (h4 : nd.subnodes = (t.node n).subnodes)
    (h5 : nd.data.length = (t.node n).data.length) : Shape t (t.store n nd) := by
  refine ⟨length_store t n nd, rfl, ?_⟩
  intro k
  rw [node_store t n nd hn k]
  by_cases h : k = n
  · subst h; rw [if_pos rfl]; exact ⟨h1, h2, h3, h4, h5⟩
  · rw [if_neg h]; exact ⟨rfl, rfl, rfl, rfl, rfl⟩

/-! ### `trie_new` and `trie_add` -/

theorem trie_new_node (q : List Nat) (s : List Bool) :
    (trie_new q s).node 0 = { trienode.zero with data := List.replicate q.length 0 } := rfl

theorem trie_new_wf (q : List Nat) (s : List Bool) : WF (trie_new q s) := by
  have hlen : (trie_new q s).heap.length = 1 := rfl
  refine ⟨by rw [hlen]; omega, rfl, rfl, ?_, ?_, ?_, ?_⟩
  · intro k hk
    have : k = 0 := by omega
    subst this
    exact List.length_replicate _ _
  · intro k hk
    have : k = 0 := by omega
    subst this
    exact List.length_replicate _ _
  · intro k hk0 hk; omega
  · intro p c k hp hsub
    have : p = 0 := by omega
    subst this
    have h2 : (List.replicate 255 (none : Option Nat)).getD c none = some k := hsub
    rw [getD_replicate_none] at h2; cases h2

theorem trie_add_loop_cons (c : Nat) (cs : List Nat) (t : trie) (node : Nat)
    {x : trie × Option Nat} (hx : trie_subnode t node (to_char c) = some x) :
    trie_add_loop (c :: cs) t node =
      if isspace c then some (t, some node)
      else match x.2 with
        | none => some (x.1, none)
        | some k => trie_add_loop cs x.1 k := by
  rw [trie_add_loop]
  split
  · rfl
  · rw [hx]
    rcases x with ⟨t1, r⟩
    cases r <;> rfl

theorem trie_add_loop_def : ∀ (w : List Nat) (t : trie) (node : Nat),
    (∀ c ∈ w, c < 128) → ∃ x, trie_add_loop w t node = some x := by
  intro w
  induction w with
  | nil => intro t node _; exact ⟨_, rfl⟩
  | cons c cs ih =>
    intro t node hv
    obtain ⟨y, hy⟩ := trie_subnode_def t node c (hv c (List.mem_cons_self _ _))
    rw [trie_add_loop_cons c cs t node hy]
    by_cases hsp : isspace c = true
    · rw [if_pos hsp]; exact ⟨_, rfl⟩
    · rw [if_neg hsp]
      cases hr : y.2 with
      | none => exact ⟨_, rfl⟩
      | some k => exact ih y.1 k (fun z hz => hv z (List.mem_cons_of_mem _ hz))

theorem token_cons (c : Nat) (cs : List Nat) :
    token (c :: cs) = if isspace c then [] else c :: token cs := by
  unfold token
  rw [List.takeWhile_cons]
  cases isspace c <;> rfl

theorem trie_add_loop_spec : ∀ (w : List Nat) (t : trie) (node : Nat), WF t →
    node < t.heap.length → (∀ c ∈ w, c < 128) →
    ∀ x, trie_add_loop w t node = some x →
    WF x.1 ∧ Ext t x.1 ∧ ∀ k, x.2 = some k → descend x.1 node (token w) = some k := by
  intro w
  induction w with
  | nil =>
    intro t node h hn _ x hx
    cases hx
    exact ⟨h, ext_refl t, fun k hk => hk⟩
  | cons c cs ih =>
    intro t node h hn hv x hx
    obtain ⟨y, hy⟩ := trie_subnode_def t node c (hv c (List.mem_cons_self _ _))
    rw [trie_add_loop_cons c cs t node hy] at hx
    rw [token_cons]
    by_cases hsp : isspace c = true
    · rw [if_pos hsp] at hx
      rw [if_pos hsp]
      cases hx
      exact ⟨h, ext_refl t, fun k hk => hk⟩
    · rw [if_neg hsp] at hx
      rw [if_neg hsp]
      obtain ⟨s1, s2, s3⟩ := trie_subnode_spec h hn (hv c (List.mem_cons_self _ _)) hy
      cases hr : y.2 with
      | none =>
        rw [hr] at hx
        cases hx
        exact ⟨s1, s2, fun k hk => by cases hk⟩
      | some k =>
        rw [hr] at hx
        have hsub := s3 k hr
        have hn1 : node < y.1.heap.length := lt_of_lt_of_le hn s2.len
        have hk1 := (s1.down node c k hn1 hsub).2.1
        obtain ⟨i1, i2, i3⟩ := ih y.1 k s1 hk1
          (fun z hz => hv z (List.mem_cons_of_mem _ hz)) x hx
        refine ⟨i1, ext_trans s2 i2, ?_⟩
        intro r hr2
        simp only [descend]
        rw [ext_link s1 i1 i2 hn1 hsub]
        exact i3 r hr2

theorem trie_add_eq {t : trie} {w : List Nat} {y : trie × Option Nat}
    (hy : trie_add_loop w t 0 = some y) :
    trie_add t w =
      some (match y.2 with
        | none => (y.1, -1)
        | some node => (y.1.store node { y.1.node node with eow := true }, 0)) := by
  unfold trie_add
  rw [hy]
  rcases y with ⟨t1, r⟩
  cases r <;> rfl

theorem trie_add_def (t : trie) (w : List Nat) (hv : ∀ c ∈ w, c < 128) :
    ∃ x, trie_add t w = some x := by
  obtain ⟨y, hy⟩ := trie_add_loop_def w t 0 hv
  exact ⟨_, trie_add_eq hy⟩

/-- A word that starts with a byte from 128 on: `trie_add` indexes the child table of
the root outside its bounds. -/
theorem trie_add_outside (t : trie) (c : Nat) (cs : List Nat) (h1 : 128 ≤ c) (h2 : c < 256) :
    trie_add t (c :: cs) = none := by
  have hsp : isspace c = false := by
    unfold isspace
    have e1 : (c == 32) = false := by
      rw [beq_eq_false_iff_ne]; omega
    have e2 : decide (c ≤ 13) = false := by
      rw [decide_eq_false_iff_not]; omega
    rw [e1, e2]
    simp
  rw [trie_add, trie_add_loop, hsp, trie_subnode_outside t 0 c h1 h2]
  rfl

theorem inv_new (q : List Nat) (s : List Bool) : Inv q (trie_new q s) [] := by
  refine ⟨trie_new_wf q s, rfl, ?_, ?_⟩
  · intro p n hd he
    have hb := (descend_bound (trie_new_wf q s) p 0 n (trie_new_wf q s).pos hd).2.1
    have hn : n = 0 := by
      have : (trie_new q s).heap.length = 1 := rfl
      omega
    subst hn
    cases he
  · intro w hw; cases hw

theorem inv_ext {q : List Nat} {t t1 : trie} {ws : List (List Nat)} (hi : Inv q t ws)
    (h1 : WF t1) (he : Ext t t1) : Inv q t1 ws := by
  refine ⟨h1, he.word.trans hi.word, ?_, ?_⟩
  · intro p n hd hw
    have hb := (descend_bound h1 p 0 n h1.pos hd).2.1
    by_cases hn : n < t.heap.length
    · have hd0 := descend_old hi.wf h1 he p 0 n hi.wf.pos hn hd
      rw [(he.keep n hn).2.1] at hw
      exact hi.eow_word p n hd0 hw
    · rw [he.fresh n (by omega) hb] at hw; cases hw
  · intro w hw
    obtain ⟨n, hn1, hn2⟩ := hi.word_eow w hw
    have hb := (descend_bound hi.wf _ 0 n hi.wf.pos hn1).2.1
    refine ⟨n, descend_ext hi.wf h1 he _ 0 n hi.wf.pos hn1, ?_⟩
    rw [(he.keep n hb).2.1]; exact hn2

theorem inv_mark {q : List Nat} {t : trie} {ws : List (List Nat)} (hi : Inv q t ws)
    (w : List Nat) (r : Nat) (hr : descend t 0 (token w) = some r) :
    Inv q (t.store r { t.node r with eow := true }) (ws ++ [w]) := by
  have hrb := (descend_bound hi.wf _ 0 r hi.wf.pos hr).2.1
  have hs : Shape t (t.store r { t.node r with eow := true }) :=
    store_shape t r _ hrb rfl rfl rfl rfl rfl
  refine ⟨hs.wf hi.wf, hs.word.trans hi.word, ?_, ?_⟩
  · intro p n hd hw
    rw [hs.descend] at hd
    rw [node_store t r _ hrb n] at hw
    by_cases hn : n = r
    · subst hn
      exact ⟨w, List.mem_append_right _ (List.mem_singleton_self w),
        descend_inj hi.wf hi.wf.pos p (token w) n hd hr⟩
    · rw [if_neg hn] at hw
      obtain ⟨w1, hw1, hp⟩ := hi.eow_word p n hd hw
      exact ⟨w1, List.mem_append_left _ hw1, hp⟩
  · intro w1 hw1
    rcases List.mem_append.mp hw1 with h1 | h1
    · obtain ⟨n, hn1, hn2⟩ := hi.word_eow w1 h1
      refine ⟨n, by rw [hs.descend]; exact hn1, ?_⟩
      rw [node_store t r _ hrb n]
      by_cases hn : n = r
      · rw [if_pos hn]
      · rw [if_neg hn]; exact hn2
    · rw [List.mem_singleton] at h1
      subst h1
      refine ⟨r, by rw [hs.descend]; exact hr, ?_⟩
      rw [node_store t r _ hrb r, if_pos rfl]

theorem Built.inv {q : List Nat} {t : trie} {ws : List (List Nat)} (hb : Built q t ws) :
    Inv q t ws := by
  induction hb with
  | new s => exact inv_new q s
  | add w x _ hv hx hr ih =>
    obtain ⟨y, hy⟩ := trie_add_loop_def w _ 0 hv
    obtain ⟨l1, l2, l3⟩ := trie_add_loop_spec w _ 0 ih.wf ih.wf.pos hv y hy
    rw [trie_add_eq hy] at hx
    cases hx
    cases hl : y.2 with
    | none => rw [hl] at hr; simp at hr
    | some r => exact inv_mark (inv_ext ih l1 l2) w r (l3 r hl)
  | fail w x _ hv hx hr ih =>
    obtain ⟨y, hy⟩ := trie_add_loop_def w _ 0 hv
    obtain ⟨l1, l2, l3⟩ := trie_add_loop_spec w _ 0 ih.wf ih.wf.pos hv y hy
    rw [trie_add_eq hy] at hx
    cases hx
    cases hl : y.2 with
    | none => exact inv_ext ih l1 l2
    | some r => rw [hl] at hr; simp at hr

/-! ### `calc_dist` on one node -/

theorem getD_set_nat (l : List Nat) (i j v : Nat) (h : i < l.length) :
    (l.set i v).getD j 0 = if j = i then v else l.getD j 0 := by
  by_cases hj : j = i
  · subst hj; rw [if_pos rfl]; exact getD_set_same _ _ _ _ h
  · rw [if_neg hj]; exact getD_set_other _ _ _ _ _ (fun e => hj e.symm)

theorem calc_dist_root_spec : ∀ (n i : Nat) (row : List Nat), i + n ≤ row.length →
    (calc_dist_root n i row).length = row.length ∧
    ∀ j, (calc_dist_root n i row).getD j 0 =
      if i ≤ j ∧ j < i + n then j + 1 else row.getD j 0 := by
  intro n
  induction n with
  | zero =>
    intro i row _
    refine ⟨rfl, fun j => ?_⟩
    rw [if_neg (by omega)]; rfl
  | succ n ih =>
    intro i row h
    obtain ⟨h1, h2⟩ := ih (i + 1) (row.set i (i + 1)) (by rw [List.length_set]; omega)
    rw [List.length_set] at h1
    refine ⟨h1, fun j => ?_⟩
    show (calc_dist_root n (i + 1) (row.set i (i + 1))).getD j 0 = _
    rw [h2 j, getD_set_nat _ _ _ _ (by omega)]
    by_cases hj : j = i
    · subst hj
      rw [if_neg (by omega), if_pos rfl, if_pos (by omega)]
    · rw [if_neg hj]
      by_cases hj2 : i + 1 ≤ j ∧ j < i + 1 + n
      · rw [if_pos hj2, if_pos (by omega)]
      · rw [if_neg hj2, if_neg (by omega)]

theorem take_succ_getD (q : List Nat) (i : Nat) (h : i < q.length) :
    q.take (i + 1) = q.take i ++ [q.getD i 0] := by
  rw [List.take_succ, List.getD_eq_getElem?_getD, List.getElem?_eq_getElem h]
  rfl

theorem calc_dist_loop_spec (q : List Nat) (id : Nat) (uprow : List Nat) (p1 : List Nat)
    (hup : ∀ j, j < q.length → uprow.getD j 0 = lev p1 (q.take (j + 1))) :
    ∀ (n i : Nat) (row : List Nat) (distu distul : Nat), i + n = q.length →
      row.length = q.length → distu = lev (p1 ++ [id]) (q.take i) →
      distul = lev p1 (q.take i) →
      (∀ j, j < i → row.getD j 0 = lev (p1 ++ [id]) (q.take (j + 1))) →
      (calc_dist_loop q id uprow n i row distu distul).length = q.length ∧
      ∀ j, j < q.length → (calc_dist_loop q id uprow n i row distu distul).getD j 0 =
        lev (p1 ++ [id]) (q.take (j + 1)) := by
  intro n
  induction n with
  | zero =>
    intro i row distu distul hi hlen _ _ hrow
    exact ⟨hlen, fun j hj => hrow j (by omega)⟩
  | succ n ih =>
    intro i row distu distul hi hlen hu hul hrow
    have hiq : i < q.length := by omega
    have hv : (if q.getD i 0 = id then distul
        else min (distul + 1) (min (distu + 1) (uprow.getD i 0 + 1))) =
        lev (p1 ++ [id]) (q.take (i + 1)) := by
      rw [take_succ_getD q i hiq, lev_snoc_snoc_code, hup i hiq, hu, hul,
        take_succ_getD q i hiq]
    show (calc_dist_loop q id uprow n (i + 1) (row.set i _) _ (uprow.getD i 0)).length = _ ∧
      ∀ j, j < q.length →
        (calc_dist_loop q id uprow n (i + 1) (row.set i _) _ (uprow.getD i 0)).getD j 0 = _
    apply ih (i + 1) _ _ _ (by omega) (by rw [List.length_set]; exact hlen) hv (hup i hiq)
    intro j hj
    rw [getD_set_nat _ _ _ _ (by omega)]
    by_cases hji : j = i
    · subst hji; rw [if_pos rfl]; exact hv
    · rw [if_neg hji]; exact hrow j (by omega)

theorem calc_dist_none (q : List Nat) (t : trie) (n : Nat) (hp : (t.node n).parent = none) :
    calc_dist q t n =
      some (t.store n { t.node n with data := calc_dist_root q.length 0 (t.node n).data },
        [], 0) := by
  unfold calc_dist
  simp only [hp]

theorem calc_dist_some (q : List Nat) (t : trie) (n pn : Nat)
    (hp : (t.node n).parent = some pn) :
    calc_dist q t n =
      some (t.store n { t.node n with
          data := calc_dist_loop q (t.node n).id (t.node pn).data q.length 0 (t.node n).data
            (t.node n).depth (t.node pn).depth }, [], 0) := by
  unfold calc_dist
  simp only [hp]

theorem rowok_of_store {q : List Nat} {t : trie} {n : Nat} (hn : n < t.heap.length)
    (row : List Nat) (hlen : row.length = (t.node n).data.length)
    (hrow : ∀ p, descend t 0 p = some n → ∀ i, i < q.length →
      row.getD i 0 = lev p (q.take (i + 1))) :
    Shape t (t.store n { t.node n with data := row }) ∧
    (∀ k, ((t.store n { t.node n with data := row }).node k).eow = (t.node k).eow) ∧
    (∀ k, k ≠ n → ((t.store n { t.node n with data := row }).node k).data = (t.node k).data) ∧
    (∀ k, k ≠ n → RowOK q t k → RowOK q (t.store n { t.node n with data := row }) k) ∧
    RowOK q (t.store n { t.node n with data := row }) n := by
  have hs : Shape t (t.store n { t.node n with data := row }) :=
    store_shape t n _ hn rfl rfl rfl rfl hlen
  have hd : ∀ k, k ≠ n → ((t.store n { t.node n with data := row }).node k).data =
      (t.node k).data := by
    intro k hk
    rw [node_store t n _ hn k, if_neg hk]
  refine ⟨hs, ?_, hd, ?_, ?_⟩
  · intro k
    rw [node_store t n _ hn k]
    by_cases hk : k = n
    · rw [if_pos hk, hk]
    · rw [if_neg hk]
  · intro k hk hok p hp i hi
    rw [hs.descend] at hp
    rw [hd k hk]
    exact hok p hp i hi
  · intro p hp i hi
    rw [hs.descend] at hp
    rw [node_store t n _ hn n, if_pos rfl]
    exact hrow p hp i hi

theorem calc_dist_spec {q : List Nat} {t : trie} (h : WF t) (hw : t.word = q) {n : Nat}
    (hn : n < t.heap.length)
    (hpar : ∀ pn, (t.node n).parent = some pn → RowOK q t pn) :
    ∃ t1, calc_dist q t n = some (t1, [], 0) ∧ Shape t t1 ∧
      (∀ k, (t1.node k).eow = (t.node k).eow) ∧
      (∀ k, k ≠ n → (t1.node k).data = (t.node k).data) ∧
      (∀ k, RowOK q t k → RowOK q t1 k) ∧ RowOK q t1 n := by
  have hrl : (t.node n).data.length = q.length := by rw [h.rows n hn, hw]
  cases hp : (t.node n).parent with
  | none =>
    have hn0 : n = 0 := by
      by_contra h0
      obtain ⟨p, hp1, -⟩ := h.up n (by omega) hn
      rw [hp] at hp1; cases hp1
    subst hn0
    obtain ⟨r1, r2⟩ := calc_dist_root_spec q.length 0 (t.node 0).data (by omega)
    obtain ⟨s1, s2, s3, s4, s5⟩ := rowok_of_store (q := q) hn
      (calc_dist_root q.length 0 (t.node 0).data) r1 (by
        intro p hd i hi
        have hp0 : p = [] := descend_inj h h.pos p [] 0 hd rfl
        subst hp0
        rw [r2 i, if_pos (by omega), lev_nil_left, List.length_take]
        omega)
    refine ⟨_, calc_dist_none q t 0 hp, s1, s2, s3, ?_, s5⟩
    intro k hk
    by_cases hk0 : k = 0
    · subst hk0; exact s5
    · exact s4 k hk0 hk
  | some pn =>
    have hn0 : 0 < n := by
      by_contra h0
      have : n = 0 := by omega
      subst this
      rw [h.root_parent] at hp; cases hp
    obtain ⟨p0, u1, u2, u3, u4⟩ := h.up n hn0 hn
    rw [hp] at u1; cases u1
    have hrow : ∀ p, descend t 0 p = some n → ∀ i, i < q.length →
        (calc_dist_loop q (t.node n).id (t.node pn).data q.length 0 (t.node n).data
          (t.node n).depth (t.node pn).depth).getD i 0 = lev p (q.take (i + 1)) := by
      intro p hd i hi
      rcases List.eq_nil_or_concat p with hp0 | ⟨p1, c, hp0⟩
      · subst hp0
        simp only [descend, Option.some.injEq] at hd
        omega
      · subst hp0
        rw [List.concat_eq_append] at hd ⊢
        obtain ⟨x, x1, -, x3, x4, -⟩ := descend_snoc h h.pos hd
        rw [hp] at x3; cases x3
        have hb1 := (descend_bound h p1 0 pn h.pos x1).2.2.2
        have hb2 := (descend_bound h _ 0 n h.pos hd).2.2.2
        rw [h.root_depth] at hb1 hb2
        rw [x4]
        exact (calc_dist_loop_spec q c (t.node pn).data p1 (hpar pn hp p1 x1) q.length 0
          (t.node n).data (t.node n).depth (t.node pn).depth (by omega) hrl
          (by rw [hb2, List.take_zero, lev_nil_right]; omega)
          (by rw [hb1, List.take_zero, lev_nil_right]; omega)
          (fun j hj => by omega)).2 i hi
    have hlen : (calc_dist_loop q (t.node n).id (t.node pn).data q.length 0 (t.node n).data
          (t.node n).depth (t.node pn).depth).length = (t.node n).data.length := by
      obtain ⟨p, hd⟩ := reach h (n + 1) n (by omega) hn
      rcases List.eq_nil_or_concat p with hp0 | ⟨p1, c, hp0⟩
      · subst hp0
        simp only [descend, Option.some.injEq] at hd
        omega
      · subst hp0
        rw [List.concat_eq_append] at hd
        obtain ⟨x, x1, -, x3, x4, -⟩ := descend_snoc h h.pos hd
        rw [hp] at x3; cases x3
        have hb1 := (descend_bound h p1 0 pn h.pos x1).2.2.2
        have hb2 := (descend_bound h _ 0 n h.pos hd).2.2.2
        rw [h.root_depth] at hb1 hb2
        rw [x4, hrl]
        exact (calc_dist_loop_spec q c (t.node pn).data p1 (hpar pn hp p1 x1) q.length 0
          (t.node n).data (t.node n).depth (t.node pn).depth (by omega) hrl
          (by rw [hb2, List.take_zero, lev_nil_right]; omega)
          (by rw [hb1, List.take_zero, lev_nil_right]; omega)
          (fun j hj => by omega)).1
    obtain ⟨s1, s2, s3, s4, s5⟩ := rowok_of_store (q := q) hn _ hlen hrow
    refine ⟨_, calc_dist_some q t n pn hp, s1, s2, s3, ?_, s5⟩
    intro k hk
    by_cases hk0 : k = n
    · subst hk0; exact s5
    · exact s4 k hk0 hk

/-! ### The propagation walk -/

theorem calcpost_refl (q : List Nat) (t : trie) : CalcPost q t t :=
  ⟨shape_refl t, fun _ => rfl, fun _ h => h⟩

theorem calcpost_trans {q : List Nat} {t t1 t2 : trie} (h1 : CalcPost q t t1)
    (h2 : CalcPost q t1 t2) : CalcPost q t t2 :=
  ⟨shape_trans h1.1 h2.1, fun j => (h2.2.1 j).trans (h1.2.1 j), fun j h => h2.2.2 j (h1.2.2 j h)⟩

theorem calc_loop {q : List Nat} {fuel : Nat} (ih : CalcWalk q fuel) (n : Nat) :
    ∀ (is : List Nat) (t : trie), WF t → t.word = q → n < t.heap.length →
      t.heap.length ≤ fuel + 1 + n → RowOK q t n →
      ∃ t1, walk_subnodes (trienode_walk (calc_dist q) false fuel) n is t [] 0 =
          some (t1, [], 0) ∧ CalcPost q t t1 ∧
        ∀ i ∈ is, ∀ k, (t.node n).sub i = some k →
          ∀ s m, descend t1 k s = some m → RowOK q t1 m := by
  intro is
  induction is with
  | nil =>
    intro t _ _ _ _ _
    exact ⟨t, rfl, calcpost_refl q t, fun i hi => by cases hi⟩
  | cons i is ihl =>
    intro t h hw hn hf hok
    cases hs : (t.node n).sub i with
    | none =>
      obtain ⟨t1, e1, e2, e3⟩ := ihl t h hw hn hf hok
      refine ⟨t1, ?_, e2, ?_⟩
      · simp only [walk_subnodes, hs]
        exact e1
      · intro i1 hi1 k hk
        rcases List.mem_cons.mp hi1 with h1 | h1
        · rw [h1, hs] at hk; cases hk
        · exact e3 i1 h1 k hk
    | some k =>
      obtain ⟨d1, d2, d3, -⟩ := h.down n i k hn hs
      obtain ⟨t2, w1, w2, w3⟩ := ih t k h hw d2 (by omega) (by
        intro pn hpn
        rw [d3] at hpn; cases hpn
        exact hok)
      have h2 : WF t2 := w2.1.wf h
      obtain ⟨t3, e1, e2, e3⟩ := ihl t2 h2 (w2.1.word.trans hw) (by rw [w2.1.len]; exact hn)
        (by rw [w2.1.len]; exact hf) (w2.2.2 n hok)
      refine ⟨t3, ?_, calcpost_trans w2 e2, ?_⟩
      · simp only [walk_subnodes, hs, w1]
        exact e1
      · intro i1 hi1 k1 hk1
        rcases List.mem_cons.mp hi1 with h1 | h1
        · rw [h1, hs] at hk1
          cases hk1
          intro s m hd
          rw [e2.1.descend] at hd
          exact e2.2.2 m (w3 s m hd)
        · rw [← w2.1.sub] at hk1
          exact e3 i1 h1 k1 hk1

theorem calc_walk (q : List Nat) : ∀ fuel, CalcWalk q fuel := by
  intro fuel
  induction fuel with
  | zero => intro t k _ _ hk hf _; omega
  | succ fuel ih =>
    intro t n h hw hn hf hpar
    obtain ⟨t1, c1, c2, c3, c4, c5, c6⟩ := calc_dist_spec h hw hn hpar
    have h1 : WF t1 := c2.wf h
    obtain ⟨t2, l1, l2, l3⟩ := calc_loop ih n (List.range 255) t1 h1 (c2.word.trans hw)
      (by rw [c2.len]; exact hn) (by rw [c2.len]; omega) c6
    refine ⟨t2, ?_, calcpost_trans ⟨c2, c3, c5⟩ l2, ?_⟩
    · simp only [trienode_walk, Bool.not_false, Bool.true_or, if_true, c1]
      exact l1
    · intro s m hd
      cases s with
      | nil =>
        simp only [descend, Option.some.injEq] at hd
        subst hd
        exact l2.2.2 n c6
      | cons c cs =>
        simp only [descend] at hd
        cases hs : (t2.node n).sub c with
        | none => rw [hs] at hd; cases hd
        | some k =>
          rw [hs] at hd
          rw [l2.1.sub] at hs
          have hc := sub_lt h1 (by rw [c2.len]; exact hn) hs
          exact l3 c (List.mem_range.mpr hc) k hs cs m hd

/-! ### The selection walk -/

theorem print_node_spec {t : trie} (h : WF t) : ∀ (p : List Nat) (k fuel : Nat),
    descend t 0 p = some k → k < fuel → print_node t fuel k = some p := by
  intro p
  induction p using List.reverseRecOn with
  | nil =>
    intro k fuel hd hf
    simp only [descend, Option.some.injEq] at hd
    subst hd
    cases fuel with
    | zero => omega
    | succ f => simp only [print_node, h.root_parent]
  | append_singleton p c ih =>
    intro k fuel hd hf
    obtain ⟨x, x1, -, x3, x4, x5⟩ := descend_snoc h h.pos hd
    cases fuel with
    | zero => omega
    | succ f =>
      simp only [print_node, x3, ih x f x1 (by omega), x4]

theorem print_if_equal_hit {t : trie} (h : WF t) (m : msg) {p : List Nat} {k : Nat}
    (hd : descend t 0 p = some k) (hh : hit m t k) :
    print_if_equal m t k = some (t, p ++ [32], 1) := by
  have hb := (descend_bound h p 0 k h.pos hd).2.1
  unfold hit at hh
  unfold print_if_equal
  rw [if_pos hh, print_node_spec h p k _ hd hb]

theorem print_if_equal_miss (t : trie) (m : msg) {k : Nat} (hh : ¬ hit m t k) :
    print_if_equal m t k = some (t, [], 0) := by
  unfold hit at hh
  unfold print_if_equal
  rw [if_neg hh]

theorem printed_append (pk : List Nat) (R1 R2 : List (List Nat)) :
    printed pk (R1 ++ R2) = printed pk R1 ++ printed pk R2 := by
  simp [printed]

theorem printed_child (pk : List Nat) (i : Nat) (R : List (List Nat)) :
    printed pk (R.map (fun s => i :: s)) = printed (pk ++ [i]) R := by
  simp [printed, List.map_map, Function.comp_def]

theorem sel_loop {m : msg} {t : trie} {fuel : Nat} (h : WF t) (ih : SelWalk m t fuel)
    {k : Nat} {pk : List Nat} (hk : k < t.heap.length) (hf : t.heap.length ≤ fuel + 1 + k)
    (hpk : descend t 0 pk = some k) :
    ∀ (is : List Nat), is.Pairwise (· < ·) → ∀ (out : List Nat) (c : Nat),
      ∃ R, walk_subnodes (trienode_walk (print_if_equal m) true fuel) k is t out (c : Int) =
          some (t, out ++ printed pk R, ((c + R.length : Nat) : Int)) ∧
        LoopPost m t k is R := by
  intro is
  induction is with
  | nil =>
    intro _ out c
    refine ⟨[], ?_, ⟨fun s hs => (by cases hs), List.Pairwise.nil, fun i hi => (by cases hi)⟩⟩
    simp [walk_subnodes, printed]
  | cons i is ihl =>
    intro hpw out c
    rw [List.pairwise_cons] at hpw
    cases hs : (t.node k).sub i with
    | none =>
      obtain ⟨R, r1, r2⟩ := ihl hpw.2 out c
      refine ⟨R, ?_, ?_, r2.sorted, ?_⟩
      · simp only [walk_subnodes, hs]
        rw [if_neg (by omega)]
        exact r1
      · intro s hsR
        obtain ⟨i1, s1, ch, e1, e2, e3⟩ := r2.shape s hsR
        exact ⟨i1, s1, ch, e1, List.mem_cons_of_mem _ e2, e3⟩
      · intro i1 hi1 ch hch
        rcases List.mem_cons.mp hi1 with h1 | h1
        · rw [h1, hs] at hch; cases hch
        · exact r2.complete i1 h1 ch hch
    | some ch =>
      obtain ⟨d1, d2, -, -⟩ := h.down k i ch hk hs
      have hpc : descend t 0 (pk ++ [i]) = some ch := by
        rw [descend_append, hpk]
        simp only [Option.bind, descend, hs]
      obtain ⟨Ri, w1, w2⟩ := ih ch (pk ++ [i]) d2 (by omega) hpc
      obtain ⟨R, r1, r2⟩ := ihl hpw.2 (out ++ printed (pk ++ [i]) Ri) (c + Ri.length)
      refine ⟨Ri.map (fun s => i :: s) ++ R, ?_, ?_, ?_, ?_⟩
      · simp only [walk_subnodes, hs, w1]
        rw [if_neg (by omega)]
        rw [show ((c : Int) + (Ri.length : Int)) = ((c + Ri.length : Nat) : Int) by
          push_cast; rfl, r1, printed_append, printed_child, List.append_assoc]
        simp only [List.length_append, List.length_map, Nat.add_assoc]
      · intro s hsR
        rcases List.mem_append.mp hsR with h1 | h1
        · obtain ⟨s1, hs1, rfl⟩ := List.mem_map.mp h1
          exact ⟨i, s1, ch, rfl, List.mem_cons_self _ _, hs, w2.sound s1 hs1,
            w2.minimal s1 hs1⟩
        · obtain ⟨i1, s1, ch1, e1, e2, e3⟩ := r2.shape s h1
          exact ⟨i1, s1, ch1, e1, List.mem_cons_of_mem _ e2, e3⟩
      · rw [List.pairwise_append]
        refine ⟨?_, r2.sorted, ?_⟩
        · rw [List.pairwise_map]
          exact w2.sorted.imp (fun hab => List.Lex.cons hab)
        · intro a ha b hb
          obtain ⟨s1, -, rfl⟩ := List.mem_map.mp ha
          obtain ⟨i1, s2, ch1, e1, e2, -⟩ := r2.shape b hb
          subst e1
          exact List.Lex.rel (hpw.1 i1 e2)
      · intro i1 hi1 ch1 hch1 s n hd he hh
        rcases List.mem_cons.mp hi1 with h1 | h1
        · subst h1
          rw [hs] at hch1
          have hcc : ch = ch1 := Option.some.inj hch1
          subst hcc
          obtain ⟨r, hr1, hr2⟩ := w2.complete s n hd he hh
          refine ⟨i1 :: r, List.mem_append_left _ (List.mem_map.mpr ⟨r, hr1, rfl⟩), ?_⟩
          obtain ⟨z, hz⟩ := hr2
          exact ⟨z, by rw [← hz]; rfl⟩
        · obtain ⟨r, hr1, hr2⟩ := r2.complete i1 h1 ch1 hch1 s n hd he hh
          exact ⟨r, List.mem_append_right _ hr1, hr2⟩

theorem sel_of_loop {m : msg} {t : trie} {k : Nat} {R : List (List Nat)} (h : WF t)
    (hk : k < t.heap.length) (hno : ¬ ((t.node k).eow = true ∧ hit m t k))
    (hl : LoopPost m t k (List.range 255) R) : SelPost m t k R := by
  refine ⟨?_, ?_, hl.sorted, ?_⟩
  · intro s hs
    obtain ⟨i, s1, ch, e1, -, e3, ⟨n, e4, e5, e6⟩, -⟩ := hl.shape s hs
    subst e1
    exact ⟨n, by simp only [descend, e3]; exact e4, e5, e6⟩
  · intro s hs s1 n1 hpre hne hd
    obtain ⟨i, s2, ch, e1, -, e3, -, e5⟩ := hl.shape s hs
    subst e1
    cases s1 with
    | nil =>
      simp only [descend, Option.some.injEq] at hd
      subst hd
      exact hno
    | cons c cs =>
      obtain ⟨z, hz⟩ := hpre
      simp only [List.cons_append, List.cons.injEq] at hz
      obtain ⟨hz1, hz2⟩ := hz
      subst hz1
      simp only [descend, e3] at hd
      exact e5 cs n1 ⟨z, hz2⟩ (fun e => hne (by rw [e])) hd
  · intro s n hd he hh
    cases s with
    | nil =>
      simp only [descend, Option.some.injEq] at hd
      subst hd
      exact absurd ⟨he, hh⟩ hno
    | cons c cs =>
      simp only [descend] at hd
      cases hs : (t.node k).sub c with
      | none => rw [hs] at hd; cases hd
      | some ch =>
        rw [hs] at hd
        exact hl.complete c (List.mem_range.mpr (sub_lt h hk hs)) ch hs cs n hd he hh

theorem sel_walk (m : msg) {t : trie} (h : WF t) : ∀ fuel, SelWalk m t fuel := by
  intro fuel
  induction fuel with
  | zero => intro k pk hk hf _; omega
  | succ fuel ih =>
    intro k pk hk hf hpk
    by_cases hno : (t.node k).eow = true ∧ hit m t k
    · refine ⟨[[]], ?_, ?_, ?_, ?_, ?_⟩
      · simp only [trienode_walk, hno.1, Bool.not_true, Bool.or_true, if_true,
          print_if_equal_hit h m hpk hno.2]
        simp [printed]
      · intro s hs
        rw [List.mem_singleton] at hs
        subst hs
        exact ⟨k, rfl, hno.1, hno.2⟩
      · intro s hs s1 n1 hpre hne
        rw [List.mem_singleton] at hs
        subst hs
        exact absurd (List.prefix_nil.mp hpre) hne
      · exact List.pairwise_singleton _ _
      · intro s n _ _ _
        exact ⟨[], List.mem_singleton_self _, List.nil_prefix⟩
    · obtain ⟨R, r1, r2⟩ := sel_loop h ih hk (by omega) hpk (List.range 255)
        (List.pairwise_lt_range 255) [] 0
      refine ⟨R, ?_, sel_of_loop h hk hno r2⟩
      have hfn : (if (!true || (t.node k).eow) = true then print_if_equal m t k
          else some (t, [], 0)) = some (t, [], 0) := by
        by_cases he : (t.node k).eow = true
        · have hh : ¬ hit m t k := fun x => hno ⟨he, x⟩
          simp only [he, Bool.not_true, Bool.or_true, if_true, print_if_equal_miss t m hh]
        · simp only [he, Bool.not_true, Bool.or_false, Bool.false_eq_true, if_false]
      simp only [trienode_walk, hfn]
      simp only [ne_eq, not_true_eq_false, if_false]
      have r3 := r1
      simp only [List.nil_append, Nat.zero_add, Nat.cast_zero] at r3
      exact r3

/-! ### `trie_measure` -/

theorem printed_nil (R : List (List Nat)) : printed [] R = spaced R := by
  simp [printed, spaced]

theorem spaced_eq_nil (R : List (List Nat)) : spaced R = [] ↔ R = [] := by
  cases R with
  | nil => simp [spaced]
  | cons r rs => simp [spaced]

theorem calc_root {q : List Nat} {t : trie} (h : WF t) (hw : t.word = q) :
    ∃ t1, trie_walk t (calc_dist q) false = some (t1, [], 0) ∧ CalcPost q t t1 ∧
      ∀ s m, descend t1 0 s = some m → RowOK q t1 m :=
  calc_walk q t.heap.length t 0 h hw h.pos (by omega)
    (fun pn hpn => by rw [h.root_parent] at hpn; cases hpn)

theorem sel_root (m : msg) {t : trie} (h : WF t) :
    ∃ R, trie_walk t (print_if_equal m) true = some (t, spaced R, (R.length : Int)) ∧
      SelPost m t 0 R := by
  obtain ⟨R, r1, r2⟩ := sel_walk m h t.heap.length 0 [] h.pos (by omega) rfl
  rw [printed_nil] at r1
  exact ⟨R, r1, r2⟩

theorem measure_loop_spec {t : trie} (h : WF t) (L : Nat) : ∀ (n i : Nat) (out : List Nat),
    ∃ R j, trie_measure_loop L n i t out = some (t, out ++ spaced R, j) ∧
      (∀ i1, i ≤ i1 → i1 < j → NoHit L t i1) ∧
      ((R ≠ [] ∧ i ≤ j ∧ j < i + n ∧ SelPost { len := j, wordlen := L } t 0 R) ∨
        (R = [] ∧ j = i + n)) := by
  intro n
  induction n with
  | zero =>
    intro i out
    refine ⟨[], i, ?_, fun i1 h1 h2 => by omega, Or.inr ⟨rfl, rfl⟩⟩
    simp [trie_measure_loop, spaced]
  | succ n ih =>
    intro i out
    obtain ⟨Ri, w1, w2⟩ := sel_root { len := i, wordlen := L } h
    cases hR : Ri with
    | nil =>
      subst hR
      obtain ⟨R, j, e1, e2, e3⟩ := ih (i + 1) out
      refine ⟨R, j, ?_, ?_, ?_⟩
      · simp only [trie_measure_loop, w1]
        simp only [List.length_nil, Nat.cast_zero, ne_eq, not_true_eq_false, if_false]
        rw [show out ++ spaced [] = out by simp [spaced]]
        exact e1
      · intro i1 h1 h2
        by_cases hi : i1 = i
        · subst hi
          intro s nd hd he hh
          obtain ⟨r, hr, -⟩ := w2.complete s nd hd he hh
          cases hr
        · exact e2 i1 (by omega) h2
      · rcases e3 with ⟨a1, a2, a3, a4⟩ | ⟨a1, a2⟩
        · exact Or.inl ⟨a1, by omega, by omega, a4⟩
        · exact Or.inr ⟨a1, by omega⟩
    | cons r rs =>
      rw [hR] at w1 w2
      refine ⟨r :: rs, i, ?_, fun i1 h1 h2 => by omega,
        Or.inl ⟨by simp, le_refl _, by omega, w2⟩⟩
      simp only [trie_measure_loop, w1]
      rw [if_pos (by simp only [List.length_cons]; push_cast; omega)]

theorem hit_iff {q : List Nat} {t : trie} {s : List Nat} {n : Nat} (hq : 0 < q.length)
    (hd : descend t 0 s = some n) (hok : RowOK q t n) (i : Nat) :
    hit { len := i, wordlen := q.length } t n ↔ lev s q = i := by
  unfold hit
  have := hok s hd (q.length - 1) (by omega)
  rw [show q.length - 1 + 1 = q.length by omega, List.take_length] at this
  show (t.node n).data.getD (q.length - 1) 0 = i ↔ _
  rw [this]

theorem measure_spec {q : List Nat} {t : trie} (h : WF t) (hw : t.word = q) :
    ∃ t1 R j, trie_measure t q = some (t1, spaced R, j) ∧ CalcPost q t t1 ∧
      (∀ s m, descend t1 0 s = some m → RowOK q t1 m) ∧
      (∀ i1, i1 < j → NoHit q.length t1 i1) ∧
      ((R ≠ [] ∧ j < q.length ∧ SelPost { len := j, wordlen := q.length } t1 0 R) ∨
        (R = [] ∧ j = q.length)) := by
  obtain ⟨t1, c1, c2, c3⟩ := calc_root h hw
  obtain ⟨R, j, m1, m2, m3⟩ := measure_loop_spec (c2.1.wf h) q.length q.length 0 []
  refine ⟨t1, R, j, ?_, c2, c3, fun i1 hi => m2 i1 (by omega) hi, ?_⟩
  · simp only [trie_measure, c1]
    rw [m1, List.nil_append]
  · rcases m3 with ⟨a1, a2, a3, a4⟩ | ⟨a1, a2⟩
    · exact Or.inl ⟨a1, by omega, a4⟩
    · exact Or.inr ⟨a1, by omega⟩

theorem measure_words {q : List Nat} {t : trie} {ws : List (List Nat)} (hb : Built q t ws) :
    ∃ t1 R j, trie_measure t q = some (t1, spaced R, j) ∧ Outcome q ws R j ∧
      (R = [] ↔ ∀ i, i < q.length → NoHit q.length t1 i) ∧ CalcPost q t t1 ∧
      (∀ s m, descend t1 0 s = some m → RowOK q t1 m) := by
  have hi := hb.inv
  obtain ⟨t1, R, j, e1, e2, e3, e4, e5⟩ := measure_spec hi.wf hi.word
  have h1 : WF t1 := e2.1.wf hi.wf
  have hjL : j ≤ q.length := by
    rcases e5 with ⟨-, a2, -⟩ | ⟨-, a2⟩ <;> omega
  -- the node of an inserted word, seen in the trie after propagation
  have hnode : ∀ w ∈ ws, ∃ n, descend t1 0 (token w) = some n ∧ (t1.node n).eow = true ∧
      RowOK q t1 n := by
    intro w hw
    obtain ⟨n, n1, n2⟩ := hi.word_eow w hw
    have hd : descend t1 0 (token w) = some n := by rw [e2.1.descend]; exact n1
    exact ⟨n, hd, by rw [e2.2.1 n]; exact n2, e3 _ n hd⟩
  have hword : ∀ s n, descend t1 0 s = some n → (t1.node n).eow = true →
      ∃ w ∈ ws, s = token w := by
    intro s n hd he
    rw [e2.1.descend] at hd
    rw [e2.2.1 n] at he
    exact hi.eow_word s n hd he
  refine ⟨t1, R, j, e1, ⟨hjL, ?_, ?_, ?_, ?_, ?_, ?_⟩, ?_, e2, e3⟩
  · intro r hr
    rcases e5 with ⟨-, a2, a3⟩ | ⟨a1, -⟩
    · obtain ⟨n, n1, n2, n3⟩ := a3.sound r hr
      exact ⟨hword r n n1 n2, (hit_iff (by omega) n1 (e3 r n n1) j).mp n3, a2⟩
    · rw [a1] at hr; cases hr
  · intro w hw
    by_contra hlt
    obtain ⟨n, n1, n2, n3⟩ := hnode w hw
    have hq : 0 < q.length := by omega
    exact e4 (lev (token w) q) (by omega) (token w) n n1 n2
      ((hit_iff hq n1 n3 _).mpr rfl)
  · intro hR
    rcases e5 with ⟨a1, -, -⟩ | ⟨-, a2⟩
    · exact absurd hR a1
    · exact a2
  · rcases e5 with ⟨-, -, a3⟩ | ⟨a1, -⟩
    · exact a3.sorted
    · rw [a1]; exact List.Pairwise.nil
  · intro w hw hl hj
    obtain ⟨n, n1, n2, n3⟩ := hnode w hw
    rcases e5 with ⟨-, -, a3⟩ | ⟨-, a2⟩
    · exact a3.complete (token w) n n1 n2 ((hit_iff (by omega) n1 n3 j).mpr hl)
    · omega
  · intro r hr w hw hpre hne hl
    obtain ⟨n, n1, n2, n3⟩ := hnode w hw
    rcases e5 with ⟨-, a2, a3⟩ | ⟨a1, -⟩
    · exact a3.minimal r hr (token w) n hpre hne n1
        ⟨n2, (hit_iff (by omega) n1 n3 j).mpr hl⟩
    · rw [a1] at hr; cases hr
  · constructor
    · intro hR i hiL
      rcases e5 with ⟨a1, -, -⟩ | ⟨-, a2⟩
      · exact absurd hR a1
      · exact e4 i (by omega)
    · intro hno
      rcases e5 with ⟨a1, a2, a3⟩ | ⟨a1, -⟩
      · cases hR : R with
        | nil => rfl
        | cons r rs =>
          obtain ⟨n, n1, n2, n3⟩ := a3.sound r (by rw [hR]; exact List.mem_cons_self _ _)
          exact absurd n3 (hno j a2 r n n1 n2)
      · exact a1

/-! ### Insertion when no allocation fails -/

theorem trie_subnode_ok (t : trie) (node id : Nat) (hid : id < 128)
    (h : ∀ b ∈ t.calloc, b = true) {x : trie × Option Nat}
    (hx : trie_subnode t node (to_char id) = some x) :
    x.2 ≠ none ∧ ∀ b ∈ x.1.calloc, b = true := by
  rcases trie_subnode_cases t node id hid with ⟨k, -, h2⟩ | ⟨-, rest, h2, -⟩ | ⟨-, h2⟩
  · rw [h2] at hx; cases hx; exact ⟨by simp, h⟩
  · have := h false (by rw [h2]; exact List.mem_cons_self _ _)
    cases this
  · rw [h2] at hx; cases hx
    exact ⟨by simp, fun b hb => h b (List.mem_of_mem_tail hb)⟩

theorem trie_add_loop_ok : ∀ (w : List Nat) (t : trie) (node : Nat),
    (∀ c ∈ w, c < 128) → (∀ b ∈ t.calloc, b = true) →
    ∀ x, trie_add_loop w t node = some x → x.2 ≠ none ∧ ∀ b ∈ x.1.calloc, b = true := by
  intro w
  induction w with
  | nil => intro t node _ h x hx; cases hx; exact ⟨by simp, h⟩
  | cons c cs ih =>
    intro t node hv h x hx
    obtain ⟨y, hy⟩ := trie_subnode_def t node c (hv c (List.mem_cons_self _ _))
    rw [trie_add_loop_cons c cs t node hy] at hx
    by_cases hsp : isspace c = true
    · rw [if_pos hsp] at hx; cases hx; exact ⟨by simp, h⟩
    · rw [if_neg hsp] at hx
      obtain ⟨s1, s2⟩ := trie_subnode_ok t node c (hv c (List.mem_cons_self _ _)) h hy
      cases hr : y.2 with
      | none => exact absurd hr s1
      | some k =>
        rw [hr] at hx
        exact ih _ k (fun z hz => hv z (List.mem_cons_of_mem _ hz)) s2 x hx

theorem trie_add_ok (t : trie) (w : List Nat) (hv : ∀ c ∈ w, c < 128)
    (h : ∀ b ∈ t.calloc, b = true) :
    ∃ x, trie_add t w = some x ∧ x.2 = 0 ∧ ∀ b ∈ x.1.calloc, b = true := by
  obtain ⟨y, hy⟩ := trie_add_loop_def w t 0 hv
  obtain ⟨l1, l2⟩ := trie_add_loop_ok w t 0 hv h y hy
  refine ⟨_, trie_add_eq hy, ?_⟩
  cases hr : y.2 with
  | none => exact absurd hr l1
  | some k => exact ⟨rfl, l2⟩

theorem foldl_built {q : List Nat} : ∀ (ws : List (List Nat)) (t : trie) (ws0 : List (List Nat)),
    Built q t ws0 → (∀ b ∈ t.calloc, b = true) → (∀ w ∈ ws, ∀ c ∈ w, c < 128) →
    Built q (ws.foldl (fun t w => ((trie_add t w).getD (t, 0)).1) t) (ws0 ++ ws) := by
  intro ws
  induction ws with
  | nil => intro t ws0 hb _ _; rw [List.append_nil]; exact hb
  | cons w ws ih =>
    intro t ws0 hb hc hv
    have hw := hv w (List.mem_cons_self _ _)
    obtain ⟨x, hx, a1, a2⟩ := trie_add_ok t w hw hc
    have hf : ((trie_add t w).getD (t, 0)).1 = x.1 := by rw [hx]; rfl
    have := ih x.1 (ws0 ++ [w]) (Built.add w x hb hw hx a1) a2
      (fun z hz => hv z (List.mem_cons_of_mem _ hz))
    rw [List.append_assoc] at this
    rw [List.foldl_cons, hf]
    exact this

theorem dict_built (q : List Nat) (ws : List (List Nat)) (hv : ∀ w ∈ ws, ∀ c ∈ w, c < 128) :
    Built q (dict q ws) ws := by
  have := foldl_built ws (trie_new q []) [] (Built.new []) (fun b hb => by cases hb) hv
  rw [List.nil_append] at this
  exact this

/-! ### The report is determined by the inserted words -/

theorem lex_ne {a b : List Nat} (h : List.Lex (· < ·) a b) : a ≠ b :=
  List.Lex.to_ne (List.Lex.imp (fun _ _ hxy => Nat.ne_of_lt hxy) a b h)

theorem lex_asymm {a b : List Nat} (h : List.Lex (· < ·) a b) : ¬ List.Lex (· < ·) b a := by
  induction h with
  | nil => intro h2; cases h2
  | cons _ ih =>
    intro h2
    cases h2 with
    | cons h3 => exact ih h3
    | rel h3 => exact Nat.lt_irrefl _ h3
  | rel h1 =>
    intro h2
    cases h2 with
    | cons _ => exact Nat.lt_irrefl _ h1
    | rel h3 => exact Nat.lt_asymm h1 h3

theorem sorted_ext : ∀ (A B : List (List Nat)), A.Pairwise (List.Lex (· < ·)) →
    B.Pairwise (List.Lex (· < ·)) → (∀ r, r ∈ A ↔ r ∈ B) → A = B := by
  intro A
  induction A with
  | nil =>
    intro B _ _ h
    cases B with
    | nil => rfl
    | cons b bs => exact absurd ((h b).mpr (List.mem_cons_self _ _)) (List.not_mem_nil _)
  | cons a as ih =>
    intro B hA hB h
    cases B with
    | nil => exact absurd ((h a).mp (List.mem_cons_self _ _)) (List.not_mem_nil _)
    | cons b bs =>
      rw [List.pairwise_cons] at hA hB
      have hab : a = b := by
        rcases List.mem_cons.mp ((h a).mp (List.mem_cons_self _ _)) with h1 | h1
        · exact h1
        · rcases List.mem_cons.mp ((h b).mpr (List.mem_cons_self _ _)) with h2 | h2
          · exact h2.symm
          · exact absurd (hA.1 b h2) (lex_asymm (hB.1 a h1))
      subst hab
      rw [ih bs hA.2 hB.2]
      intro r
      constructor
      · intro hr
        rcases List.mem_cons.mp ((h r).mp (List.mem_cons_of_mem _ hr)) with h1 | h1
        · subst h1; exact absurd rfl (lex_ne (hA.1 r hr))
        · exact h1
      · intro hr
        rcases List.mem_cons.mp ((h r).mpr (List.mem_cons_of_mem _ hr)) with h1 | h1
        · subst h1; exact absurd rfl (lex_ne (hB.1 r hr))
        · exact h1

/-- The report and the result of `trie_measure` are determined by the inserted words:
when some word is at distance `d < strlen (q)` and none is nearer, the result is `d` and
the report is the increasing list of the selected words. -/
theorem report_determined {q : List Nat} {ws R : List (List Nat)} {j : Nat}
    (ho : Outcome q ws R j) (E : List (List Nat)) (d : Nat) (hd : d < q.length)
    (hs : E.Pairwise (List.Lex (· < ·))) (hne : E ≠ [])
    (h1 : ∀ r ∈ E, (∃ w ∈ ws, r = token w) ∧ Selected q ws d r)
    (h2 : ∀ w ∈ ws, d ≤ lev (token w) q ∧ (Selected q ws d (token w) → token w ∈ E)) :
    R = E ∧ j = d := by
  obtain ⟨r0, hr0⟩ := List.exists_mem_of_ne_nil E hne
  obtain ⟨⟨w0, hw0, e0⟩, s0, -⟩ := h1 r0 hr0
  have hjd : j ≤ d := by
    have := ho.least w0 hw0
    rw [← e0, s0] at this
    exact this
  have hRne : R ≠ [] := by
    intro hR
    have := ho.none hR
    omega
  obtain ⟨r1, hr1⟩ := List.exists_mem_of_ne_nil R hRne
  obtain ⟨⟨w1, hw1, e1⟩, s1, -⟩ := ho.sound r1 hr1
  have hdj : d ≤ j := by
    have := (h2 w1 hw1).1
    rw [← e1, s1] at this
    exact this
  have hj : j = d := by omega
  subst hj
  refine ⟨sorted_ext R E ho.sorted hs ?_, rfl⟩
  intro r
  constructor
  · intro hr
    obtain ⟨⟨w, hw, e⟩, s, -⟩ := ho.sound r hr
    subst e
    exact (h2 w hw).2 ⟨s, fun w2 hw2 hpre hne2 => ho.minimal _ hr w2 hw2 hpre hne2⟩
  · intro hr
    obtain ⟨⟨w, hw, e⟩, s, m⟩ := h1 r hr
    subst e
    obtain ⟨r2, hr2, hpre⟩ := ho.complete w hw s hd
    by_cases heq : r2 = token w
    · rw [← heq]; exact hr2
    · obtain ⟨⟨w2, hw2, e2⟩, s2, -⟩ := ho.sound r2 hr2
      subst e2
      exact absurd s2 (m w2 hw2 hpre heq)

/-- The value of `trie_measure` on a built trie, from the distances of the words. -/
theorem measure_determined {q : List Nat} {t : trie} {ws : List (List Nat)}
    (hb : Built q t ws) (E : List (List Nat)) (d : Nat) (hd : d < q.length)
    (hs : E.Pairwise (List.Lex (· < ·))) (hne : E ≠ [])
    (h1 : ∀ r ∈ E, (∃ w ∈ ws, r = token w) ∧ Selected q ws d r)
    (h2 : ∀ w ∈ ws, d ≤ lev (token w) q ∧ (Selected q ws d (token w) → token w ∈ E)) :
    ∃ t1, trie_measure t q = some (t1, spaced E, d) := by
  obtain ⟨t1, R, j, e1, e2, -⟩ := measure_words hb
  obtain ⟨hR, hj⟩ := report_determined e2 E d hd hs hne h1 h2
  rw [hR, hj] at e1
  exact ⟨t1, e1⟩

/-! ### A sample dictionary, `main`, and words without characters -/

theorem demo_built : Built (bytes "cog") demo [bytes "cat", bytes "dog\n"] :=
  dict_built _ _ (by decide)

theorem token_eq_self {w : List Nat} (h : ∀ c ∈ w, isspace c = false) : token w = w := by
  unfold token
  rw [List.takeWhile_eq_self_iff]
  intro c hc
  rw [h c hc]; rfl

theorem main_of_load {dictfile word : List Nat} {fs : List Nat → Option (List (List Nat))}
    {script : List Bool} {t t1 : trie} {ret : Int} {out : List Nat} {j : Nat}
    (hl : load_dict (trie_new word script) (fs dictfile) = some (t, ret)) (hret : 0 < ret)
    (hm : trie_measure t word = some (t1, out, j)) :
    main [dictfile, word] fs script = some (0, out) := by
  show (match load_dict (trie_new word script) (fs dictfile) with
    | none => none
    | some (t, ret) =>
      if ret ≤ 0 then some ((1 : Int), [])
      else
        match trie_measure t word with
        | none => none
        | some (_, out, _) => some ((0 : Int), out)) = _
  rw [hl]
  show (if ret ≤ 0 then some ((1 : Int), [])
      else
        match trie_measure t word with
        | none => none
        | some (_, out, _) => some ((0 : Int), out)) = _
  rw [if_neg (by omega), hm]

theorem trie_add_blank (t : trie) (w : List Nat)
    (h : w = [] ∨ ∃ c cs, w = c :: cs ∧ isspace c = true) :
    trie_add t w = some (t.store 0 { t.node 0 with eow := true }, 0) := by
  rcases h with h | ⟨c, cs, h, hsp⟩
  · subst h; rfl
  · subst h
    rw [trie_add, trie_add_loop, if_pos hsp]

/-- The returned `int` of a call determines the shape of its result. -/
theorem result_of_ret {o : Option (trie × Int)} {r : Int}
    (h : o.map Prod.snd = some r) : ∃ t, o = some (t, r) := by
  cases o with
  | none => cases h
  | some x =>
    obtain ⟨t, r1⟩ := x
    simp only [Option.map_some', Option.some.injEq] at h
    subst h
    exact ⟨t, rfl⟩

/-! ### The claims -/

/-- C1: in a trie built from `trie_new q` by calls of `trie_add` on words of bytes below
128, the propagation walk `trie_walk (trie, calc_dist, q, 0)` returns 0, prints nothing
and keeps the nodes and their paths; afterwards every cell of the heap is a node reached
from the root, every row has `strlen (q)` entries, and for every node `n` with path `p`
and every `i < strlen (q)`, `row[i]` of `n` is the Levenshtein distance between `p` and
the first `i + 1` characters of `q`.  In particular the last entry of the row of the end
node of an inserted word is the distance between that word and `q`. -/
theorem propagation_rows_are_levenshtein {q : List Nat} {t : trie} {ws : List (List Nat)}
    (hb : Built q t ws) :
    ∃ t1, trie_walk t (calc_dist q) false = some (t1, [], 0) ∧
      t1.heap.length = t.heap.length ∧
      (∀ n p, descend t1 n p = descend t n p) ∧
      (∀ n, n < t1.heap.length → ∃ p, descend t1 0 p = some n) ∧
      (∀ p n, descend t1 0 p = some n → (t1.node n).data.length = q.length ∧
        ∀ i, i < q.length → (t1.node n).data.getD i 0 = lev p (q.take (i + 1))) ∧
      (∀ w ∈ ws, ∃ n, descend t1 0 (token w) = some n ∧ (t1.node n).eow = true ∧
        (0 < q.length → (t1.node n).data.getD (q.length - 1) 0 = lev (token w) q)) := by
  have hi := hb.inv
  obtain ⟨t1, c1, c2, c3⟩ := calc_root hi.wf hi.word
  have h1 : WF t1 := c2.1.wf hi.wf
  refine ⟨t1, c1, c2.1.len, fun n p => c2.1.descend p n, fun n hn => reach h1 (n + 1) n
    (by omega) hn, ?_, ?_⟩
  · intro p n hd
    have hb1 := (descend_bound h1 p 0 n h1.pos hd).2.1
    refine ⟨by rw [h1.rows n hb1, c2.1.word, hi.word], c3 p n hd p hd⟩
  · intro w hw
    obtain ⟨n, n1, n2⟩ := hi.word_eow w hw
    have hd : descend t1 0 (token w) = some n := by rw [c2.1.descend]; exact n1
    refine ⟨n, hd, by rw [c2.2.1 n]; exact n2, ?_⟩
    intro hq
    have := c3 _ n hd (token w) hd (q.length - 1) (by omega)
    rw [show q.length - 1 + 1 = q.length by omega, List.take_length] at this
    exact this

theorem propagation_rows_are_levenshtein_witness :
    Built (bytes "cog") demo [bytes "cat", bytes "dog\n"] ∧
    ∃ t1, trie_walk demo (calc_dist (bytes "cog")) false = some (t1, [], 0) ∧
      t1.heap.length = demo.heap.length ∧
      (∀ n p, descend t1 n p = descend demo n p) ∧
      (∀ n, n < t1.heap.length → ∃ p, descend t1 0 p = some n) ∧
      (∀ p n, descend t1 0 p = some n → (t1.node n).data.length = (bytes "cog").length ∧
        ∀ i, i < (bytes "cog").length →
          (t1.node n).data.getD i 0 = lev p ((bytes "cog").take (i + 1))) ∧
      (∀ w ∈ [bytes "cat", bytes "dog\n"], ∃ n, descend t1 0 (token w) = some n ∧
        (t1.node n).eow = true ∧
        (0 < (bytes "cog").length →
          (t1.node n).data.getD ((bytes "cog").length - 1) 0 = lev (token w) (bytes "cog"))) :=
  ⟨demo_built, propagation_rows_are_levenshtein demo_built⟩

/-- C2: for a dictionary of words of bytes below 128, when `trie_measure` reports words,
each of them is an inserted word (up to its first whitespace) at the same distance from
the query, this distance is the returned threshold and is below `strlen (q)`, and no
inserted word is at a smaller distance. -/
theorem reported_words_are_nearest {q : List Nat} {t : trie} {ws : List (List Nat)}
    (hb : Built q t ws) :
    ∃ t1 R j, trie_measure t q = some (t1, spaced R, j) ∧
      (∀ r ∈ R, (∃ w ∈ ws, r = token w) ∧ lev r q = j ∧ j < q.length) ∧
      (∀ w ∈ ws, j ≤ lev (token w) q) := by
  obtain ⟨t1, R, j, e1, e2, -⟩ := measure_words hb
  exact ⟨t1, R, j, e1, e2.sound, e2.least⟩

theorem reported_words_are_nearest_witness :
    Built (bytes "abcd") (dict (bytes "abcd") [bytes "a", bytes "ab", bytes "abc"])
      [bytes "a", bytes "ab", bytes "abc"] ∧
    ∃ t1 R j, trie_measure (dict (bytes "abcd") [bytes "a", bytes "ab", bytes "abc"])
        (bytes "abcd") = some (t1, spaced R, j) ∧
      (∀ r ∈ R, (∃ w ∈ [bytes "a", bytes "ab", bytes "abc"], r = token w) ∧
        lev r (bytes "abcd") = j ∧ j < (bytes "abcd").length) ∧
      (∀ w ∈ [bytes "a", bytes "ab", bytes "abc"], j ≤ lev (token w) (bytes "abcd")) :=
  ⟨dict_built _ _ (by decide), reported_words_are_nearest (dict_built _ _ (by decide))⟩

/-- C3 (the code at the failing input): with "ab" and "abc" inserted and the query "abd",
both words are at the minimum distance 1, and `trie_measure` writes `ab ` only. -/
theorem word_below_reported_word_is_omitted :
    Built (bytes "abd") (dict (bytes "abd") [bytes "ab", bytes "abc"])
      [bytes "ab", bytes "abc"] ∧
    lev (bytes "ab") (bytes "abd") = 1 ∧ lev (bytes "abc") (bytes "abd") = 1 ∧
    ∃ t1, trie_measure (dict (bytes "abd") [bytes "ab", bytes "abc"]) (bytes "abd") =
      some (t1, bytes "ab ", 1) :=
  ⟨dict_built _ _ (by decide), by decide, by decide,
    measure_determined (dict_built _ _ (by decide)) [bytes "ab"] 1 (by decide)
      (by decide) (by decide) (by decide) (by decide)⟩

/-- C4 (counterexample): the empty word is inserted and queried, and the report does not
contain it: nothing is written. -/
theorem empty_word_is_not_reported :
    Built [] (dict [] [[]]) [[]] ∧
    (∃ t1, trie_measure (dict [] [[]]) [] = some (t1, [], 0)) ∧
    ¬ ∃ t1 R j, trie_measure (dict [] [[]]) [] = some (t1, spaced R, j) ∧ [] ∈ R := by
  have hb : Built [] (dict [] [[]]) [[]] := dict_built _ _ (by decide)
  obtain ⟨t2, R2, j2, e1, e2, -⟩ := measure_words hb
  have hR2 : R2 = [] := by
    cases hR : R2 with
    | nil => rfl
    | cons r rs =>
      have := (e2.sound r (by rw [hR]; exact List.mem_cons_self _ _)).2.2
      simp at this
  have hj2 : j2 = 0 := by
    have := e2.le
    simpa using this
  subst hR2
  subst hj2
  refine ⟨hb, ⟨t2, e1⟩, ?_⟩
  rintro ⟨t1, R, j, h, hmem⟩
  rw [e1] at h
  simp only [Option.some.injEq, Prod.mk.injEq] at h
  have hsp : spaced R = [] := h.2.1.symm
  rw [(spaced_eq_nil R).mp hsp] at hmem
  cases hmem

/-- C4 (amended): for a dictionary of words of bytes below 128 and a non-empty word `w`
without whitespace that was inserted, the trie built for the query `w` is measured with
result 0 and the report is exactly `w`. -/
theorem inserted_word_is_reported {w : List Nat} {t : trie} {ws : List (List Nat)}
    (hb : Built w t ws) (hw : w ∈ ws) (hne : w ≠ []) (hsp : ∀ c ∈ w, isspace c = false) :
    ∃ t1, trie_measure t w = some (t1, spaced [w], 0) := by
  obtain ⟨t1, R, j, e1, e2, -⟩ := measure_words hb
  have htw : token w = w := token_eq_self hsp
  have hlen : 0 < w.length := List.length_pos.mpr hne
  have hj : j = 0 := by
    have := e2.least w hw
    rw [htw, lev_self] at this
    omega
  subst hj
  have hall : ∀ r ∈ R, r = w := fun r hr => eq_of_lev_eq_zero r w (e2.sound r hr).2.1
  obtain ⟨r0, hr0, -⟩ := e2.complete w hw (by rw [htw, lev_self]) hlen
  have hR : R = [w] := by
    cases hR : R with
    | nil => rw [hR] at hr0; cases hr0
    | cons a rs =>
      have ha : a = w := hall a (by rw [hR]; exact List.mem_cons_self _ _)
      cases rs with
      | nil => rw [ha]
      | cons b rs2 =>
        have hb2 : b = w := hall b (by rw [hR]; simp)
        have hs := e2.sorted
        rw [hR, List.pairwise_cons] at hs
        exact absurd (ha.trans hb2.symm) (lex_ne (hs.1 b (List.mem_cons_self _ _)))
  rw [hR] at e1
  exact ⟨t1, e1⟩

theorem inserted_word_is_reported_witness :
    Built (bytes "cat") (dict (bytes "cat") [bytes "cat"]) [bytes "cat"] ∧
    bytes "cat" ∈ [bytes "cat"] ∧ bytes "cat" ≠ [] ∧
    (∀ c ∈ bytes "cat", isspace c = false) ∧
    ∃ t1, trie_measure (dict (bytes "cat") [bytes "cat"]) (bytes "cat") =
      some (t1, spaced [bytes "cat"], 0) :=
  ⟨dict_built _ _ (by decide), by decide, by decide, by decide,
    inserted_word_is_reported (dict_built _ _ (by decide)) (by decide) (by decide)
      (by decide)⟩

/-- C5: for a dictionary of words of bytes below 128, `trie_measure` reports no word
exactly when no end-of-word node has its last row entry among the thresholds
`0 .. strlen (q) - 1`, that is when every inserted word is at distance at least
`strlen (q)` from the query; then it returns `strlen (q)`.  Every reported word is at a
distance below `strlen (q)`, and nothing is reported for the empty query. -/
theorem no_report_iff_all_words_far {q : List Nat} {t : trie} {ws : List (List Nat)}
    (hb : Built q t ws) :
    ∃ t1 R j, trie_measure t q = some (t1, spaced R, j) ∧
      (spaced R = [] ↔ R = []) ∧
      (R = [] ↔ ∀ i, i < q.length → ∀ p n, descend t1 0 p = some n →
        (t1.node n).eow = true → (t1.node n).data.getD (q.length - 1) 0 ≠ i) ∧
      (R = [] ↔ ∀ w ∈ ws, q.length ≤ lev (token w) q) ∧
      (R = [] → j = q.length) ∧
      (∀ r ∈ R, lev r q < q.length) ∧
      (q = [] → R = []) := by
  obtain ⟨t1, R, j, e1, e2, e3, -⟩ := measure_words hb
  have hfar : R = [] ↔ ∀ w ∈ ws, q.length ≤ lev (token w) q := by
    constructor
    · intro hR w hw
      have := e2.least w hw
      rw [e2.none hR] at this
      exact this
    · intro hall
      cases hR : R with
      | nil => rfl
      | cons r rs =>
        obtain ⟨⟨w, hw, hr⟩, h2, h3⟩ := e2.sound r (by rw [hR]; exact List.mem_cons_self _ _)
        have := hall w hw
        rw [← hr] at this
        omega
  refine ⟨t1, R, j, e1, spaced_eq_nil R, e3, hfar, e2.none, ?_, ?_⟩
  · intro r hr
    obtain ⟨-, h2, h3⟩ := e2.sound r hr
    omega
  · intro hq
    rw [hfar]
    intro w _
    rw [hq]
    exact Nat.zero_le _

theorem no_report_iff_all_words_far_witness :
    Built (bytes "cog") demo [bytes "cat", bytes "dog\n"] ∧
    ∃ t1 R j, trie_measure demo (bytes "cog") = some (t1, spaced R, j) ∧
      (spaced R = [] ↔ R = []) ∧
      (R = [] ↔ ∀ i, i < (bytes "cog").length → ∀ p n, descend t1 0 p = some n →
        (t1.node n).eow = true →
        (t1.node n).data.getD ((bytes "cog").length - 1) 0 ≠ i) ∧
      (R = [] ↔ ∀ w ∈ [bytes "cat", bytes "dog\n"],
        (bytes "cog").length ≤ lev (token w) (bytes "cog")) ∧
      (R = [] → j = (bytes "cog").length) ∧
      (∀ r ∈ R, lev r (bytes "cog") < (bytes "cog").length) ∧
      (bytes "cog" = [] → R = []) :=
  ⟨demo_built, no_report_iff_all_words_far demo_built⟩

/-- C6: in a trie built from the inserted words `ws` (of bytes below 128), a path `p`
leads from the root to a node with `eow` set exactly when `p` is an inserted word cut at
its first whitespace; a word that is empty or starts with whitespace marks the root,
leaves the heap as it is and returns 0; and for a word of bytes below 128 `trie_add`
returns 0 whenever no coming `calloc` fails. -/
theorem eow_marks_exactly_inserted_words :
    (∀ (q : List Nat) (t : trie) (ws : List (List Nat)), Built q t ws →
      ∀ p, (∃ n, descend t 0 p = some n ∧ (t.node n).eow = true) ↔ ∃ w ∈ ws, p = token w) ∧
    (∀ (t : trie) (w : List Nat), (w = [] ∨ ∃ c cs, w = c :: cs ∧ isspace c = true) →
      token w = [] ∧ trie_add t w = some (t.store 0 { t.node 0 with eow := true }, 0)) ∧
    (∀ (t : trie) (w : List Nat), (∀ c ∈ w, c < 128) → (∀ b ∈ t.calloc, b = true) →
      ∃ t1, trie_add t w = some (t1, 0)) := by
  refine ⟨?_, ?_, ?_⟩
  · intro q t ws hb p
    have hi := hb.inv
    constructor
    · rintro ⟨n, hd, he⟩
      exact hi.eow_word p n hd he
    · rintro ⟨w, hw, rfl⟩
      exact hi.word_eow w hw
  · intro t w h
    refine ⟨?_, trie_add_blank t w h⟩
    rcases h with h | ⟨c, cs, h, hsp⟩
    · subst h; rfl
    · subst h; rw [token_cons, if_pos hsp]
  · intro t w hv h
    obtain ⟨x, hx, h0, -⟩ := trie_add_ok t w hv h
    obtain ⟨t1, r⟩ := x
    simp only at h0
    subst h0
    exact ⟨t1, hx⟩

theorem eow_marks_exactly_inserted_words_witness :
    Built (bytes "cog") demo [bytes "cat", bytes "dog\n"] ∧
    ∀ p, (∃ n, descend demo 0 p = some n ∧ (demo.node n).eow = true) ↔
      ∃ w ∈ [bytes "cat", bytes "dog\n"], p = token w :=
  ⟨demo_built, eow_marks_exactly_inserted_words.1 _ _ _ demo_built⟩

/-- C7: with "cat", "cot" and "dog" inserted and the query "cog", `trie_measure` returns 1
and writes `cot dog ` to standard output: the words cot and dog in that order, and not
cat, which is at distance 2. -/
theorem cat_cot_dog_queried_with_cog :
    Built (bytes "cog") (dict (bytes "cog") [bytes "cat", bytes "cot", bytes "dog"])
      [bytes "cat", bytes "cot", bytes "dog"] ∧
    lev (bytes "cat") (bytes "cog") = 2 ∧
    bytes "cot dog " = spaced [bytes "cot", bytes "dog"] ∧
    ∃ t1, trie_measure (dict (bytes "cog") [bytes "cat", bytes "cot", bytes "dog"])
      (bytes "cog") = some (t1, bytes "cot dog ", 1) :=
  ⟨dict_built _ _ (by decide), by decide, by decide,
    measure_determined (dict_built _ _ (by decide)) [bytes "cot", bytes "dog"] 1 (by decide)
      (by decide) (by decide) (by decide) (by decide)⟩

/-- C8: for a dictionary of words of bytes below 128, the words reported by
`trie_measure` are paths of the trie listed in strictly increasing lexicographic order
of their bytes (the order of a pre-order walk that takes the child slots in ascending
order), so no word is reported twice; this holds for every order of insertion. -/
theorem report_is_strictly_increasing {q : List Nat} {t : trie} {ws : List (List Nat)}
    (hb : Built q t ws) :
    ∃ t1 R j, trie_measure t q = some (t1, spaced R, j) ∧
      (∀ r ∈ R, ∃ n, descend t 0 r = some n) ∧
      R.Pairwise (List.Lex (· < ·)) ∧ R.Nodup := by
  obtain ⟨t1, R, j, e1, e2, -⟩ := measure_words hb
  refine ⟨t1, R, j, e1, ?_, e2.sorted, e2.sorted.imp lex_ne⟩
  intro r hr
  obtain ⟨⟨w, hw, rfl⟩, -⟩ := e2.sound r hr
  obtain ⟨n, hn, -⟩ := hb.inv.word_eow w hw
  exact ⟨n, hn⟩

theorem report_is_strictly_increasing_witness :
    Built (bytes "cog") (dict (bytes "cog") [bytes "dog", bytes "cot", bytes "cat"])
      [bytes "dog", bytes "cot", bytes "cat"] ∧
    (∃ t1, trie_measure (dict (bytes "cog") [bytes "dog", bytes "cot", bytes "cat"])
      (bytes "cog") = some (t1, spaced [bytes "cot", bytes "dog"], 1)) ∧
    ∃ t1 R j, trie_measure (dict (bytes "cog") [bytes "dog", bytes "cot", bytes "cat"])
        (bytes "cog") = some (t1, spaced R, j) ∧
      (∀ r ∈ R, ∃ n,
        descend (dict (bytes "cog") [bytes "dog", bytes "cot", bytes "cat"]) 0 r = some n) ∧
      R.Pairwise (List.Lex (· < ·)) ∧ R.Nodup :=
  ⟨dict_built _ _ (by decide),
    measure_determined (dict_built _ _ (by decide)) [bytes "cot", bytes "dog"] 1 (by decide)
      (by decide) (by decide) (by decide) (by decide),
    report_is_strictly_increasing (dict_built _ _ (by decide))⟩

/-- C9: in a trie built from words of bytes below 128, for a node reached from the root
by the path `p`, `print_node` prints exactly `p` (nothing for the root); the end node of
an inserted word prints that word cut at its first whitespace; and every word reported
by `trie_measure` is such a word. -/
theorem print_node_prints_path {q : List Nat} {t : trie} {ws : List (List Nat)}
    (hb : Built q t ws) :
    (∀ p n fuel, descend t 0 p = some n → n < fuel → print_node t fuel n = some p) ∧
    print_node t t.heap.length 0 = some [] ∧
    (∀ w ∈ ws, ∃ n, descend t 0 (token w) = some n ∧ (t.node n).eow = true ∧
      print_node t t.heap.length n = some (token w)) ∧
    ∃ t1 R j, trie_measure t q = some (t1, spaced R, j) ∧ ∀ r ∈ R, ∃ w ∈ ws, r = token w := by
  have hi := hb.inv
  refine ⟨fun p n fuel hd hf => print_node_spec hi.wf p n fuel hd hf,
    print_node_spec hi.wf [] 0 _ rfl hi.wf.pos, ?_, ?_⟩
  · intro w hw
    obtain ⟨n, n1, n2⟩ := hi.word_eow w hw
    exact ⟨n, n1, n2, print_node_spec hi.wf _ n _ n1 (descend_bound hi.wf _ 0 n hi.wf.pos n1).2.1⟩
  · obtain ⟨t1, R, j, e1, e2, -⟩ := measure_words hb
    exact ⟨t1, R, j, e1, fun r hr => (e2.sound r hr).1⟩

theorem print_node_prints_path_witness :
    Built (bytes "cog") demo [bytes "cat", bytes "dog\n"] ∧
    (∀ p n fuel, descend demo 0 p = some n → n < fuel → print_node demo fuel n = some p) ∧
    print_node demo demo.heap.length 0 = some [] ∧
    (∀ w ∈ [bytes "cat", bytes "dog\n"], ∃ n, descend demo 0 (token w) = some n ∧
      (demo.node n).eow = true ∧ print_node demo demo.heap.length n = some (token w)) ∧
    ∃ t1 R j, trie_measure demo (bytes "cog") = some (t1, spaced R, j) ∧
      ∀ r ∈ R, ∃ w ∈ [bytes "cat", bytes "dog\n"], r = token w :=
  ⟨demo_built, print_node_prints_path demo_built⟩

/-- C10 (the code at the failing input): the dictionary has the lines "a" and "b", the
query is "a", and the second allocation of a node fails.  `trie_add` returns 0 for "a"
and -1 for "b", `load_dict` returns 1, and `main` writes `a ` and exits with 0. -/
theorem failed_insertion_is_not_fatal :
    ∃ t1 t2, trie_add (trie_new (bytes "a") [true, false]) (bytes "a\n") = some (t1, 0) ∧
      trie_add t1 (bytes "b\n") = some (t2, -1) ∧
      load_dict (trie_new (bytes "a") [true, false]) (some [bytes "a\n", bytes "b\n"]) =
        some (t2, 1) ∧
      main [bytes "words", bytes "a"] (fun _ => some [bytes "a\n", bytes "b\n"])
        [true, false] = some (0, bytes "a ") := by
  obtain ⟨t1, h1⟩ := result_of_ret
    (by decide : (trie_add (trie_new (bytes "a") [true, false]) (bytes "a\n")).map Prod.snd =
      some 0)
  have h2a : ((trie_add (trie_new (bytes "a") [true, false]) (bytes "a\n")).bind
      (fun x => trie_add x.1 (bytes "b\n"))).map Prod.snd = some (-1) := by decide
  rw [h1] at h2a
  obtain ⟨t2, h2b⟩ := result_of_ret h2a
  have h2 : trie_add t1 (bytes "b\n") = some (t2, -1) := h2b
  have hb : Built (bytes "a") t2 [bytes "a\n"] :=
    Built.fail (bytes "b\n") (t2, -1)
      (Built.add (bytes "a\n") (t1, 0) (Built.new [true, false]) (by decide) h1 rfl)
      (by decide) h2 (by intro h; cases h)
  obtain ⟨t3, hm⟩ := measure_determined hb [bytes "a"] 0 (by decide) (by decide) (by decide)
    (by decide) (by decide)
  have hload : load_dict (trie_new (bytes "a") [true, false])
      (some [bytes "a\n", bytes "b\n"]) = some (t2, 1) := by
    simp [load_dict, load_dict_loop, h1, h2]
  exact ⟨t1, t2, h1, h2, hload, main_of_load hload (by decide) hm⟩

/-! ### `load_dict` and `main` -/

theorem load_dict_loop_cons (w : List Nat) (more : List (List Nat)) (t : trie) (cnt : Nat)
    {x : trie × Int} (hx : trie_add t w = some x) :
    load_dict_loop (w :: more) t cnt =
      if x.2 ≠ 0 then some (x.1, cnt) else load_dict_loop more x.1 (cnt + 1) := by
  rw [load_dict_loop, hx]

theorem load_dict_loop_built {q : List Nat} : ∀ (lines : List (List Nat)) (t : trie) (cnt : Nat)
    (ws : List (List Nat)), Built q t ws → (∀ w ∈ lines, ∀ c ∈ w, c < 128) →
    ∃ x, load_dict_loop lines t cnt = some x ∧ (∃ ws1, Built q x.1 ws1) ∧ cnt ≤ x.2 := by
  intro lines
  induction lines with
  | nil => intro t cnt ws hb _; exact ⟨_, rfl, ⟨ws, hb⟩, le_refl _⟩
  | cons w more ih =>
    intro t cnt ws hb hv
    have hw := hv w (List.mem_cons_self _ _)
    obtain ⟨x, hx⟩ := trie_add_def t w hw
    rw [load_dict_loop_cons w more t cnt hx]
    by_cases hr : x.2 = 0
    · rw [if_neg (by rw [hr]; simp)]
      obtain ⟨y, hy, a1, a2⟩ := ih x.1 (cnt + 1) (ws ++ [w]) (Built.add w x hb hw hx hr)
        (fun z hz => hv z (List.mem_cons_of_mem _ hz))
      exact ⟨y, hy, a1, by omega⟩
    · rw [if_pos hr]
      exact ⟨_, rfl, ⟨ws, Built.fail w x hb hw hx hr⟩, le_refl _⟩

theorem load_dict_some {t : trie} {lines : List (List Nat)} {x : trie × Nat}
    (hx : load_dict_loop lines t 0 = some x) :
    load_dict t (some lines) = some (x.1, (x.2 : Int)) := by
  rw [load_dict]
  simp only [hx]

theorem main_of_load_fail {dictfile word : List Nat} {fs : List Nat → Option (List (List Nat))}
    {script : List Bool} {t : trie} {ret : Int}
    (hl : load_dict (trie_new word script) (fs dictfile) = some (t, ret)) (hret : ret ≤ 0) :
    main [dictfile, word] fs script = some (1, []) := by
  show (match load_dict (trie_new word script) (fs dictfile) with
    | none => none
    | some (t, ret) =>
      if ret ≤ 0 then some ((1 : Int), [])
      else
        match trie_measure t word with
        | none => none
        | some (_, out, _) => some ((0 : Int), out)) = _
  rw [hl]
  show (if ret ≤ 0 then some ((1 : Int), [])
      else
        match trie_measure t word with
        | none => none
        | some (_, out, _) => some ((0 : Int), out)) = _
  rw [if_pos hret]

theorem main_loaded {dictfile word : List Nat} {fs : List Nat → Option (List (List Nat))}
    {script : List Bool} {lines : List (List Nat)} {t : trie} {n : Int}
    (hf : fs dictfile = some lines) (hv : ∀ w ∈ lines, ∀ c ∈ w, c < 128)
    (hl : load_dict (trie_new word script) (fs dictfile) = some (t, n)) (hret : 0 < n) :
    ∃ out, main [dictfile, word] fs script = some (0, out) := by
  obtain ⟨x, hx, ⟨ws1, hb⟩, -⟩ := load_dict_loop_built lines (trie_new word script) 0 []
    (Built.new script) hv
  have h2 := hl
  rw [hf, load_dict_some hx] at h2
  have ht : x.1 = t := by
    have := Option.some.inj h2
    exact congrArg Prod.fst this
  rw [ht] at hb
  obtain ⟨t1, R, j, e1, -⟩ := measure_words hb
  exact ⟨spaced R, main_of_load hl hret e1⟩

/-! ### Bounds on the distance -/

theorem lev_le_max : ∀ (a b : List Nat), lev a b ≤ max a.length b.length := by
  intro a
  induction a with
  | nil => intro b; rw [lev_nil_left]; exact le_max_right _ _
  | cons x xs ih =>
    intro b
    cases b with
    | nil => rw [lev_nil_right]; exact le_max_left _ _
    | cons y ys =>
      have h := ih ys
      rw [lev_cons_cons]
      simp only [List.length_cons]
      split_ifs <;> omega

theorem lev_disjoint : ∀ (a b : List Nat), (∀ x ∈ a, x ∉ b) →
    lev a b = max a.length b.length := by
  intro a
  induction a with
  | nil => intro b _; rw [lev_nil_left]; simp
  | cons x xs ih =>
    intro b
    induction b with
    | nil => intro _; rw [lev_nil_right]; simp
    | cons y ys ihb =>
      intro hd
      have hxy : x ≠ y := fun e => hd x (List.mem_cons_self _ _) (by rw [e]; exact List.mem_cons_self _ _)
      have h1 := ih (y :: ys) (fun z hz => hd z (List.mem_cons_of_mem _ hz))
      have h2 := ihb (fun z hz hzy => hd z hz (List.mem_cons_of_mem _ hzy))
      have h3 := ih ys (fun z hz hzy => hd z (List.mem_cons_of_mem _ hz)
        (List.mem_cons_of_mem _ hzy))
      rw [lev_cons_cons, h1, h2, h3, if_neg hxy]
      simp only [List.length_cons]
      omega

/-- The row of the end node of an inserted word after the propagation walk. -/
theorem end_row {q : List Nat} {t : trie} {ws : List (List Nat)} (hb : Built q t ws)
    {w : List Nat} (hw : w ∈ ws) (hq : 0 < q.length) :
    ∃ t1 n, trie_walk t (calc_dist q) false = some (t1, [], 0) ∧
      descend t 0 (token w) = some n ∧ descend t1 0 (token w) = some n ∧
      (t1.node n).eow = true ∧ (t1.node n).data.getD (q.length - 1) 0 = lev (token w) q := by
  have hi := hb.inv
  obtain ⟨t1, c1, c2, c3⟩ := calc_root hi.wf hi.word
  obtain ⟨n, n1, n2⟩ := hi.word_eow w hw
  have hd : descend t1 0 (token w) = some n := by rw [c2.1.descend]; exact n1
  refine ⟨t1, n, c1, n1, hd, by rw [c2.2.1 n]; exact n2, ?_⟩
  have := c3 _ n hd (token w) hd (q.length - 1) (by omega)
  rw [show q.length - 1 + 1 = q.length by omega, List.take_length] at this
  exact this

/-! ### Rows keep their length -/

theorem frame_refl (t : trie) : Frame t t :=
  ⟨rfl, rfl, rfl, rfl, fun _ => ⟨rfl, rfl, rfl, rfl, rfl, rfl⟩⟩

theorem frame_trans {t t1 t2 : trie} (h1 : Frame t t1) (h2 : Frame t1 t2) : Frame t t2 := by
  refine ⟨h2.nodecnt.trans h1.nodecnt, h2.word.trans h1.word, h2.calloc.trans h1.calloc,
    h2.len.trans h1.len, ?_⟩
  intro k
  obtain ⟨a1, a2, a3, a4, a5, a6⟩ := h1.same k
  obtain ⟨b1, b2, b3, b4, b5, b6⟩ := h2.same k
  exact ⟨b1.trans a1, b2.trans a2, b3.trans a3, b4.trans a4, b5.trans a5, b6.trans a6⟩

theorem frame_shape {t t1 : trie} (h : Frame t t1) : Shape t t1 :=
  ⟨h.len, h.word, fun k => ⟨(h.same k).1, (h.same k).2.2.1, (h.same k).2.2.2.1,
    (h.same k).2.2.2.2.1, (h.same k).2.2.2.2.2⟩⟩

theorem calc_dist_root_length : ∀ (n i : Nat) (row : List Nat),
    (calc_dist_root n i row).length = row.length := by
  intro n
  induction n with
  | zero => intro i row; rfl
  | succ n ih =>
    intro i row
    show (calc_dist_root n (i + 1) (row.set i (i + 1))).length = _
    rw [ih, List.length_set]

theorem calc_dist_loop_length (word : List Nat) (id : Nat) (uprow : List Nat) :
    ∀ (n i : Nat) (row : List Nat) (distu distul : Nat),
      (calc_dist_loop word id uprow n i row distu distul).length = row.length := by
  intro n
  induction n with
  | zero => intro i row _ _; rfl
  | succ n ih =>
    intro i row distu distul
    show (calc_dist_loop word id uprow n (i + 1) (row.set i _) _ (uprow.getD i 0)).length = _
    rw [ih, List.length_set]

theorem store_row_frame (t : trie) (n : Nat) (row : List Nat) (hn : n < t.heap.length)
    (hlen : row.length = (t.node n).data.length) :
    Frame t (t.store n { t.node n with data := row }) := by
  refine ⟨rfl, rfl, rfl, length_store t n _, ?_⟩
  intro k
  rw [node_store t n _ hn k]
  by_cases h : k = n
  · subst h; rw [if_pos rfl]; exact ⟨rfl, rfl, rfl, rfl, rfl, hlen⟩
  · rw [if_neg h]; exact ⟨rfl, rfl, rfl, rfl, rfl, rfl⟩

/-- One call of `calc_dist` returns 0, prints nothing and changes row entries only. -/
theorem calc_dist_frame (q : List Nat) (t : trie) (n : Nat) (hn : n < t.heap.length) :
    ∃ t1, calc_dist q t n = some (t1, [], 0) ∧ Frame t t1 := by
  cases hp : (t.node n).parent with
  | none =>
    exact ⟨_, calc_dist_none q t n hp,
      store_row_frame t n _ hn (calc_dist_root_length _ _ _)⟩
  | some pn =>
    exact ⟨_, calc_dist_some q t n pn hp,
      store_row_frame t n _ hn (calc_dist_loop_length _ _ _ _ _ _ _ _)⟩

/-! ### Rows are zero before the propagation -/

theorem zero_subnode {t : trie} (hz : ZeroRows t) (node id : Nat) (hn : node < t.heap.length)
    (hid : id < 128) {x : trie × Option Nat}
    (hx : trie_subnode t node (to_char id) = some x) : ZeroRows x.1 := by
  rcases trie_subnode_cases t node id hid with ⟨k, -, h2⟩ | ⟨-, rest, -, h3⟩ | ⟨-, h2⟩
  · rw [h2] at hx; cases hx; exact hz
  · rw [h3] at hx; cases hx; exact hz
  · rw [h2] at hx; cases hx
    intro k hk
    rw [grown_length] at hk
    by_cases hk2 : k = t.heap.length
    · subst hk2; rw [grown_new t node id _ hn]; rfl
    · rw [(grown_fields t node id _ hn k (by omega)).2.2.2.1]
      exact hz k (by omega)

theorem zero_loop : ∀ (w : List Nat) (t : trie) (node : Nat), WF t → ZeroRows t →
    node < t.heap.length → (∀ c ∈ w, c < 128) →
    ∀ x, trie_add_loop w t node = some x → ZeroRows x.1 := by
  intro w
  induction w with
  | nil => intro t node _ hz _ _ x hx; cases hx; exact hz
  | cons c cs ih =>
    intro t node h hz hn hv x hx
    have hc := hv c (List.mem_cons_self _ _)
    obtain ⟨y, hy⟩ := trie_subnode_def t node c hc
    rw [trie_add_loop_cons c cs t node hy] at hx
    by_cases hsp : isspace c = true
    · rw [if_pos hsp] at hx; cases hx; exact hz
    · rw [if_neg hsp] at hx
      obtain ⟨s1, s2, s3⟩ := trie_subnode_spec h hn hc hy
      have hz1 := zero_subnode hz node c hn hc hy
      cases hr : y.2 with
      | none => rw [hr] at hx; cases hx; exact hz1
      | some k =>
        rw [hr] at hx
        have hk1 := (s1.down node c k (lt_of_lt_of_le hn s2.len) (s3 k hr)).2.1
        exact ih _ k s1 hz1 hk1 (fun z hz => hv z (List.mem_cons_of_mem _ hz)) x hx

theorem zero_add {t : trie} (h : WF t) (hz : ZeroRows t) (w : List Nat)
    (hv : ∀ c ∈ w, c < 128) {x : trie × Int} (hx : trie_add t w = some x) :
    ZeroRows x.1 := by
  obtain ⟨y, hy⟩ := trie_add_loop_def w t 0 hv
  have hl := zero_loop w t 0 h hz h.pos hv y hy
  obtain ⟨l1, -, l3⟩ := trie_add_loop_spec w t 0 h h.pos hv y hy
  rw [trie_add_eq hy] at hx
  cases hx
  cases hr : y.2 with
  | none => exact hl
  | some r =>
    have hrb := (descend_bound l1 _ 0 r l1.pos (l3 r hr)).2.1
    intro k hk
    rw [length_store] at hk
    show ((trie.store _ r _).node k).data = List.replicate y.1.word.length 0
    rw [node_store _ r _ hrb k]
    by_cases hkr : k = r
    · rw [if_pos hkr, ← hkr]; exact hl k hk
    · rw [if_neg hkr]; exact hl k hk

theorem built_zero {q : List Nat} {t : trie} {ws : List (List Nat)} (hb : Built q t ws) :
    ZeroRows t := by
  induction hb with
  | new s =>
    intro k hk
    have : k = 0 := by
      have : (trie_new q s).heap.length = 1 := rfl
      omega
    subst this
    rfl
  | add w x hb1 hv hx _ ih => exact zero_add hb1.inv.wf ih w hv hx
  | fail w x hb1 hv hx _ ih => exact zero_add hb1.inv.wf ih w hv hx

/-! ### The order of the calls in the propagation walk -/

theorem looplog_shape {t t2 : trie} (hs : Shape t t2) {k : Nat} {is L : List Nat}
    (h : LoopLog t2 k is L) : LoopLog t k is L := by
  refine ⟨h.nodup, ?_, ?_⟩
  · intro m
    rw [h.mem m]
    constructor
    · rintro ⟨i, hi, ch, s, h1, h2⟩
      exact ⟨i, hi, ch, s, by rw [← hs.sub]; exact h1, by rw [← hs.descend]; exact h2⟩
    · rintro ⟨i, hi, ch, s, h1, h2⟩
      exact ⟨i, hi, ch, s, by rw [hs.sub]; exact h1, by rw [hs.descend]; exact h2⟩
  · intro A B m p hL hp
    exact h.order A B m p hL (by rw [(hs.same m).2.2.1]; exact hp)

theorem split_append {A B L1 L2 : List Nat} {m : Nat} (h : A ++ m :: B = L1 ++ L2) :
    (∃ B1, L1 = A ++ m :: B1) ∨ (∃ A1, A = L1 ++ A1 ∧ L2 = A1 ++ m :: B) := by
  rw [List.append_eq_append_iff] at h
  rcases h with ⟨a, h1, h2⟩ | ⟨c, h1, h2⟩
  · cases a with
    | nil =>
      right
      refine ⟨[], by rw [h1]; simp, by simpa using h2.symm⟩
    | cons x xs =>
      simp only [List.cons_append, List.cons.injEq] at h2
      left
      exact ⟨xs, by rw [h1, h2.1]⟩
  · right
    exact ⟨c, h1, h2⟩

theorem log_loop {q : List Nat} {fuel : Nat} (ih : LogWalk q fuel) (k : Nat) :
    ∀ (is : List Nat), is.Nodup → ∀ (t : trie) (out : List Nat), WF t → k < t.heap.length →
      t.heap.length ≤ fuel + 1 + k →
      ∃ t1 L, walk_subnodes (trienode_walk (calc_dist q) false fuel) k is t [] 0 =
          some (t1, [], 0) ∧
        walk_subnodes (trienode_walk (logged (calc_dist q)) false fuel) k is t out 0 =
          some (t1, out ++ L, 0) ∧
        Frame t t1 ∧ LoopLog t k is L := by
  intro is
  induction is with
  | nil =>
    intro _ t out _ _ _
    refine ⟨t, [], rfl, by simp [walk_subnodes], frame_refl t, List.nodup_nil, ?_, ?_⟩
    · intro m
      constructor
      · intro h; cases h
      · rintro ⟨i, hi, -⟩; cases hi
    · intro A B m p h
      exact absurd h (by simp)
  | cons i is ihl =>
    intro hnd t out h hk hf
    rw [List.nodup_cons] at hnd
    cases hs : (t.node k).sub i with
    | none =>
      obtain ⟨t1, L, e1, e2, e3, e4⟩ := ihl hnd.2 t out h hk hf
      refine ⟨t1, L, ?_, ?_, e3, e4.nodup, ?_, e4.order⟩
      · simp only [walk_subnodes, hs]; exact e1
      · simp only [walk_subnodes, hs]; exact e2
      · intro m
        rw [e4.mem m]
        constructor
        · rintro ⟨i1, hi1, r⟩
          exact ⟨i1, List.mem_cons_of_mem _ hi1, r⟩
        · rintro ⟨i1, hi1, ch, s, h1, h2⟩
          rcases List.mem_cons.mp hi1 with h3 | h3
          · rw [h3, hs] at h1; cases h1
          · exact ⟨i1, h3, ch, s, h1, h2⟩
    | some ch =>
      obtain ⟨d1, d2, d3, -⟩ := h.down k i ch hk hs
      obtain ⟨t2, Lc, w1, w2, w3, w4⟩ := ih t ch h d2 (by omega)
      have hs2 := frame_shape w3
      have h2 : WF t2 := hs2.wf h
      obtain ⟨t3, Lr, e1, e2, e3, e4⟩ := ihl hnd.2 t2 (out ++ Lc) h2
        (by rw [w3.len]; exact hk) (by rw [w3.len]; exact hf)
      have e5 := looplog_shape hs2 e4
      refine ⟨t3, Lc ++ Lr, ?_, ?_, frame_trans w3 e3, ?_, ?_, ?_⟩
      · simp only [walk_subnodes, hs, w1]
        exact e1
      · simp only [walk_subnodes, hs, w2]
        rw [← List.append_assoc]
        exact e2
      · rw [List.nodup_append]
        refine ⟨w4.nodup, e5.nodup, ?_⟩
        intro m hm1 hm2
        obtain ⟨s, hs1⟩ := (w4.mem m).mp hm1
        obtain ⟨i1, hi1, ch1, s1, g1, g2⟩ := (e5.mem m).mp hm2
        have p1 : descend t k (i :: s) = some m := by simp only [descend, hs]; exact hs1
        have p2 : descend t k (i1 :: s1) = some m := by simp only [descend, g1]; exact g2
        have := descend_inj h hk _ _ m p1 p2
        simp only [List.cons.injEq] at this
        rw [← this.1] at hi1
        exact hnd.1 hi1
      · intro m
        rw [List.mem_append, w4.mem m, e5.mem m]
        constructor
        · rintro (⟨s, h1⟩ | ⟨i1, hi1, r⟩)
          · exact ⟨i, List.mem_cons_self _ _, ch, s, hs, h1⟩
          · exact ⟨i1, List.mem_cons_of_mem _ hi1, r⟩
        · rintro ⟨i1, hi1, ch1, s, h1, h2⟩
          rcases List.mem_cons.mp hi1 with h3 | h3
          · rw [h3, hs] at h1
            have : ch = ch1 := Option.some.inj h1
            subst this
            exact Or.inl ⟨s, h2⟩
          · exact Or.inr ⟨i1, h3, ch1, s, h1, h2⟩
      · intro A B m p hL hp
        rcases split_append hL.symm with ⟨B1, hB⟩ | ⟨A1, hA, hLr⟩
        · by_cases hmc : m = ch
          · left
            rw [hmc, d3] at hp
            exact (Option.some.inj hp).symm
          · right
            exact w4.order A B1 m p hB hmc hp
        · rcases e5.order A1 B m p hLr hp with h1 | h1
          · exact Or.inl h1
          · right
            rw [hA]
            exact List.mem_append_right _ h1

theorem logged_calc_dist (q : List Nat) (t t1 : trie) (n : Nat)
    (h : calc_dist q t n = some (t1, [], 0)) :
    logged (calc_dist q) t n = some (t1, [n], 0) := by
  unfold logged
  rw [h]
  rfl

theorem log_walk (q : List Nat) : ∀ fuel, LogWalk q fuel := by
  intro fuel
  induction fuel with
  | zero => intro t k _ hk hf; omega
  | succ fuel ih =>
    intro t k h hk hf
    obtain ⟨ta, c1, c2⟩ := calc_dist_frame q t k hk
    have hsa := frame_shape c2
    have ha : WF ta := hsa.wf h
    obtain ⟨t1, L, l1, l2, l3, l4⟩ := log_loop ih k (List.range 255) (List.nodup_range 255)
      ta [k] ha (by rw [c2.len]; exact hk) (by rw [c2.len]; omega)
    have l5 := looplog_shape hsa l4
    refine ⟨t1, k :: L, ?_, ?_, frame_trans c2 l3, ⟨L, rfl⟩, ?_, ?_, ?_⟩
    · simp only [trienode_walk, Bool.not_false, Bool.true_or, if_true, c1]
      exact l1
    · simp only [trienode_walk, Bool.not_false, Bool.true_or, if_true,
        logged_calc_dist q t ta k c1]
      exact l2
    · rw [List.nodup_cons]
      refine ⟨?_, l5.nodup⟩
      intro hm
      obtain ⟨i, -, ch, s, g1, g2⟩ := (l5.mem k).mp hm
      obtain ⟨d1, d2, -, -⟩ := h.down k i ch hk g1
      have := (descend_bound h s ch k d2 g2).1
      omega
    · intro m
      rw [List.mem_cons, l5.mem m]
      constructor
      · rintro (hm | ⟨i, -, ch, s, g1, g2⟩)
        · exact ⟨[], by rw [hm]; rfl⟩
        · exact ⟨i :: s, by simp only [descend, g1]; exact g2⟩
      · rintro ⟨s, hd⟩
        cases s with
        | nil =>
          simp only [descend, Option.some.injEq] at hd
          exact Or.inl hd.symm
        | cons c cs =>
          simp only [descend] at hd
          cases hs : (t.node k).sub c with
          | none => rw [hs] at hd; cases hd
          | some ch =>
            rw [hs] at hd
            exact Or.inr ⟨c, List.mem_range.mpr (sub_lt h hk hs), ch, cs, hs, hd⟩
    · intro A B m p hL hmk hp
      cases A with
      | nil =>
        simp only [List.nil_append, List.cons.injEq] at hL
        exact absurd hL.1.symm hmk
      | cons a A1 =>
        simp only [List.cons_append, List.cons.injEq] at hL
        rcases l5.order A1 B m p hL.2 hp with h1 | h1
        · rw [h1, hL.1]; exact List.mem_cons_self _ _
        · exact List.mem_cons_of_mem _ h1

/-- The propagation walk from the root and its log. -/
theorem log_root {q : List Nat} {t : trie} (h : WF t) :
    ∃ t1 L, trie_walk t (calc_dist q) false = some (t1, [], 0) ∧
      trie_walk t (logged (calc_dist q)) false = some (t1, L, 0) ∧
      Frame t t1 ∧ L.Nodup ∧ (∀ m, m ∈ L ↔ m < t.heap.length) ∧
      (∃ tl, L = 0 :: tl) ∧
      (∀ A B m p, L = A ++ m :: B → (t.node m).parent = some p → p ∈ A) := by
  obtain ⟨t1, L, e1, e2, e3, e4⟩ := log_walk q t.heap.length t 0 h h.pos (by omega)
  refine ⟨t1, L, e1, e2, e3, e4.nodup, ?_, e4.head, ?_⟩
  · intro m
    rw [e4.mem m]
    constructor
    · rintro ⟨s, hd⟩
      exact (descend_bound h s 0 m h.pos hd).2.1
    · intro hm
      exact reach h (m + 1) m (by omega) hm
  · intro A B m p hL hp
    refine e4.order A B m p hL ?_ hp
    intro hm0
    rw [hm0, h.root_parent] at hp
    cases hp

/-! ### One node for each prefix of an inserted word -/

theorem inserted_built {q : List Nat} {t : trie} {ws : List (List Nat)}
    (h : Inserted q t ws) : Built q t ws := by
  induction h with
  | new s => exact Built.new s
  | add w x _ hv hx hr ih => exact Built.add w x ih hv hx hr

theorem foldl_inserted {q : List Nat} : ∀ (ws : List (List Nat)) (t : trie)
    (ws0 : List (List Nat)), Inserted q t ws0 → (∀ b ∈ t.calloc, b = true) →
    (∀ w ∈ ws, ∀ c ∈ w, c < 128) →
    Inserted q (ws.foldl (fun t w => ((trie_add t w).getD (t, 0)).1) t) (ws0 ++ ws) := by
  intro ws
  induction ws with
  | nil => intro t ws0 hb _ _; rw [List.append_nil]; exact hb
  | cons w ws ih =>
    intro t ws0 hb hc hv
    have hw := hv w (List.mem_cons_self _ _)
    obtain ⟨x, hx, a1, a2⟩ := trie_add_ok t w hw hc
    have hf : ((trie_add t w).getD (t, 0)).1 = x.1 := by rw [hx]; rfl
    have := ih x.1 (ws0 ++ [w]) (Inserted.add w x hb hw hx a1) a2
      (fun z hz => hv z (List.mem_cons_of_mem _ hz))
    rw [List.append_assoc] at this
    rw [List.foldl_cons, hf]
    exact this

theorem dict_inserted (q : List Nat) (ws : List (List Nat))
    (hv : ∀ w ∈ ws, ∀ c ∈ w, c < 128) : Inserted q (dict q ws) ws := by
  have := foldl_inserted ws (trie_new q []) [] (Inserted.new []) (fun b hb => by cases hb) hv
  rw [List.nil_append] at this
  exact this

/-- What `trie_subnode` does to the size of the heap and to the node count. -/
theorem trie_subnode_len (t : trie) (node id : Nat) (hid : id < 128)
    {x : trie × Option Nat} (hx : trie_subnode t node (to_char id) = some x) :
    (x.1.heap.length = t.heap.length ∧ x.1.nodecnt = t.nodecnt) ∨
    (x.1.heap.length = t.heap.length + 1 ∧ x.1.nodecnt = t.nodecnt + 1 ∧
      x.2 = some t.heap.length) := by
  rcases trie_subnode_cases t node id hid with ⟨k, -, h2⟩ | ⟨-, rest, -, h3⟩ | ⟨-, h2⟩
  · rw [h2] at hx; cases hx; exact Or.inl ⟨rfl, rfl⟩
  · rw [h3] at hx; cases hx; exact Or.inl ⟨rfl, rfl⟩
  · rw [h2] at hx; cases hx; exact Or.inr ⟨grown_length _ _ _ _, rfl, rfl⟩

theorem trie_add_loop_new : ∀ (w : List Nat) (t : trie) (node : Nat), WF t →
    node < t.heap.length → (∀ c ∈ w, c < 128) →
    ∀ x, trie_add_loop w t node = some x →
    x.1.nodecnt + t.heap.length = t.nodecnt + x.1.heap.length ∧
    ∀ k, t.heap.length ≤ k → k < x.1.heap.length →
      ∃ s, s ≠ [] ∧ s <+: token w ∧ descend x.1 node s = some k := by
  intro w
  induction w with
  | nil =>
    intro t node _ _ _ x hx
    cases hx
    exact ⟨rfl, fun k h1 h2 => absurd h2 (by
      show ¬ k < t.heap.length
      omega)⟩
  | cons c cs ih =>
    intro t node h hn hv x hx
    have hc := hv c (List.mem_cons_self _ _)
    obtain ⟨y, hy⟩ := trie_subnode_def t node c hc
    rw [trie_add_loop_cons c cs t node hy] at hx
    rw [token_cons]
    by_cases hsp : isspace c = true
    · rw [if_pos hsp] at hx
      rw [if_pos hsp]
      cases hx
      exact ⟨rfl, fun k h1 h2 => absurd h2 (by
        show ¬ k < t.heap.length
        omega)⟩
    · rw [if_neg hsp] at hx
      rw [if_neg hsp]
      obtain ⟨s1, s2, s3⟩ := trie_subnode_spec h hn hc hy
      have hlen := trie_subnode_len t node c hc hy
      cases hr : y.2 with
      | none =>
        rw [hr] at hx
        cases hx
        rw [hr] at hlen
        rcases hlen with ⟨g1, g2⟩ | ⟨-, -, g3⟩
        · refine ⟨by show y.1.nodecnt + _ = _ + y.1.heap.length
                     omega, ?_⟩
          intro k h1 h2
          have h3 : k < y.1.heap.length := h2
          omega
        · cases g3
      | some sub =>
        rw [hr] at hx
        have hsub := s3 sub hr
        have hn1 : node < y.1.heap.length := lt_of_lt_of_le hn s2.len
        have hk1 := (s1.down node c sub hn1 hsub).2.1
        obtain ⟨i1, i2, -⟩ := trie_add_loop_spec cs y.1 sub s1 hk1
          (fun z hz => hv z (List.mem_cons_of_mem _ hz)) x hx
        obtain ⟨j1, j2⟩ := ih y.1 sub s1 hk1
          (fun z hz => hv z (List.mem_cons_of_mem _ hz)) x hx
        have hlink := ext_link s1 i1 i2 hn1 hsub
        refine ⟨?_, ?_⟩
        · rcases hlen with ⟨g1, g2⟩ | ⟨g1, g2, -⟩ <;> omega
        · intro k h1 h3
          by_cases hk : k < y.1.heap.length
          · rcases hlen with ⟨g1, -⟩ | ⟨g1, -, g3⟩
            · omega
            · rw [hr] at g3
              have hsk : sub = k := by
                have := Option.some.inj g3
                omega
              subst hsk
              refine ⟨[c], by simp, ⟨token cs, rfl⟩, ?_⟩
              simp only [descend, hlink]
          · obtain ⟨s, e1, e2, e3⟩ := j2 k (by omega) h3
            obtain ⟨z, hz⟩ := e2
            refine ⟨c :: s, by simp, ⟨z, by rw [← hz]; rfl⟩, ?_⟩
            simp only [descend, hlink]
            exact e3

theorem descend_prefix (t : trie) {a m : Nat} {p s : List Nat} (hp : p <+: s)
    (hd : descend t a s = some m) : ∃ n, descend t a p = some n := by
  obtain ⟨z, hz⟩ := hp
  rw [← hz, descend_append] at hd
  cases hx : descend t a p with
  | none => rw [hx] at hd; cases hd
  | some n => exact ⟨n, rfl⟩

theorem pinv_new (q : List Nat) (s : List Bool) : PInv (trie_new q s) [] := by
  refine ⟨?_, fun w hw => (by cases hw), rfl⟩
  intro p n hd hne
  have hb := descend_bound (trie_new_wf q s) p 0 n (trie_new_wf q s).pos hd
  have hl : (trie_new q s).heap.length = 1 := rfl
  have := hb.2.2.1 hne
  omega

theorem pinv_add {t : trie} {ws : List (List Nat)} (h : WF t) (hi : PInv t ws) (w : List Nat)
    (hv : ∀ c ∈ w, c < 128) {x : trie × Int} (hx : trie_add t w = some x) (hr : x.2 = 0) :
    PInv x.1 (ws ++ [w]) := by
  obtain ⟨y, hy⟩ := trie_add_loop_def w t 0 hv
  obtain ⟨l1, l2, l3⟩ := trie_add_loop_spec w t 0 h h.pos hv y hy
  obtain ⟨n1, n2⟩ := trie_add_loop_new w t 0 h h.pos hv y hy
  rw [trie_add_eq hy] at hx
  cases hx
  cases hl : y.2 with
  | none => rw [hl] at hr; simp at hr
  | some r =>
    have hdr := l3 r hl
    have hrb := (descend_bound l1 _ 0 r l1.pos hdr).2.1
    have hs : Shape y.1 (y.1.store r { y.1.node r with eow := true }) :=
      store_shape _ r _ hrb rfl rfl rfl rfl rfl
    refine ⟨?_, ?_, ?_⟩
    · intro p n hd hne
      rw [hs.descend] at hd
      have hnb := (descend_bound l1 p 0 n l1.pos hd).2.1
      by_cases hn : n < t.heap.length
      · obtain ⟨w1, hw1, hp⟩ := hi.node_prefix p n (descend_old h l1 l2 p 0 n h.pos hn hd) hne
        exact ⟨w1, List.mem_append_left _ hw1, hp⟩
      · obtain ⟨s, -, e2, e3⟩ := n2 n (by omega) hnb
        have := descend_inj l1 l1.pos p s n hd e3
        rw [this]
        exact ⟨w, List.mem_append_right _ (List.mem_singleton_self w), e2⟩
    · intro w1 hw1 p hp
      rcases List.mem_append.mp hw1 with h1 | h1
      · obtain ⟨n, hn⟩ := hi.prefix_node w1 h1 p hp
        exact ⟨n, by rw [hs.descend]; exact descend_ext h l1 l2 p 0 n h.pos hn⟩
      · rw [List.mem_singleton] at h1
        subst h1
        obtain ⟨n, hn⟩ := descend_prefix _ hp hdr
        exact ⟨n, by rw [hs.descend]; exact hn⟩
    · show y.1.nodecnt + 1 = (trie.store _ r _).heap.length
      rw [length_store]
      have := hi.count
      omega

theorem inserted_pinv {q : List Nat} {t : trie} {ws : List (List Nat)}
    (h : Inserted q t ws) : PInv t ws := by
  induction h with
  | new s => exact pinv_new q s
  | add w x h1 hv hx hr ih => exact pinv_add (inserted_built h1).inv.wf ih w hv hx hr

/-- The path of the node at an address, as `print_node` gives it. -/
theorem path_of_node {t : trie} (h : WF t) {k : Nat} (hk : k < t.heap.length) :
    ∃ p, print_node t t.heap.length k = some p ∧ descend t 0 p = some k := by
  obtain ⟨p, hp⟩ := reach h (k + 1) k (by omega) hk
  exact ⟨p, print_node_spec h p k _ hp hk, hp⟩

theorem mem_prefixes (ws : List (List Nat)) (p : List Nat) :
    p ∈ prefixes ws ↔ p ≠ [] ∧ ∃ w ∈ ws, p <+: token w := by
  unfold prefixes
  rw [List.mem_dedup, List.mem_filter, List.mem_flatMap]
  constructor
  · rintro ⟨⟨w, hw, hp⟩, hne⟩
    exact ⟨by simpa using hne, w, hw, (List.mem_inits _ _).mp hp⟩
  · rintro ⟨hne, w, hw, hp⟩
    exact ⟨⟨w, hw, (List.mem_inits _ _).mpr hp⟩, by simpa using hne⟩

/-- The node count is the number of distinct non-empty prefixes. -/
theorem nodecnt_prefixes {t : trie} {ws : List (List Nat)} (h : WF t) (hi : PInv t ws) :
    t.nodecnt = (prefixes ws).length := by
  have hperm : ((List.range' 1 t.nodecnt).map
      (fun k => (print_node t t.heap.length k).getD [])).Perm (prefixes ws) := by
    rw [List.perm_ext_iff_of_nodup]
    · intro p
      rw [mem_prefixes, List.mem_map]
      constructor
      · rintro ⟨k, hk, rfl⟩
        rw [List.mem_range'_1] at hk
        have hkl : k < t.heap.length := by have := hi.count; omega
        obtain ⟨p, e1, e2⟩ := path_of_node h hkl
        rw [e1]
        have hne : p ≠ [] := by
          intro hp
          subst hp
          simp only [descend, Option.some.injEq] at e2
          omega
        exact ⟨hne, hi.node_prefix p k e2 hne⟩
      · rintro ⟨hne, w, hw, hp⟩
        obtain ⟨n, hn⟩ := hi.prefix_node w hw p hp
        obtain ⟨b1, b2, b3, -⟩ := descend_bound h p 0 n h.pos hn
        have := b3 hne
        refine ⟨n, by rw [List.mem_range'_1]; have := hi.count; omega, ?_⟩
        rw [print_node_spec h p n _ hn b2]
        rfl
    · apply List.Nodup.map_on _ (List.nodup_range' 1 t.nodecnt)
      intro k1 hk1 k2 hk2 heq
      rw [List.mem_range'_1] at hk1 hk2
      have hc := hi.count
      obtain ⟨p1, e1, e2⟩ := path_of_node h (show k1 < t.heap.length by omega)
      obtain ⟨p2, f1, f2⟩ := path_of_node h (show k2 < t.heap.length by omega)
      rw [e1, f1] at heq
      simp only [Option.getD_some] at heq
      rw [heq, f2] at e2
      exact (Option.some.inj e2).symm
    · exact List.nodup_dedup _
  have := hperm.length_eq
  rw [List.length_map, List.length_range'] at this
  exact this

/-! ### Walking a path that exists -/

theorem trie_subnode_existing (t : trie) (node id k : Nat) (hid : id < 128)
    (h : (t.node node).sub id = some k) :
    trie_subnode t node (to_char id) = some (t, some k) := by
  rcases trie_subnode_cases t node id hid with ⟨k1, h1, h2⟩ | ⟨h1, -⟩ | ⟨h1, -⟩
  · rw [h] at h1
    cases h1
    exact h2
  · rw [h] at h1; cases h1
  · rw [h] at h1; cases h1

theorem trie_add_loop_existing : ∀ (w : List Nat) (t : trie) (node n : Nat),
    (∀ c ∈ w, c < 128) → descend t node (token w) = some n →
    trie_add_loop w t node = some (t, some n) := by
  intro w
  induction w with
  | nil =>
    intro t node n _ hd
    simp only [token, List.takeWhile_nil, descend, Option.some.injEq] at hd
    rw [← hd]; rfl
  | cons c cs ih =>
    intro t node n hv hd
    rw [token_cons] at hd
    by_cases hsp : isspace c = true
    · rw [if_pos hsp] at hd
      simp only [descend, Option.some.injEq] at hd
      rw [trie_add_loop, if_pos hsp, ← hd]
    · rw [if_neg hsp] at hd
      simp only [descend] at hd
      cases hs : (t.node node).sub c with
      | none => rw [hs] at hd; cases hd
      | some k =>
        rw [hs] at hd
        rw [trie_add_loop_cons c cs t node
          (trie_subnode_existing t node c k (hv c (List.mem_cons_self _ _)) hs), if_neg hsp]
        exact ih t k n (fun z hz => hv z (List.mem_cons_of_mem _ hz)) hd

theorem trie_add_existing (t : trie) (w : List Nat) (n : Nat) (hv : ∀ c ∈ w, c < 128)
    (hd : descend t 0 (token w) = some n) :
    trie_add t w = some (t.store n { t.node n with eow := true }, 0) := by
  rw [trie_add_eq (trie_add_loop_existing w t 0 n hv hd)]

theorem set_getD_self {α : Type} (l : List α) (d : α) : ∀ (n : Nat), n < l.length →
    l.set n (l.getD n d) = l := by
  induction l with
  | nil => intro n hn; simp at hn
  | cons a as ih =>
    intro n hn
    cases n with
    | zero => rfl
    | succ n =>
      simp only [List.length_cons] at hn
      show a :: as.set n (as.getD n d) = a :: as
      rw [ih n (by omega)]

theorem store_self (t : trie) (n : Nat) (hn : n < t.heap.length)
    (he : (t.node n).eow = true) : t.store n { t.node n with eow := true } = t := by
  have h1 : ({ t.node n with eow := true } : trienode) = t.node n := by
    rw [← he]
  rw [h1]
  show ({ t with heap := t.heap.set n (t.heap.getD n trienode.zero) } : trie) = t
  rw [set_getD_self t.heap trienode.zero n hn]

/-! ### Loading a dictionary when no allocation fails -/

theorem load_dict_loop_inserted {q : List Nat} : ∀ (lines : List (List Nat)) (t : trie)
    (cnt : Nat) (ws : List (List Nat)), Inserted q t ws → (∀ w ∈ lines, ∀ c ∈ w, c < 128) →
    (∀ b ∈ t.calloc, b = true) →
    ∃ t1, load_dict_loop lines t cnt = some (t1, cnt + lines.length) ∧
      Inserted q t1 (ws ++ lines) := by
  intro lines
  induction lines with
  | nil => intro t cnt ws hi _ _; exact ⟨t, rfl, by rw [List.append_nil]; exact hi⟩
  | cons w more ih =>
    intro t cnt ws hi hv hc
    have hw := hv w (List.mem_cons_self _ _)
    obtain ⟨x, hx, a1, a2⟩ := trie_add_ok t w hw hc
    rw [load_dict_loop_cons w more t cnt hx, if_neg (by rw [a1]; simp)]
    obtain ⟨t1, h1, h2⟩ := ih x.1 (cnt + 1) (ws ++ [w]) (Inserted.add w x hi hw hx a1)
      (fun z hz => hv z (List.mem_cons_of_mem _ hz)) a2
    refine ⟨t1, ?_, by rw [List.append_assoc] at h2; exact h2⟩
    rw [h1, List.length_cons]
    congr 2
    omega

/-! ### The report of a selection walk is determined by the trie -/

theorem sel_mem {m : msg} {t : trie} {k : Nat} {R : List (List Nat)} (h : SelPost m t k R)
    (r : List Nat) :
    r ∈ R ↔ ∃ n, descend t k r = some n ∧ (t.node n).eow = true ∧ hit m t n ∧
      ∀ s n1, s <+: r → s ≠ r → descend t k s = some n1 →
        ¬ ((t.node n1).eow = true ∧ hit m t n1) := by
  constructor
  · intro hr
    obtain ⟨n, n1, n2, n3⟩ := h.sound r hr
    exact ⟨n, n1, n2, n3, h.minimal r hr⟩
  · rintro ⟨n, n1, n2, n3, n4⟩
    obtain ⟨r1, hr1, hpre⟩ := h.complete r n n1 n2 n3
    by_cases heq : r1 = r
    · rw [← heq]; exact hr1
    · obtain ⟨x, x1, x2, x3⟩ := h.sound r1 hr1
      exact absurd ⟨x2, x3⟩ (n4 r1 x hpre heq x1)

theorem sel_unique {m : msg} {t : trie} {k : Nat} {R1 R2 : List (List Nat)}
    (h1 : SelPost m t k R1) (h2 : SelPost m t k R2) : R1 = R2 :=
  sorted_ext R1 R2 h1.sorted h2.sorted (fun r => by rw [sel_mem h1, sel_mem h2])

theorem sel_no_prefix {m : msg} {t : trie} {k : Nat} {R : List (List Nat)}
    (h : SelPost m t k R) : ∀ r1 ∈ R, ∀ r2 ∈ R, r1 <+: r2 → r1 = r2 := by
  intro r1 h1 r2 h2 hpre
  by_contra hne
  obtain ⟨n, n1, n2, n3⟩ := h.sound r1 h1
  exact h.minimal r2 h2 r1 n hpre hne n1 ⟨n2, n3⟩

/-- `trie_measure` on a well-formed trie: the propagation walk, then the selection walk
that found the report. -/
theorem measure_exact {q : List Nat} {t : trie} (h : WF t) (hw : t.word = q) :
    ∃ t1 R j, trie_measure t q = some (t1, spaced R, j) ∧
      trie_walk t (calc_dist q) false = some (t1, [], 0) ∧ CalcPost q t t1 ∧
      (∀ s m, descend t1 0 s = some m → RowOK q t1 m) ∧
      (∀ i1, i1 < j → NoHit q.length t1 i1) ∧
      ((R ≠ [] ∧ j < q.length ∧ SelPost { len := j, wordlen := q.length } t1 0 R ∧
          trie_walk t1 (print_if_equal { len := j, wordlen := q.length }) true =
            some (t1, spaced R, (R.length : Int))) ∨
        (R = [] ∧ j = q.length)) := by
  obtain ⟨t1, c1, c2, c3⟩ := calc_root h hw
  have h1 : WF t1 := c2.1.wf h
  obtain ⟨R, j, m1, m2, m3⟩ := measure_loop_spec h1 q.length q.length 0 []
  refine ⟨t1, R, j, ?_, c1, c2, c3, fun i1 hi => m2 i1 (by omega) hi, ?_⟩
  · simp only [trie_measure, c1]
    rw [m1, List.nil_append]
  · rcases m3 with ⟨a1, a2, a3, a4⟩ | ⟨a1, a2⟩
    · obtain ⟨R1, r1, r2⟩ := sel_root { len := j, wordlen := q.length } h1
      have := sel_unique r2 a4
      subst this
      exact Or.inl ⟨a1, by omega, a4, r1⟩
    · exact Or.inr ⟨a1, by omega⟩

/-! ### The outcome depends on the set of inserted words only -/

theorem outcome_unique {q : List Nat} {ws ws1 R R1 : List (List Nat)} {j j1 : Nat}
    (h : Outcome q ws R j) (h1 : Outcome q ws1 R1 j1)
    (hset : ∀ p, (∃ w ∈ ws, p = token w) ↔ (∃ w ∈ ws1, p = token w)) :
    R = R1 ∧ j = j1 := by
  -- a reported word of one side bounds the result of the other side
  have key : ∀ {wa wb Ra Rb : List (List Nat)} {ja jb : Nat}, Outcome q wa Ra ja →
      Outcome q wb Rb jb → (∀ p, (∃ w ∈ wa, p = token w) → (∃ w ∈ wb, p = token w)) →
      Ra ≠ [] → jb ≤ ja ∧ Rb ≠ [] := by
    intro wa wb Ra Rb ja jb ha hb hsub hne
    obtain ⟨r, hr⟩ := List.exists_mem_of_ne_nil Ra hne
    obtain ⟨hw, hl, hlt⟩ := ha.sound r hr
    obtain ⟨w2, hw2, e2⟩ := hsub r hw
    have := hb.least w2 hw2
    rw [← e2, hl] at this
    refine ⟨this, ?_⟩
    intro hRb
    have := hb.none hRb
    omega
  by_cases hR : R = []
  · have hR1 : R1 = [] := by
      by_contra hne
      exact (key h1 h (fun p hp => (hset p).mpr hp) hne).2 hR
    rw [hR, hR1, h.none hR, h1.none hR1]
    exact ⟨rfl, rfl⟩
  · obtain ⟨a1, a2⟩ := key h h1 (fun p hp => (hset p).mp hp) hR
    obtain ⟨b1, -⟩ := key h1 h (fun p hp => (hset p).mpr hp) a2
    have hj : j = j1 := by omega
    subst hj
    refine ⟨sorted_ext R R1 h.sorted h1.sorted ?_, rfl⟩
    -- membership in a report, in terms of the set of tokens
    have mem : ∀ {wa wb Ra Rb : List (List Nat)}, Outcome q wa Ra j → Outcome q wb Rb j →
        (∀ p, (∃ w ∈ wa, p = token w) → (∃ w ∈ wb, p = token w)) →
        (∀ p, (∃ w ∈ wb, p = token w) → (∃ w ∈ wa, p = token w)) →
        ∀ r, r ∈ Ra → r ∈ Rb := by
      intro wa wb Ra Rb ha hb hab hba r hr
      obtain ⟨hw, hl, hlt⟩ := ha.sound r hr
      obtain ⟨w2, hw2, e2⟩ := hab r hw
      obtain ⟨r2, hr2, hpre⟩ := hb.complete w2 hw2 (by rw [← e2]; exact hl) hlt
      rw [← e2] at hpre
      by_cases heq : r2 = r
      · rw [← heq]; exact hr2
      · obtain ⟨hw3, hl3, -⟩ := hb.sound r2 hr2
        obtain ⟨w4, hw4, e4⟩ := hba r2 hw3
        rw [e4] at hpre heq hl3
        exact absurd hl3 (ha.minimal r hr w4 hw4 hpre heq)
    intro r
    exact ⟨mem h h1 (fun p hp => (hset p).mp hp) (fun p hp => (hset p).mpr hp) r,
      mem h1 h (fun p hp => (hset p).mpr hp) (fun p hp => (hset p).mp hp) r⟩

theorem measure_same {q : List Nat} {t t1 : trie} {ws ws1 : List (List Nat)}
    (hb : Built q t ws) (hb1 : Built q t1 ws1)
    (hset : ∀ p, (∃ w ∈ ws, p = token w) ↔ (∃ w ∈ ws1, p = token w)) :
    (trie_measure t q).map (fun r => (r.2.1, r.2.2)) =
      (trie_measure t1 q).map (fun r => (r.2.1, r.2.2)) := by
  obtain ⟨a, R, j, e1, e2, -⟩ := measure_words hb
  obtain ⟨a1, R1, j1, f1, f2, -⟩ := measure_words hb1
  obtain ⟨hR, hj⟩ := outcome_unique e2 f2 hset
  rw [e1, f1, hR, hj]
  rfl

theorem ext_getD (a b : List Nat) (hlen : a.length = b.length)
    (h : ∀ i, i < a.length → a.getD i 0 = b.getD i 0) : a = b := by
  apply List.ext_getElem hlen
  intro i h1 h2
  have := h i h1
  rw [List.getD_eq_getElem _ _ h1, List.getD_eq_getElem _ _ h2] at this
  exact this

theorem prefixes_nodup (ws : List (List Nat)) : (prefixes ws).Nodup :=
  List.nodup_dedup _

theorem prefixes_same {ws ws1 : List (List Nat)}
    (hset : ∀ p, (∃ w ∈ ws, p = token w) ↔ (∃ w ∈ ws1, p = token w)) :
    (prefixes ws).length = (prefixes ws1).length := by
  have key : ∀ {wa wb : List (List Nat)},
      (∀ p, (∃ w ∈ wa, p = token w) → (∃ w ∈ wb, p = token w)) →
      ∀ p, (∃ w ∈ wa, p <+: token w) → (∃ w ∈ wb, p <+: token w) := by
    intro wa wb hab p hp
    obtain ⟨w, hw, hpre⟩ := hp
    obtain ⟨w2, hw2, e2⟩ := hab (token w) ⟨w, hw, rfl⟩
    exact ⟨w2, hw2, by rw [← e2]; exact hpre⟩
  have hperm : (prefixes ws).Perm (prefixes ws1) := by
    rw [List.perm_ext_iff_of_nodup (prefixes_nodup ws) (prefixes_nodup ws1)]
    intro p
    rw [mem_prefixes, mem_prefixes]
    constructor
    · rintro ⟨hne, hp⟩
      exact ⟨hne, key (fun p hp => (hset p).mp hp) p hp⟩
    · rintro ⟨hne, hp⟩
      exact ⟨hne, key (fun p hp => (hset p).mpr hp) p hp⟩
  exact hperm.length_eq

theorem foldr_min_eq (l : List Nat) (b x : Nat) (hb : x ≤ b) (hl : ∀ a ∈ l, x ≤ a)
    (hx : x = b ∨ x ∈ l) : x = l.foldr min b := by
  induction l with
  | nil =>
    rcases hx with h | h
    · exact h
    · cases h
  | cons a as ih =>
    simp only [List.foldr_cons]
    have ha := hl a (List.mem_cons_self _ _)
    have has : ∀ y ∈ as, x ≤ y := fun y hy => hl y (List.mem_cons_of_mem _ hy)
    have hle : ∀ (l1 : List Nat), (∀ y ∈ l1, x ≤ y) → x ≤ l1.foldr min b := by
      intro l1
      induction l1 with
      | nil => intro _; exact hb
      | cons c cs ihc =>
        intro hc
        simp only [List.foldr_cons]
        exact le_min (hc c (List.mem_cons_self _ _))
          (ihc (fun y hy => hc y (List.mem_cons_of_mem _ hy)))
    have h2 := hle as has
    rcases hx with h | h
    · have := ih has (Or.inl h)
      rw [← this]
      omega
    · rcases List.mem_cons.mp h with h3 | h3
      · omega
      · have := ih has (Or.inr h3)
        rw [← this]
        omega

/-- Two tries built from word lists with the same words have the same nodes. -/
theorem trie_same {q : List Nat} {t t1 : trie} {ws ws1 : List (List Nat)}
    (hi : Inserted q t ws) (hi1 : Inserted q t1 ws1)
    (hset : ∀ p, (∃ w ∈ ws, p = token w) ↔ (∃ w ∈ ws1, p = token w)) :
    t.nodecnt = t1.nodecnt ∧ t.heap.length = t1.heap.length ∧
    (∀ p, (∃ n, descend t 0 p = some n) ↔ ∃ n1, descend t1 0 p = some n1) ∧
    (∀ p n n1, descend t 0 p = some n → descend t1 0 p = some n1 →
      (t.node n).eow = (t1.node n1).eow ∧ (t.node n).depth = (t1.node n1).depth ∧
      (t.node n).data = (t1.node n1).data ∧ (p ≠ [] → (t.node n).id = (t1.node n1).id)) := by
  have hb := inserted_built hi
  have hb1 := inserted_built hi1
  have hv := hb.inv
  have hv1 := hb1.inv
  have hp := inserted_pinv hi
  have hp1 := inserted_pinv hi1
  have hcnt : t.nodecnt = t1.nodecnt := by
    rw [nodecnt_prefixes hv.wf hp, nodecnt_prefixes hv1.wf hp1, prefixes_same hset]
  have key : ∀ {ta tb : trie} {wa wb : List (List Nat)}, WF ta → PInv ta wa → PInv tb wb →
      (∀ p, (∃ w ∈ wa, p = token w) → (∃ w ∈ wb, p = token w)) →
      ∀ p, (∃ n, descend ta 0 p = some n) → ∃ n1, descend tb 0 p = some n1 := by
    intro ta tb wa wb _ pa pb hab p hex
    obtain ⟨n, hn⟩ := hex
    by_cases hne : p = []
    · subst hne; exact ⟨0, rfl⟩
    · obtain ⟨w, hw, hpre⟩ := pa.node_prefix p n hn hne
      obtain ⟨w2, hw2, e2⟩ := hab (token w) ⟨w, hw, rfl⟩
      exact pb.prefix_node w2 hw2 p (by rw [← e2]; exact hpre)
  have keow : ∀ {ta tb : trie} {wa wb : List (List Nat)}, Inv q ta wa → Inv q tb wb →
      (∀ p, (∃ w ∈ wa, p = token w) → (∃ w ∈ wb, p = token w)) →
      ∀ p n n1, descend ta 0 p = some n → descend tb 0 p = some n1 →
      (ta.node n).eow = true → (tb.node n1).eow = true := by
    intro ta tb wa wb ia ib hab p n n1 hd hd1 he
    obtain ⟨w2, hw2, e2⟩ := hab p (ia.eow_word p n hd he)
    obtain ⟨n2, g1, g2⟩ := ib.word_eow w2 hw2
    rw [← e2, hd1] at g1
    rw [Option.some.inj g1]
    exact g2
  refine ⟨hcnt, by have := hp.count; have := hp1.count; omega, ?_, ?_⟩
  · intro p
    exact ⟨key hv.wf hp hp1 (fun p h => (hset p).mp h) p,
      key hv1.wf hp1 hp (fun p h => (hset p).mpr h) p⟩
  · intro p n n1 hd hd1
    obtain ⟨-, b2, -, b4⟩ := descend_bound hv.wf p 0 n hv.wf.pos hd
    obtain ⟨-, c2, -, c4⟩ := descend_bound hv1.wf p 0 n1 hv1.wf.pos hd1
    refine ⟨?_, ?_, ?_, ?_⟩
    · rw [Bool.eq_iff_iff]
      exact ⟨keow hv hv1 (fun p h => (hset p).mp h) p n n1 hd hd1,
        keow hv1 hv (fun p h => (hset p).mpr h) p n1 n hd1 hd⟩
    · rw [b4, c4, hv.wf.root_depth, hv1.wf.root_depth]
    · rw [built_zero hb n b2, built_zero hb1 n1 c2, hv.word, hv1.word]
    · intro hne
      rcases List.eq_nil_or_concat p with h0 | ⟨p1, c, h0⟩
      · exact absurd h0 hne
      · subst h0
        rw [List.concat_eq_append] at hd hd1
        obtain ⟨-, -, -, -, x4, -⟩ := descend_snoc hv.wf hv.wf.pos hd
        obtain ⟨-, -, -, -, y4, -⟩ := descend_snoc hv1.wf hv1.wf.pos hd1
        rw [x4, y4]

/-- After the propagation the rows of two such tries are the same. -/
theorem rows_same {q : List Nat} {t t1 : trie} (h : WF t) (hw : t.word = q) (h1 : WF t1)
    (hw1 : t1.word = q) :
    ∃ a a1, trie_walk t (calc_dist q) false = some (a, [], 0) ∧
      trie_walk t1 (calc_dist q) false = some (a1, [], 0) ∧
      (∀ n p, descend a n p = descend t n p) ∧ (∀ n p, descend a1 n p = descend t1 n p) ∧
      ∀ p n n1, descend a 0 p = some n → descend a1 0 p = some n1 →
        (a.node n).data = (a1.node n1).data := by
  obtain ⟨a, c1, c2, c3⟩ := calc_root h hw
  obtain ⟨a1, d1, d2, d3⟩ := calc_root h1 hw1
  refine ⟨a, a1, c1, d1, fun n p => c2.1.descend p n, fun n p => d2.1.descend p n, ?_⟩
  intro p n n1 hd hd1
  have ha : WF a := c2.1.wf h
  have ha1 : WF a1 := d2.1.wf h1
  have l1 : (a.node n).data.length = q.length := by
    rw [ha.rows n (descend_bound ha p 0 n ha.pos hd).2.1, c2.1.word, hw]
  have l2 : (a1.node n1).data.length = q.length := by
    rw [ha1.rows n1 (descend_bound ha1 p 0 n1 ha1.pos hd1).2.1, d2.1.word, hw1]
  apply ext_getD _ _ (by rw [l1, l2])
  intro i hi
  rw [c3 p n hd p hd i (by omega), d3 p n1 hd1 p hd1 i (by omega)]

/-! ### The claims on the program and the shape of the trie -/

/-- C11: when the dictionary file has no line, `load_dict` returns 0 and `main` exits
with 1 and writes nothing; when the file cannot be opened, `load_dict` returns -1 and
`main` exits with 1 and writes nothing; for a dictionary of bytes below 128, when
`load_dict` returns a positive count `main` exits with 0, and when no allocation fails
`load_dict` returns the number of lines, all of them inserted, so that `main` exits with
0 when there is a line.  A wrong number of arguments gives 1. -/
theorem main_exit_codes :
    (∀ (d q : List Nat) (fs : List Nat → Option (List (List Nat))) (s : List Bool),
      fs d = some [] →
      load_dict (trie_new q s) (fs d) = some (trie_new q s, 0) ∧
      main [d, q] fs s = some (1, [])) ∧
    (∀ (d q : List Nat) (fs : List Nat → Option (List (List Nat))) (s : List Bool),
      fs d = none →
      load_dict (trie_new q s) (fs d) = some (trie_new q s, -1) ∧
      main [d, q] fs s = some (1, [])) ∧
    (∀ (d q : List Nat) (fs : List Nat → Option (List (List Nat))) (s : List Bool)
      (lines : List (List Nat)) (t : trie) (n : Int), fs d = some lines →
      (∀ w ∈ lines, ∀ c ∈ w, c < 128) →
      load_dict (trie_new q s) (fs d) = some (t, n) → 0 < n →
      ∃ out, main [d, q] fs s = some (0, out)) ∧
    (∀ (q : List Nat) (s : List Bool) (lines : List (List Nat)),
      (∀ w ∈ lines, ∀ c ∈ w, c < 128) → (∀ b ∈ s, b = true) →
      ∃ t, load_dict (trie_new q s) (some lines) = some (t, (lines.length : Int)) ∧
        Inserted q t lines) ∧
    (∀ (d q : List Nat) (fs : List Nat → Option (List (List Nat))) (s : List Bool)
      (lines : List (List Nat)), fs d = some lines → lines ≠ [] →
      (∀ w ∈ lines, ∀ c ∈ w, c < 128) → (∀ b ∈ s, b = true) →
      ∃ out, main [d, q] fs s = some (0, out)) ∧
    (∀ (argv : List (List Nat)) (fs : List Nat → Option (List (List Nat))) (s : List Bool),
      argv.length ≠ 2 → main argv fs s = some (1, [])) := by
  have h4 : ∀ (q : List Nat) (s : List Bool) (lines : List (List Nat)),
      (∀ w ∈ lines, ∀ c ∈ w, c < 128) → (∀ b ∈ s, b = true) →
      ∃ t, load_dict (trie_new q s) (some lines) = some (t, (lines.length : Int)) ∧
        Inserted q t lines := by
    intro q s lines hv hs
    obtain ⟨t1, h1, h2⟩ := load_dict_loop_inserted lines (trie_new q s) 0 []
      (Inserted.new s) hv hs
    refine ⟨t1, ?_, h2⟩
    rw [load_dict_some h1]
    simp
  refine ⟨?_, ?_, ?_, h4, ?_, ?_⟩
  · intro d q fs s hf
    have h0 : load_dict (trie_new q s) (fs d) = some (trie_new q s, 0) := by rw [hf]; rfl
    exact ⟨h0, main_of_load_fail h0 (le_refl _)⟩
  · intro d q fs s hf
    have h0 : load_dict (trie_new q s) (fs d) = some (trie_new q s, -1) := by rw [hf]; rfl
    exact ⟨h0, main_of_load_fail h0 (by decide)⟩
  · intro d q fs s lines t n hf hv hl hret
    exact main_loaded hf hv hl hret
  · intro d q fs s lines hf hne hv hs
    obtain ⟨t, ht, -⟩ := h4 q s lines hv hs
    rw [← hf] at ht
    exact main_loaded hf hv ht (by
      have := List.length_pos.mpr hne
      omega)
  · intro argv fs s hlen
    match argv, hlen with
    | [], _ => rfl
    | [_], _ => rfl
    | [_, _], h => exact absurd rfl h
    | _ :: _ :: _ :: _, _ => rfl

theorem main_exit_codes_witness :
    ∃ t, (fun _ => some [bytes "cat\n", bytes "dog\n"] : List Nat → Option (List (List Nat)))
        (bytes "words") = some [bytes "cat\n", bytes "dog\n"] ∧
      (∀ w ∈ [bytes "cat\n", bytes "dog\n"], ∀ c ∈ w, c < 128) ∧
      load_dict (trie_new (bytes "cog") [])
        ((fun _ => some [bytes "cat\n", bytes "dog\n"]) (bytes "words")) = some (t, 2) ∧
      (0 : Int) < 2 ∧
      ∃ out, main [bytes "words", bytes "cog"]
        (fun _ => some [bytes "cat\n", bytes "dog\n"]) [] = some (0, out) := by
  obtain ⟨t, ht, -⟩ := main_exit_codes.2.2.2.1 (bytes "cog") []
    [bytes "cat\n", bytes "dog\n"] (by decide) (by decide)
  exact ⟨t, rfl, by decide, ht, by decide,
    main_exit_codes.2.2.1 (bytes "words") (bytes "cog")
      (fun _ => some [bytes "cat\n", bytes "dog\n"]) [] [bytes "cat\n", bytes "dog\n"] t 2
      rfl (by decide) ht (by decide)⟩

/-- C12 (counterexample): "abc" is inserted and the query is "bca"; the two words have
the same length and differ at every position, and the last row entry of the end node
of "abc" is 2, not 3. -/
theorem rotated_word_is_nearer_than_its_length :
    (bytes "abc").length = (bytes "bca").length ∧
    (∀ i, i < 3 → (bytes "abc").getD i 0 ≠ (bytes "bca").getD i 0) ∧
    ∃ t1 n, trie_walk (dict (bytes "bca") [bytes "abc"]) (calc_dist (bytes "bca")) false =
        some (t1, [], 0) ∧
      descend t1 0 (bytes "abc") = some n ∧ (t1.node n).eow = true ∧
      (t1.node n).data.getD ((bytes "bca").length - 1) 0 = 2 ∧
      (t1.node n).data.getD ((bytes "bca").length - 1) 0 ≠ (bytes "abc").length := by
  refine ⟨by decide, by decide, ?_⟩
  obtain ⟨t1, n, e1, -, e3, e4, e5⟩ :=
    end_row (dict_built (bytes "bca") [bytes "abc"] (by decide))
      (List.mem_singleton_self (bytes "abc")) (by decide)
  have htok : token (bytes "abc") = bytes "abc" := by decide
  have hlev : lev (bytes "abc") (bytes "bca") = 2 := by decide
  rw [htok] at e3 e5
  rw [hlev] at e5
  exact ⟨t1, n, e1, e3, e4, e5, by rw [e5]; decide⟩

/-- C12 (amended): for a dictionary of words of bytes below 128 and an inserted word
`w` (cut at its first whitespace) as long as the query `q`, with at least one character,
the last row entry of the end node of `w` after the propagation walk is the distance
between `w` and `q`; it is at most the length of `w`, and it is the length of `w` when
no character of `w` occurs in `q`. -/
theorem same_length_word_distance {q : List Nat} {t : trie} {ws : List (List Nat)}
    (hb : Built q t ws) {w : List Nat} (hw : w ∈ ws) (hlen : (token w).length = q.length)
    (hq : 1 ≤ q.length) :
    ∃ t1 n, trie_walk t (calc_dist q) false = some (t1, [], 0) ∧
      descend t1 0 (token w) = some n ∧ (t1.node n).eow = true ∧
      (t1.node n).data.getD (q.length - 1) 0 = lev (token w) q ∧
      (t1.node n).data.getD (q.length - 1) 0 ≤ (token w).length ∧
      ((∀ c ∈ token w, c ∉ q) →
        (t1.node n).data.getD (q.length - 1) 0 = (token w).length) := by
  obtain ⟨t1, n, e1, -, e3, e4, e5⟩ := end_row hb hw hq
  refine ⟨t1, n, e1, e3, e4, e5, ?_, ?_⟩
  · have := lev_le_max (token w) q
    rw [e5]
    omega
  · intro hd
    rw [e5, lev_disjoint _ _ hd]
    omega

theorem same_length_word_distance_witness :
    Built (bytes "cog") (dict (bytes "cog") [bytes "bat", bytes "dog\n"])
      [bytes "bat", bytes "dog\n"] ∧
    bytes "bat" ∈ [bytes "bat", bytes "dog\n"] ∧
    (token (bytes "bat")).length = (bytes "cog").length ∧ 1 ≤ (bytes "cog").length ∧
    (∀ c ∈ token (bytes "bat"), c ∉ bytes "cog") ∧
    ∃ t1 n, trie_walk (dict (bytes "cog") [bytes "bat", bytes "dog\n"])
        (calc_dist (bytes "cog")) false = some (t1, [], 0) ∧
      descend t1 0 (token (bytes "bat")) = some n ∧ (t1.node n).eow = true ∧
      (t1.node n).data.getD ((bytes "cog").length - 1) 0 =
        lev (token (bytes "bat")) (bytes "cog") ∧
      (t1.node n).data.getD ((bytes "cog").length - 1) 0 ≤ (token (bytes "bat")).length ∧
      (t1.node n).data.getD ((bytes "cog").length - 1) 0 = (token (bytes "bat")).length := by
  obtain ⟨t1, n, a1, a2, a3, a4, a5, a6⟩ :=
    same_length_word_distance (w := bytes "bat")
      (dict_built (bytes "cog") [bytes "bat", bytes "dog\n"] (by decide))
      (by decide) (by decide) (by decide)
  exact ⟨dict_built _ _ (by decide), by decide, by decide, by decide, by decide,
    t1, n, a1, a2, a3, a4, a5, a6 (by decide)⟩

/-- C13: in a trie built from words of bytes below 128 the root has depth 0 and no
parent; a node held in slot `c` of a node `p` has depth one more than `p`, parent link
`p` and character `c`; every node but the root is held by its parent under its own
character; and the depth of every node is the length of its path from the root, every
cell of the heap being such a node. -/
theorem depth_is_path_length {q : List Nat} {t : trie} {ws : List (List Nat)}
    (hb : Built q t ws) :
    (t.node 0).depth = 0 ∧ (t.node 0).parent = none ∧
    (∀ p c k, p < t.heap.length → (t.node p).sub c = some k →
      k < t.heap.length ∧ (t.node k).depth = (t.node p).depth + 1 ∧
      (t.node k).parent = some p ∧ (t.node k).id = c) ∧
    (∀ k, 0 < k → k < t.heap.length → ∃ p, p < t.heap.length ∧ (t.node k).parent = some p ∧
      (t.node p).sub (t.node k).id = some k ∧ (t.node k).depth = (t.node p).depth + 1) ∧
    (∀ p n, descend t 0 p = some n → (t.node n).depth = p.length) ∧
    (∀ n, n < t.heap.length → ∃ p, descend t 0 p = some n) := by
  have h := hb.inv.wf
  refine ⟨h.root_depth, h.root_parent, ?_, ?_, ?_, fun n hn => reach h (n + 1) n (by omega) hn⟩
  · intro p c k hp hs
    obtain ⟨d1, d2, d3, d4⟩ := h.down p c k hp hs
    obtain ⟨p1, u1, -, -, u4⟩ := h.up k (by omega) d2
    rw [d3] at u1
    cases u1
    exact ⟨d2, u4, d3, d4⟩
  · intro k hk0 hk
    obtain ⟨p, u1, u2, u3, u4⟩ := h.up k hk0 hk
    exact ⟨p, by omega, u1, u3, u4⟩
  · intro p n hd
    have := (descend_bound h p 0 n h.pos hd).2.2.2
    rw [h.root_depth] at this
    omega

theorem depth_is_path_length_witness :
    Built (bytes "cog") demo [bytes "cat", bytes "dog\n"] ∧
    (demo.node 0).depth = 0 ∧ (demo.node 0).parent = none ∧
    (∀ p c k, p < demo.heap.length → (demo.node p).sub c = some k →
      k < demo.heap.length ∧ (demo.node k).depth = (demo.node p).depth + 1 ∧
      (demo.node k).parent = some p ∧ (demo.node k).id = c) ∧
    (∀ k, 0 < k → k < demo.heap.length → ∃ p, p < demo.heap.length ∧
      (demo.node k).parent = some p ∧
      (demo.node p).sub (demo.node k).id = some k ∧
      (demo.node k).depth = (demo.node p).depth + 1) ∧
    (∀ p n, descend demo 0 p = some n → (demo.node n).depth = p.length) ∧
    (∀ n, n < demo.heap.length → ∃ p, descend demo 0 p = some n) :=
  ⟨demo_built, depth_is_path_length demo_built⟩

/-- C14: in a trie built by insertions (of words of bytes below 128) that all returned
0, a path `p` leads to a node other than the root exactly when `p` is a non-empty prefix
of an inserted word cut at its first whitespace; a path leads to one node and two paths
to one node are equal; `nodecnt` is the number of cells after the root and the number of
distinct such prefixes; and walking a path that exists (in `trie_subnode` and in
`trie_add`) leaves the heap and `nodecnt` as they are. -/
theorem one_node_per_prefix {q : List Nat} {t : trie} {ws : List (List Nat)}
    (hi : Inserted q t ws) :
    (∀ p, (∃ n, descend t 0 p = some n ∧ n ≠ 0) ↔ (p ≠ [] ∧ ∃ w ∈ ws, p <+: token w)) ∧
    (∀ p1 p2 n, descend t 0 p1 = some n → descend t 0 p2 = some n → p1 = p2) ∧
    (∀ n, n < t.heap.length → ∃ p, descend t 0 p = some n) ∧
    t.nodecnt + 1 = t.heap.length ∧
    t.nodecnt = (prefixes ws).length ∧ (prefixes ws).Nodup ∧
    (∀ p, p ∈ prefixes ws ↔ (p ≠ [] ∧ ∃ w ∈ ws, p <+: token w)) ∧
    (∀ node id k, id < 128 → (t.node node).sub id = some k →
      trie_subnode t node (to_char id) = some (t, some k)) ∧
    (∀ w n, (∀ c ∈ w, c < 128) → descend t 0 (token w) = some n →
      trie_add t w = some (t.store n { t.node n with eow := true }, 0) ∧
      (t.store n { t.node n with eow := true }).heap.length = t.heap.length ∧
      (t.store n { t.node n with eow := true }).nodecnt = t.nodecnt) := by
  have h := (inserted_built hi).inv.wf
  have hp := inserted_pinv hi
  refine ⟨?_, fun p1 p2 n h1 h2 => descend_inj h h.pos p1 p2 n h1 h2,
    fun n hn => reach h (n + 1) n (by omega) hn, hp.count, nodecnt_prefixes h hp,
    List.nodup_dedup _, mem_prefixes ws, trie_subnode_existing t, ?_⟩
  · intro p
    constructor
    · rintro ⟨n, hd, hn⟩
      have hne : p ≠ [] := by
        intro e
        subst e
        simp only [descend, Option.some.injEq] at hd
        exact hn hd.symm
      exact ⟨hne, hp.node_prefix p n hd hne⟩
    · rintro ⟨hne, w, hw, hpre⟩
      obtain ⟨n, hn⟩ := hp.prefix_node w hw p hpre
      have := (descend_bound h p 0 n h.pos hn).2.2.1 hne
      exact ⟨n, hn, by omega⟩
  · intro w n hv hd
    exact ⟨trie_add_existing t w n hv hd, length_store t n _, rfl⟩

theorem one_node_per_prefix_witness :
    Inserted (bytes "cog") demo [bytes "cat", bytes "dog\n"] ∧
    (∀ p, (∃ n, descend demo 0 p = some n ∧ n ≠ 0) ↔
      (p ≠ [] ∧ ∃ w ∈ [bytes "cat", bytes "dog\n"], p <+: token w)) ∧
    (∀ p1 p2 n, descend demo 0 p1 = some n → descend demo 0 p2 = some n → p1 = p2) ∧
    (∀ n, n < demo.heap.length → ∃ p, descend demo 0 p = some n) ∧
    demo.nodecnt + 1 = demo.heap.length ∧
    demo.nodecnt = (prefixes [bytes "cat", bytes "dog\n"]).length ∧
    (prefixes [bytes "cat", bytes "dog\n"]).Nodup ∧
    (∀ p, p ∈ prefixes [bytes "cat", bytes "dog\n"] ↔
      (p ≠ [] ∧ ∃ w ∈ [bytes "cat", bytes "dog\n"], p <+: token w)) ∧
    (∀ node id k, id < 128 → (demo.node node).sub id = some k →
      trie_subnode demo node (to_char id) = some (demo, some k)) ∧
    (∀ w n, (∀ c ∈ w, c < 128) → descend demo 0 (token w) = some n →
      trie_add demo w = some (demo.store n { demo.node n with eow := true }, 0) ∧
      (demo.store n { demo.node n with eow := true }).heap.length = demo.heap.length ∧
      (demo.store n { demo.node n with eow := true }).nodecnt = demo.nodecnt) :=
  ⟨dict_inserted _ _ (by decide), one_node_per_prefix (dict_inserted _ _ (by decide))⟩

/-- C15: the root row made by `trie_new` and the row of a node made by `trie_subnode`
are filled with zeros and as long as the query; so is every row of a trie built from
words of bytes below 128, before the propagation.  A call of `calc_dist` on any node of
any trie returns 0 and keeps the length of every row, and after the propagation walk
every row is as long as the query. -/
theorem rows_have_query_length {q : List Nat} {t : trie} {ws : List (List Nat)}
    (hb : Built q t ws) :
    (∀ s, ((trie_new q s).node 0).data = List.replicate q.length 0) ∧
    (∀ node id x k, id < 128 → node < t.heap.length → (t.node node).sub id = none →
      trie_subnode t node (to_char id) = some x → x.2 = some k →
      (x.1.node k).data = List.replicate t.word.length 0) ∧
    t.word = q ∧
    (∀ k, k < t.heap.length → (t.node k).data = List.replicate q.length 0) ∧
    (∀ (t0 : trie) (n : Nat), n < t0.heap.length →
      ∃ t1, calc_dist q t0 n = some (t1, [], 0) ∧ t1.heap.length = t0.heap.length ∧
        ∀ k, (t1.node k).data.length = (t0.node k).data.length) ∧
    ∃ t1, trie_walk t (calc_dist q) false = some (t1, [], 0) ∧
      t1.heap.length = t.heap.length ∧
      ∀ k, k < t1.heap.length → (t1.node k).data.length = q.length := by
  have hi := hb.inv
  have hz := built_zero hb
  refine ⟨fun s => rfl, ?_, hi.word, ?_, ?_, ?_⟩
  · intro node id x k hid hn hs hx hr
    rcases trie_subnode_cases t node id hid with ⟨k1, h1, -⟩ | ⟨-, rest, -, h3⟩ | ⟨-, h2⟩
    · rw [hs] at h1; cases h1
    · rw [h3] at hx; cases hx; cases hr
    · rw [h2] at hx
      cases hx
      have : t.heap.length = k := Option.some.inj hr
      subst this
      rw [grown_new t node id _ hn]
  · intro k hk
    rw [hz k hk, hi.word]
  · intro t0 n hn
    obtain ⟨t1, e1, e2⟩ := calc_dist_frame q t0 n hn
    exact ⟨t1, e1, e2.len, fun k => (e2.same k).2.2.2.2.2⟩
  · obtain ⟨t1, L, e1, -, e3, -⟩ := log_root (q := q) hi.wf
    refine ⟨t1, e1, e3.len, ?_⟩
    intro k hk
    rw [(e3.same k).2.2.2.2.2, hi.wf.rows k (by rw [← e3.len]; exact hk), hi.word]

theorem rows_have_query_length_witness :
    Built (bytes "cog") demo [bytes "cat", bytes "dog\n"] ∧
    (∀ s, ((trie_new (bytes "cog") s).node 0).data = List.replicate (bytes "cog").length 0) ∧
    (∀ node id x k, id < 128 → node < demo.heap.length → (demo.node node).sub id = none →
      trie_subnode demo node (to_char id) = some x → x.2 = some k →
      (x.1.node k).data = List.replicate demo.word.length 0) ∧
    demo.word = bytes "cog" ∧
    (∀ k, k < demo.heap.length →
      (demo.node k).data = List.replicate (bytes "cog").length 0) ∧
    (∀ (t0 : trie) (n : Nat), n < t0.heap.length →
      ∃ t1, calc_dist (bytes "cog") t0 n = some (t1, [], 0) ∧
        t1.heap.length = t0.heap.length ∧
        ∀ k, (t1.node k).data.length = (t0.node k).data.length) ∧
    ∃ t1, trie_walk demo (calc_dist (bytes "cog")) false = some (t1, [], 0) ∧
      t1.heap.length = demo.heap.length ∧
      ∀ k, k < t1.heap.length → (t1.node k).data.length = (bytes "cog").length :=
  ⟨demo_built, rows_have_query_length demo_built⟩

/-- C16: the propagation walk of a trie built from words of bytes below 128 keeps the
number of cells, `nodecnt`, the query word and, for every node, the character, the `eow`
flag, the depth, the parent link and the child table; and a selection walk, before or
after the propagation, returns the trie it was given. -/
theorem walks_keep_the_trie {q : List Nat} {t : trie} {ws : List (List Nat)}
    (hb : Built q t ws) :
    ∃ t1, trie_walk t (calc_dist q) false = some (t1, [], 0) ∧
      t1.heap.length = t.heap.length ∧ t1.nodecnt = t.nodecnt ∧ t1.word = t.word ∧
      (∀ k, (t1.node k).id = (t.node k).id ∧ (t1.node k).eow = (t.node k).eow ∧
        (t1.node k).depth = (t.node k).depth ∧ (t1.node k).parent = (t.node k).parent ∧
        (t1.node k).subnodes = (t.node k).subnodes) ∧
      (∀ m, ∃ R, trie_walk t1 (print_if_equal m) true =
        some (t1, spaced R, (R.length : Int))) ∧
      (∀ m, ∃ R, trie_walk t (print_if_equal m) true =
        some (t, spaced R, (R.length : Int))) := by
  have hi := hb.inv
  obtain ⟨t1, L, e1, -, e3, -⟩ := log_root (q := q) hi.wf
  have h1 : WF t1 := (frame_shape e3).wf hi.wf
  refine ⟨t1, e1, e3.len, e3.nodecnt, e3.word, ?_, ?_, ?_⟩
  · intro k
    obtain ⟨a1, a2, a3, a4, a5, -⟩ := e3.same k
    exact ⟨a1, a2, a3, a4, a5⟩
  · intro m
    obtain ⟨R, r1, -⟩ := sel_root m h1
    exact ⟨R, r1⟩
  · intro m
    obtain ⟨R, r1, -⟩ := sel_root m hi.wf
    exact ⟨R, r1⟩

theorem walks_keep_the_trie_witness :
    Built (bytes "cog") demo [bytes "cat", bytes "dog\n"] ∧
    ∃ t1, trie_walk demo (calc_dist (bytes "cog")) false = some (t1, [], 0) ∧
      t1.heap.length = demo.heap.length ∧ t1.nodecnt = demo.nodecnt ∧
      t1.word = demo.word ∧
      (∀ k, (t1.node k).id = (demo.node k).id ∧ (t1.node k).eow = (demo.node k).eow ∧
        (t1.node k).depth = (demo.node k).depth ∧
        (t1.node k).parent = (demo.node k).parent ∧
        (t1.node k).subnodes = (demo.node k).subnodes) ∧
      (∀ m, ∃ R, trie_walk t1 (print_if_equal m) true =
        some (t1, spaced R, (R.length : Int))) ∧
      (∀ m, ∃ R, trie_walk demo (print_if_equal m) true =
        some (demo, spaced R, (R.length : Int))) :=
  ⟨demo_built, walks_keep_the_trie demo_built⟩

/-- C17: the propagation walk of a trie built from words of bytes below 128 returns 0,
and with `calc_dist` logging the address of each node it is applied to, the walk ends in
the same trie and the log starts with the root, has every cell of the heap exactly once,
and has every node after its parent. -/
theorem propagation_visits_parent_first {q : List Nat} {t : trie} {ws : List (List Nat)}
    (hb : Built q t ws) :
    ∃ t1 L, trie_walk t (calc_dist q) false = some (t1, [], 0) ∧
      trie_walk t (logged (calc_dist q)) false = some (t1, L, 0) ∧
      L.Nodup ∧ (∀ m, m ∈ L ↔ m < t.heap.length) ∧ L.length = t.heap.length ∧
      (∃ tl, L = 0 :: tl) ∧
      (∀ A B m p, L = A ++ m :: B → (t.node m).parent = some p → p ∈ A) := by
  obtain ⟨t1, L, e1, e2, -, e4, e5, e6, e7⟩ := log_root (q := q) hb.inv.wf
  refine ⟨t1, L, e1, e2, e4, e5, ?_, e6, e7⟩
  have hperm : L.Perm (List.range t.heap.length) := by
    rw [List.perm_ext_iff_of_nodup e4 (List.nodup_range _)]
    intro m
    rw [e5 m, List.mem_range]
  rw [hperm.length_eq, List.length_range]

theorem propagation_visits_parent_first_witness :
    Built (bytes "cog") demo [bytes "cat", bytes "dog\n"] ∧
    ∃ t1 L, trie_walk demo (calc_dist (bytes "cog")) false = some (t1, [], 0) ∧
      trie_walk demo (logged (calc_dist (bytes "cog"))) false = some (t1, L, 0) ∧
      L.Nodup ∧ (∀ m, m ∈ L ↔ m < demo.heap.length) ∧ L.length = demo.heap.length ∧
      (∃ tl, L = 0 :: tl) ∧
      (∀ A B m p, L = A ++ m :: B → (demo.node m).parent = some p → p ∈ A) :=
  ⟨demo_built, propagation_visits_parent_first demo_built⟩

/-- C18: for a dictionary of words of bytes below 128, when some end-of-word node has
its last row entry `i` below `strlen (q)`, the value `j` returned by `trie_measure` is
the least such entry, and the report is exactly the list, in increasing order, of the
paths of the end-of-word nodes with last row entry `j` that have no such node strictly
above them; no reported word is a proper prefix of another one, and the selection walk
for the threshold `j` returns the number of reported words. -/
theorem report_is_exact {q : List Nat} {t : trie} {ws : List (List Nat)}
    (hb : Built q t ws) :
    ∃ t1 R j, trie_measure t q = some (t1, spaced R, j) ∧
      trie_walk t (calc_dist q) false = some (t1, [], 0) ∧
      ∀ i p n, i < q.length → descend t1 0 p = some n → (t1.node n).eow = true →
        (t1.node n).data.getD (q.length - 1) 0 = i →
        j ≤ i ∧
        (∀ i1 p1 n1, i1 < j → descend t1 0 p1 = some n1 → (t1.node n1).eow = true →
          (t1.node n1).data.getD (q.length - 1) 0 ≠ i1) ∧
        (∀ r, r ∈ R ↔ ∃ n1, descend t1 0 r = some n1 ∧ (t1.node n1).eow = true ∧
          (t1.node n1).data.getD (q.length - 1) 0 = j ∧
          ∀ s n2, s <+: r → s ≠ r → descend t1 0 s = some n2 →
            ¬ ((t1.node n2).eow = true ∧ (t1.node n2).data.getD (q.length - 1) 0 = j)) ∧
        R ≠ [] ∧ R.Pairwise (List.Lex (· < ·)) ∧
        (∀ r1 ∈ R, ∀ r2 ∈ R, r1 <+: r2 → r1 = r2) ∧
        trie_walk t1 (print_if_equal { len := j, wordlen := q.length }) true =
          some (t1, spaced R, (R.length : Int)) := by
  have hi := hb.inv
  obtain ⟨t1, R, j, e1, e2, -, -, e5, e6⟩ := measure_exact hi.wf hi.word
  refine ⟨t1, R, j, e1, e2, ?_⟩
  intro i p n hiL hd he hrow
  rcases e6 with ⟨a1, a2, a3, a4⟩ | ⟨-, a2⟩
  · refine ⟨?_, ?_, ?_, a1, a3.sorted, sel_no_prefix a3, a4⟩
    · by_contra hlt
      exact e5 i (by omega) p n hd he hrow
    · intro i1 p1 n1 h1 hd1 he1
      exact e5 i1 h1 p1 n1 hd1 he1
    · intro r
      exact sel_mem a3 r
  · exact absurd hrow (e5 i (by omega) p n hd he)

theorem report_is_exact_witness :
    Built (bytes "cog") demo [bytes "cat", bytes "dog\n"] ∧
    ∃ t1 R j, trie_measure demo (bytes "cog") = some (t1, spaced R, j) ∧
      trie_walk demo (calc_dist (bytes "cog")) false = some (t1, [], 0) ∧
      ∀ i p n, i < (bytes "cog").length → descend t1 0 p = some n →
        (t1.node n).eow = true →
        (t1.node n).data.getD ((bytes "cog").length - 1) 0 = i →
        j ≤ i ∧
        (∀ i1 p1 n1, i1 < j → descend t1 0 p1 = some n1 → (t1.node n1).eow = true →
          (t1.node n1).data.getD ((bytes "cog").length - 1) 0 ≠ i1) ∧
        (∀ r, r ∈ R ↔ ∃ n1, descend t1 0 r = some n1 ∧ (t1.node n1).eow = true ∧
          (t1.node n1).data.getD ((bytes "cog").length - 1) 0 = j ∧
          ∀ s n2, s <+: r → s ≠ r → descend t1 0 s = some n2 →
            ¬ ((t1.node n2).eow = true ∧
              (t1.node n2).data.getD ((bytes "cog").length - 1) 0 = j)) ∧
        R ≠ [] ∧ R.Pairwise (List.Lex (· < ·)) ∧
        (∀ r1 ∈ R, ∀ r2 ∈ R, r1 <+: r2 → r1 = r2) ∧
        trie_walk t1 (print_if_equal { len := j, wordlen := (bytes "cog").length }) true =
          some (t1, spaced R, (R.length : Int)) :=
  ⟨demo_built, report_is_exact demo_built⟩

/-- C19: for two tries built, without a failed insertion, from lists of words of bytes
below 128 with the same words (for instance the same list in another order, or with a
word repeated): inserting a word that is already in the trie returns 0 and the very same
trie; the two tries have the same `nodecnt`, the same number of cells, the same paths,
and at every path nodes with the same `eow`, depth, character and row, before and after
the propagation; and `trie_measure` writes the same report and returns the same value
for both. -/
theorem trie_depends_on_word_set {q : List Nat} {t t1 : trie} {ws ws1 : List (List Nat)}
    (hi : Inserted q t ws) (hi1 : Inserted q t1 ws1)
    (hset : ∀ p, (∃ w ∈ ws, p = token w) ↔ (∃ w ∈ ws1, p = token w)) :
    (∀ w, (∀ c ∈ w, c < 128) → (∃ w1 ∈ ws, token w1 = token w) →
      trie_add t w = some (t, 0)) ∧
    (t.nodecnt = t1.nodecnt ∧ t.heap.length = t1.heap.length ∧
      (∀ p, (∃ n, descend t 0 p = some n) ↔ ∃ n1, descend t1 0 p = some n1) ∧
      (∀ p n n1, descend t 0 p = some n → descend t1 0 p = some n1 →
        (t.node n).eow = (t1.node n1).eow ∧ (t.node n).depth = (t1.node n1).depth ∧
        (t.node n).data = (t1.node n1).data ∧
        (p ≠ [] → (t.node n).id = (t1.node n1).id))) ∧
    (∃ a a1, trie_walk t (calc_dist q) false = some (a, [], 0) ∧
      trie_walk t1 (calc_dist q) false = some (a1, [], 0) ∧
      (∀ n p, descend a n p = descend t n p) ∧ (∀ n p, descend a1 n p = descend t1 n p) ∧
      ∀ p n n1, descend a 0 p = some n → descend a1 0 p = some n1 →
        (a.node n).data = (a1.node n1).data) ∧
    (trie_measure t q).map (fun r => (r.2.1, r.2.2)) =
      (trie_measure t1 q).map (fun r => (r.2.1, r.2.2)) ∧
    (∀ (l l1 : List (List Nat)), l.Perm l1 →
      ∀ p, (∃ w ∈ l, p = token w) ↔ (∃ w ∈ l1, p = token w)) := by
  have hb := inserted_built hi
  have hb1 := inserted_built hi1
  refine ⟨?_, trie_same hi hi1 hset,
    rows_same hb.inv.wf hb.inv.word hb1.inv.wf hb1.inv.word, measure_same hb hb1 hset, ?_⟩
  · intro w hlow hw
    obtain ⟨w1, hw1, e1⟩ := hw
    have hv := hb.inv
    obtain ⟨n, n1, n2⟩ := hv.word_eow w1 hw1
    rw [e1] at n1
    rw [trie_add_existing t w n hlow n1,
      store_self t n (descend_bound hv.wf _ 0 n hv.wf.pos n1).2.1 n2]
  · intro l l1 hperm p
    constructor
    · rintro ⟨w, hw, e⟩; exact ⟨w, hperm.mem_iff.mp hw, e⟩
    · rintro ⟨w, hw, e⟩; exact ⟨w, hperm.mem_iff.mpr hw, e⟩

theorem trie_depends_on_word_set_witness :
    Inserted (bytes "cog") demo [bytes "cat", bytes "dog\n"] ∧
    Inserted (bytes "cog") (dict (bytes "cog") [bytes "dog", bytes "cat", bytes "dog"])
      [bytes "dog", bytes "cat", bytes "dog"] ∧
    (∀ p, (∃ w ∈ [bytes "cat", bytes "dog\n"], p = token w) ↔
      (∃ w ∈ [bytes "dog", bytes "cat", bytes "dog"], p = token w)) ∧
    (∀ w, (∀ c ∈ w, c < 128) → (∃ w1 ∈ [bytes "cat", bytes "dog\n"], token w1 = token w) →
      trie_add demo w = some (demo, 0)) ∧
    demo.nodecnt = (dict (bytes "cog") [bytes "dog", bytes "cat", bytes "dog"]).nodecnt ∧
    (trie_measure demo (bytes "cog")).map (fun r => (r.2.1, r.2.2)) =
      (trie_measure (dict (bytes "cog") [bytes "dog", bytes "cat", bytes "dog"])
        (bytes "cog")).map (fun r => (r.2.1, r.2.2)) := by
  have hset : ∀ p, (∃ w ∈ [bytes "cat", bytes "dog\n"], p = token w) ↔
      (∃ w ∈ [bytes "dog", bytes "cat", bytes "dog"], p = token w) := by
    intro p
    constructor
    · rintro ⟨w, hw, e⟩
      rcases List.mem_cons.mp hw with h | h
      · subst h; exact ⟨bytes "cat", by decide, e⟩
      · rcases List.mem_cons.mp h with h2 | h2
        · subst h2; exact ⟨bytes "dog", by decide, by rw [e]; decide⟩
        · cases h2
    · rintro ⟨w, hw, e⟩
      rcases List.mem_cons.mp hw with h | h
      · subst h; exact ⟨bytes "dog\n", by decide, by rw [e]; decide⟩
      · rcases List.mem_cons.mp h with h2 | h2
        · subst h2; exact ⟨bytes "cat", by decide, e⟩
        · rcases List.mem_cons.mp h2 with h3 | h3
          · subst h3; exact ⟨bytes "dog\n", by decide, by rw [e]; decide⟩
          · cases h3
  have hthm := trie_depends_on_word_set (dict_inserted (bytes "cog")
    [bytes "cat", bytes "dog\n"] (by decide)) (dict_inserted (bytes "cog")
    [bytes "dog", bytes "cat", bytes "dog"] (by decide)) hset
  exact ⟨dict_inserted _ _ (by decide), dict_inserted _ _ (by decide), hset, hthm.1,
    hthm.2.1.1, hthm.2.2.2.1⟩

/-- C20: for a dictionary of words of bytes below 128, the value returned by
`trie_measure` is the least of `strlen (q)` and the distances between `q` and the
inserted words (cut at their first whitespace): the least distance when words are
reported, and `strlen (q)` when none is. -/
theorem measure_returns_least_distance {q : List Nat} {t : trie} {ws : List (List Nat)}
    (hb : Built q t ws) :
    ∃ t1 R j, trie_measure t q = some (t1, spaced R, j) ∧
      j = (ws.map (fun w => lev (token w) q)).foldr min q.length ∧
      (∀ w ∈ ws, j ≤ lev (token w) q) ∧ j ≤ q.length ∧
      (R ≠ [] → j < q.length ∧ ∃ w ∈ ws, lev (token w) q = j) ∧
      (R = [] → j = q.length) := by
  obtain ⟨t1, R, j, e1, e2, -⟩ := measure_words hb
  have hatt : R ≠ [] → j < q.length ∧ ∃ w ∈ ws, lev (token w) q = j := by
    intro hR
    obtain ⟨r, hr⟩ := List.exists_mem_of_ne_nil R hR
    obtain ⟨⟨w, hw, e⟩, hl, hlt⟩ := e2.sound r hr
    exact ⟨hlt, w, hw, by rw [← e]; exact hl⟩
  refine ⟨t1, R, j, e1, ?_, e2.least, e2.le, hatt, e2.none⟩
  apply foldr_min_eq _ _ _ e2.le
  · intro a ha
    obtain ⟨w, hw, rfl⟩ := List.mem_map.mp ha
    exact e2.least w hw
  · by_cases hR : R = []
    · exact Or.inl (e2.none hR)
    · obtain ⟨-, w, hw, hl⟩ := hatt hR
      exact Or.inr (List.mem_map.mpr ⟨w, hw, hl⟩)

theorem measure_returns_least_distance_witness :
    Built (bytes "cog") demo [bytes "cat", bytes "dog\n"] ∧
    ∃ t1 R j, trie_measure demo (bytes "cog") = some (t1, spaced R, j) ∧
      j = ([bytes "cat", bytes "dog\n"].map
        (fun w => lev (token w) (bytes "cog"))).foldr min (bytes "cog").length ∧
      (∀ w ∈ [bytes "cat", bytes "dog\n"], j ≤ lev (token w) (bytes "cog")) ∧
      j ≤ (bytes "cog").length ∧
      (R ≠ [] → j < (bytes "cog").length ∧
        ∃ w ∈ [bytes "cat", bytes "dog\n"], lev (token w) (bytes "cog") = j) ∧
      (R = [] → j = (bytes "cog").length) :=
  ⟨demo_built, measure_returns_least_distance demo_built⟩

end DidYouMean
